import Mathlib

/-!
# font-viewer: versions, update check, changelog, storage and the scroll window

A shallow embedding of

* `scripts/version-release.mjs`: `compareVersions` (segment-wise comparator) and the start
  of `release`, up to the next version,
* `scripts/updatelog.mjs`: `updatelog`,
* `src/utils/updateUtils.js`: `parseVersionToNumber`, `compareVersions` (digit-collapsing
  comparator), `fetchLatestVersion`, `parseChangelogFromMarkdown`, `mapChangeType`,
  `updateChangelogData`, `fetchChangelogFromUpdatePackage`,
* `src/constants/version.js`: `CURRENT_VERSION`, `formatVersion`, `formatChangelogToMarkdown`,
* `src/utils/storage.js`: `saveToStorage`, `getFromStorage`,
* `src/composables/useFontManagement.js`: `toggleFavorite`,
* `src/composables/useVirtualScroll.js`: `startIndex`, `endIndex`, `visibleItems`,

together with the JavaScript built-ins these functions call (`String.prototype.split`,
`trim`, `replace`, `includes`, `Number`, `parseInt`, `String.prototype.match` and
`RegExp.prototype.test` with the backtracking matcher of regular expressions, the operators
and `Math` functions on numbers, `Array.prototype.slice` and `map`).

Conventions of the embedding:

* a JavaScript string is the list of its characters (`Str`); strings with unpaired
  surrogates are outside the model, except for the keys of the tag map of `updatelog`, which
  `slice` cuts at a position counted in UTF-16 code units and which are kept as code units;
* a JavaScript number is a `JSNumber`: `NaN`, the two infinities, or a finite binary64 value,
  stored as the integer `k` with value `k · 2⁻¹⁰⁷⁴` (every finite binary64 value is such a
  multiple); `+0` and `-0` are identified, which no comparison can tell apart; a numeric
  literal and the result of an operator are rounded to nearest, ties to even; the text of a
  number (`numberToString`) is given for the integers of magnitude up to `2^53` only;
* the end of the process by `process.exit(1)` is the result `Except.error 1`;
* `localStorage` is a list of pairs of texts (`Storage.Store`), `JSON` and the failures of
  the storage are arguments (`Storage.Json`, `Storage.StorageEnv`), and a function that
  writes to the store or to a file returns what it leaves there;
* a function that can throw, or an `async` function whose promise can be rejected, returns
  `Except JSError _`;
* an array that is shared and mutated in place lives in a `Heap` and is passed by reference
  (`Ref`); a function that writes to it takes the heap and returns the heap it leaves;
* what a function takes from outside the module is an explicit argument: the build flag and
  the updater (`UpdaterEnv`), the sources of the changelog (`ChangelogEnv`), the case mapping
  of `toLowerCase` and the current date (`Runtime`), the bindings of the identifiers a
  module reads without declaring them (`Scope`), and the constant `VERSION_HISTORY` that the
  release scripts rewrite.

The first part of the file holds the definitions, the second the lemmas and theorems.
-/

namespace FontViewer

/-- A JavaScript string, as the list of its characters. -/
abbrev Str := List Char

/-! ## Characters and strings -/

/-- ECMAScript `LineTerminator`: LF, CR, LS, PS. -/
def isLineTerminator (c : Char) : Bool :=
  c.toNat == 0x0A || c.toNat == 0x0D || c.toNat == 0x2028 || c.toNat == 0x2029

/-- ECMAScript `WhiteSpace`: TAB, VT, FF, SP, NBSP, ZWNBSP and the space separators. -/
def isWhiteSpace (c : Char) : Bool :=
  c.toNat == 0x09 || c.toNat == 0x0B || c.toNat == 0x0C || c.toNat == 0x20 ||
  c.toNat == 0xA0 || c.toNat == 0x1680 || (0x2000 ≤ c.toNat && c.toNat ≤ 0x200A) ||
  c.toNat == 0x202F || c.toNat == 0x205F || c.toNat == 0x3000 || c.toNat == 0xFEFF

/-- The characters removed by `trim` and matched by the regular-expression class `\s`. -/
def isSpace (c : Char) : Bool := isWhiteSpace c || isLineTerminator c

/-- The regular-expression class `\d`, and a `DecimalDigit` of a numeric literal. -/
def isDigit (c : Char) : Bool := 48 ≤ c.toNat && c.toNat ≤ 57

/-- `String.prototype.trimStart`. -/
def trimStart (s : Str) : Str := s.dropWhile isSpace

/-- `String.prototype.trimEnd`. -/
def trimEnd (s : Str) : Str := (s.reverse.dropWhile isSpace).reverse

/-- `String.prototype.trim`. -/
def trim (s : Str) : Str := trimEnd (trimStart s)

/-- `String.prototype.split` with a separator of one character: the pieces between the
occurrences of `sep`; the empty string splits into one empty piece. -/
def split (sep : Char) : Str → List Str
  | [] => [[]]
  | c :: cs =>
    if c = sep then [] :: split sep cs
    else match split sep cs with
      | [] => [[c]]
      | p :: ps => (c :: p) :: ps

/-! ## Numbers -/

/-- A JavaScript number: `fin k` is the finite binary64 value `k · 2⁻¹⁰⁷⁴`. -/
inductive JSNumber where
  | nan
  | negInf
  | fin (k : Int)
  | posInf
  deriving DecidableEq, Repr

namespace JSNumber

/-- The binary64 value of the integer `n` when `n` is exactly representable. -/
def ofNat (n : Nat) : JSNumber := fin (n * 2 ^ 1074)

/-- The number `0`. -/
def zero : JSNumber := fin 0

/-- The relational operator `x < y` on numbers: false as soon as an operand is `NaN`. -/
def lt : JSNumber → JSNumber → Bool
  | nan, _ => false
  | _, nan => false
  | negInf, negInf => false
  | negInf, _ => true
  | _, negInf => false
  | posInf, _ => false
  | fin _, posInf => true
  | fin a, fin b => decide (a < b)

/-- The relational operator `x > y`, which ECMAScript evaluates as `y < x`. -/
def gt (x y : JSNumber) : Bool := lt y x

/-- Unary minus. -/
def neg : JSNumber → JSNumber
  | nan => nan
  | negInf => posInf
  | fin k => fin (-k)
  | posInf => negInf

end JSNumber

/-- The floor of the binary logarithm, `0` at `0`; the first argument bounds the recursion
and `n` itself is always enough. -/
def log2Floor : Nat → Nat → Nat
  | 0, _ => 0
  | fuel + 1, n => if n < 2 then 0 else log2Floor fuel (n / 2) + 1

/-- The integer nearest to `num / den`, ties to the even one. -/
def roundHalfEven (num den : Nat) : Nat :=
  let q := num / den
  let r := num % den
  if 2 * r < den then q
  else if den < 2 * r then q + 1
  else if q % 2 = 0 then q else q + 1

/-- Rounding of the non-negative rational `p / q` to binary64, to nearest, ties to even.
In units of `2⁻¹⁰⁷⁴` the representable values below `2⁵³` are the integers, and those of
`[2^(52+j), 2^(53+j))` are the multiples of `2^j`; a result of `2^1024` or more is `Infinity`. -/
def roundBinary64 (p q : Nat) : JSNumber :=
  let s := p * 2 ^ 1074
  let k0 := s / q
  let j := log2Floor k0 k0 - 52
  let k := roundHalfEven s (q * 2 ^ j) * 2 ^ j
  if 2 ^ 2098 ≤ k then JSNumber.posInf else JSNumber.fin k

/-- The number denoted by the mantissa `m`, the decimal exponent `e` and a sign. -/
def ofDecimal (negative : Bool) (m : Nat) (e : Int) : JSNumber :=
  let v := if 0 ≤ e then roundBinary64 (m * 10 ^ e.toNat) 1 else roundBinary64 m (10 ^ (-e).toNat)
  if negative then v.neg else v

/-- Value of one digit in a radix up to 16, `none` for a character that is not one. -/
def digitValue (radix : Nat) (c : Char) : Option Nat :=
  let v :=
    if 48 ≤ c.toNat && c.toNat ≤ 57 then some (c.toNat - 48)
    else if 97 ≤ c.toNat && c.toNat ≤ 102 then some (c.toNat - 87)
    else if 65 ≤ c.toNat && c.toNat ≤ 70 then some (c.toNat - 55)
    else none
  match v with
  | some d => if d < radix then some d else none
  | none => none

/-- Whether `c` is a digit of the radix. -/
def isRadixDigit (radix : Nat) (c : Char) : Bool := (digitValue radix c).isSome

/-- The integer written by a list of digits of the radix. -/
def natOfDigits (radix : Nat) (ds : Str) : Nat :=
  ds.foldl (fun n c => radix * n + (digitValue radix c).getD 0) 0

/-- Whether a literal starts with the sign `-`. -/
def hasMinusSign : Str → Bool
  | '-' :: _ => true
  | _ => false

/-- A literal without its leading sign `+` or `-`, when it has one. -/
def stripSign : Str → Str
  | '+' :: r => r
  | '-' :: r => r
  | r => r

/-- A `StrUnsignedDecimalLiteral` other than `Infinity`: digits, an optional fraction and an
optional exponent part; the result `(m, e)` stands for `m · 10^e`. -/
def parseUnsignedDecimal (s : Str) : Option (Nat × Int) :=
  let intPart := s.takeWhile isDigit
  let afterInt := s.dropWhile isDigit
  let fracPart := match afterInt with
    | '.' :: r => r.takeWhile isDigit
    | _ => []
  let afterFrac := match afterInt with
    | '.' :: r => r.dropWhile isDigit
    | r => r
  if intPart = [] ∧ fracPart = [] then none
  else
    let m := natOfDigits 10 (intPart ++ fracPart)
    let e0 : Int := -(fracPart.length : Int)
    match afterFrac with
    | [] => some (m, e0)
    | c :: r =>
      if c = 'e' ∨ c = 'E' then
        let ds := stripSign r
        if ds ≠ [] ∧ ds.all isDigit then
          some (m, if hasMinusSign r then e0 - natOfDigits 10 ds else e0 + natOfDigits 10 ds)
        else none
      else none

/-- A `NonDecimalIntegerLiteral`: `0x`, `0o` or `0b` (either case) followed by digits. -/
def parseNonDecimal (s : Str) : Option Nat :=
  match s with
  | '0' :: x :: ds =>
    let radix :=
      if x = 'x' ∨ x = 'X' then 16
      else if x = 'o' ∨ x = 'O' then 8
      else if x = 'b' ∨ x = 'B' then 2
      else 0
    if radix ≠ 0 ∧ ds ≠ [] ∧ ds.all (isRadixDigit radix) then some (natOfDigits radix ds)
    else none
  | _ => none

/-- The function `Number` applied to a string (ECMAScript `StringToNumber`): surrounding
white space is dropped, the empty text is `0`, a numeric literal is rounded to binary64, and
anything else is `NaN`. -/
def Number (s : Str) : JSNumber :=
  let t := trim s
  if t = [] then JSNumber.zero
  else match parseNonDecimal t with
    | some n => roundBinary64 n 1
    | none =>
      if stripSign t = "Infinity".toList then
        (if hasMinusSign t then JSNumber.negInf else JSNumber.posInf)
      else match parseUnsignedDecimal (stripSign t) with
        | some (m, e) => ofDecimal (hasMinusSign t) m e
        | none => JSNumber.nan

/-! ## `scripts/version-release.mjs` -/

namespace VersionRelease

/-- The `for` loop of `compareVersions`: the first argument counts the iterations left
(`Math.max(partsA.length, partsB.length) - i`), the second is the index `i`. -/
def compareLoop (partsA partsB : List JSNumber) : Nat → Nat → Int
  | 0, _ => 0
  | left + 1, i =>
    let partA := if i < partsA.length then partsA.getD i JSNumber.zero else JSNumber.zero
    let partB := if i < partsB.length then partsB.getD i JSNumber.zero else JSNumber.zero
    if JSNumber.gt partA partB then 1
    else if JSNumber.lt partA partB then -1
    else compareLoop partsA partsB left (i + 1)

/-- `compareVersions(versionA, versionB)` of `scripts/version-release.mjs`. -/
def compareVersions (versionA versionB : Str) : Int :=
  if versionA = [] ∨ versionB = [] then 0
  else
    let partsA := (split '.' versionA).map Number
    let partsB := (split '.' versionB).map Number
    compareLoop partsA partsB (max partsA.length partsB.length) 0

end VersionRelease


/-! ## `src/constants/version.js` -/

namespace Version

/-- The constant `CURRENT_VERSION`. -/
def CURRENT_VERSION : Str := "v1.0.1".toList

/-- `formatVersion(version, { removePrefix })`: `version.replace(/^v/, '')` when
`removePrefix` is set, `version` unchanged otherwise (the default). -/
def formatVersion (version : Str) (removePrefix : Bool) : Str :=
  if removePrefix then
    match version with
    | 'v' :: r => r
    | r => r
  else version

end Version

/-! ## `src/utils/updateUtils.js`: versions -/

/-- An exception: the `ReferenceError` raised by reading an identifier that has no binding,
or whatever an external collaborator throws. -/
inductive JSError where
  | referenceError (identifier : String)
  | thrown (message : String)
  deriving DecidableEq, Repr

deriving instance DecidableEq for Except

/-- `String.prototype.replace(c, '')` for a pattern of one character: the first occurrence of
`c` is removed. -/
def removeFirst (c : Char) : Str → Str
  | [] => []
  | x :: xs => if x = c then xs else x :: removeFirst c xs

/-- `String.prototype.replace(/\./g, '')`: every dot is removed. -/
def removeDots (s : Str) : Str := s.filter (fun c => c != '.')

/-- The global `parseInt(string)` called with no radix: leading white space and a sign are
skipped, `0x` or `0X` selects radix 16, the longest run of digits is read and rounded to
binary64, and no digit at all gives `NaN`. -/
def parseInt (s : Str) : JSNumber :=
  let t := trimStart s
  let u := stripSign t
  let hex := match u with
    | '0' :: x :: _ => decide (x = 'x' ∨ x = 'X')
    | _ => false
  let radix := if hex then 16 else 10
  let body := if hex then u.drop 2 else u
  let z := body.takeWhile (isRadixDigit radix)
  if z = [] then JSNumber.nan
  else
    let v := roundBinary64 (natOfDigits radix z) 1
    if hasMinusSign t then v.neg else v

namespace UpdateUtils

/-- `parseVersionToNumber(version)`. -/
def parseVersionToNumber (version : Str) : JSNumber :=
  if version = [] then JSNumber.zero
  else parseInt (removeDots (removeFirst 'v' version))

/-- `compareVersions(versionA, versionB)` of `updateUtils.js`. -/
def compareVersions (versionA versionB : Str) : Int :=
  let versionANum := parseVersionToNumber versionA
  let versionBNum := parseVersionToNumber versionB
  if JSNumber.gt versionANum versionBNum then 1
  else if JSNumber.lt versionANum versionBNum then -1
  else 0

/-- A reference to an array of release entries. -/
abbrev Ref := Nat

/-- What the identifiers that `updateUtils.js` reads without declaring them are bound to;
`none` stands for an identifier with no binding, whose evaluation throws. `CHANGELOG` is
bound to an array, by reference. -/
structure Scope where
  CURRENT_VERSION : Option Str
  formatVersion : Option (Str → Str)
  CHANGELOG : Option Ref

/-- The scope of `updateUtils.js` as the file is written: its single import statement brings
in `GITHUB_CHANGELOG_URL`, and the module declares none of `CURRENT_VERSION`,
`formatVersion` and `CHANGELOG`, so the three are unbound. -/
def moduleScope : Scope :=
  { CURRENT_VERSION := none, formatVersion := none, CHANGELOG := none }

/-- The scope the module would have with the like-named exports of the constants imported:
`CURRENT_VERSION` and `formatVersion` of `constants/version.js`, and `CHANGELOG` of
`constants/index.js`, which is the array `VERSION_HISTORY` itself, held at reference `0`. -/
def linkedScope : Scope :=
  { CURRENT_VERSION := some Version.CURRENT_VERSION
    formatVersion := some (fun v => Version.formatVersion v false)
    CHANGELOG := some 0 }

/-- Evaluation of an identifier. -/
def resolve {α : Type} (identifier : String) : Option α → Except JSError α
  | some v => Except.ok v
  | none => Except.error (JSError.referenceError identifier)

/-- The update manifest of the Tauri updater. -/
structure Manifest where
  version : Str
  deriving DecidableEq, Repr

/-- The external collaborators of `fetchLatestVersion`: the build flag `import.meta.env.PROD`
and the outcome of `await import('@tauri-apps/api/updater')` followed by
`await checkUpdate()`, which either throws or yields `{ shouldUpdate, manifest }`. -/
structure UpdaterEnv where
  isProduction : Bool
  checkUpdate : Except JSError (Bool × Option Manifest)

/-- The object returned by `fetchLatestVersion`. -/
structure UpdateInfo where
  version : Str
  hasUpdate : Bool
  currentVersion : Str
  deriving DecidableEq, Repr

/-- The body of the `try` block of `fetchLatestVersion`. -/
def fetchLatestVersionTry (scope : Scope) (env : UpdaterEnv) (currentVersion : Str) :
    Except JSError UpdateInfo :=
  match env.checkUpdate with
  | Except.error e => Except.error e
  | Except.ok (true, some manifest) =>
    match resolve "formatVersion" scope.formatVersion with
    | Except.error e => Except.error e
    | Except.ok formatVersion =>
      let serverVersion := manifest.version
      let formattedServerVersion := formatVersion serverVersion
      let comparisonResult := compareVersions formattedServerVersion currentVersion
      let hasUpdate := decide (comparisonResult > 0)
      Except.ok { version := formattedServerVersion, hasUpdate := hasUpdate,
                  currentVersion := currentVersion }
  | Except.ok _ =>
    match resolve "CURRENT_VERSION" scope.CURRENT_VERSION with
    | Except.error e => Except.error e
    | Except.ok currentConst =>
      let comparisonResult := compareVersions currentConst currentVersion
      let hasUpdate := decide (comparisonResult > 0)
      Except.ok { version := if hasUpdate then currentConst else currentVersion,
                  hasUpdate := hasUpdate, currentVersion := currentVersion }

/-- The body of the `catch` block of `fetchLatestVersion`. -/
def fetchLatestVersionCatch (scope : Scope) (currentVersion : Str) :
    Except JSError UpdateInfo :=
  match resolve "CURRENT_VERSION" scope.CURRENT_VERSION with
  | Except.error e => Except.error e
  | Except.ok currentConst =>
    let comparisonResult := compareVersions currentConst currentVersion
    let hasUpdate := decide (comparisonResult > 0)
    Except.ok { version := if hasUpdate then currentConst else currentVersion,
                hasUpdate := hasUpdate, currentVersion := currentVersion }

/-- `fetchLatestVersion(currentVersion)`; a rejected promise is an `Except.error`. -/
def fetchLatestVersion (scope : Scope) (env : UpdaterEnv) (currentVersion : Str) :
    Except JSError UpdateInfo :=
  if !env.isProduction then
    match resolve "CURRENT_VERSION" scope.CURRENT_VERSION with
    | Except.error e => Except.error e
    | Except.ok serverVersion =>
      let comparisonResult := compareVersions serverVersion currentVersion
      let hasUpdate := decide (comparisonResult > 0)
      Except.ok { version := serverVersion, hasUpdate := hasUpdate,
                  currentVersion := currentVersion }
  else
    match fetchLatestVersionTry scope env currentVersion with
    | Except.ok r => Except.ok r
    | Except.error _ => fetchLatestVersionCatch scope currentVersion

end UpdateUtils

/-! ## Regular expressions -/

/-- The regular-expression syntax used by the two patterns of `parseChangelogFromMarkdown`.
Quantifiers other than `?` apply to a character class, as they do in both patterns. -/
inductive Regex where
  | empty
  | bol
  | eol
  | char (p : Char → Bool)
  | plus (p : Char → Bool)
  | plusLazy (p : Char → Bool)
  | times (n : Nat) (p : Char → Bool)
  | opt (r : Regex)
  | group (i : Nat) (r : Regex)
  | seq (r s : Regex)

/-- The captures recorded so far: group number and captured text, the latest first. -/
abbrev Captures := List (Nat × Str)

/-- The state of a match attempt: the index reached in the input, the input left from there
on, and the captures. -/
structure MState where
  pos : Nat
  rest : Str
  caps : Captures

/-- Greedy `p*` followed by the continuation `k`: the longest run is tried first and given
back one character at a time. -/
def runStar (p : Char → Bool) (caps : Captures) (k : MState → Option Captures) :
    Str → Nat → Option Captures
  | [], pos => k { pos := pos, rest := [], caps := caps }
  | c :: cs, pos =>
    if p c then
      match runStar p caps k cs (pos + 1) with
      | some out => some out
      | none => k { pos := pos, rest := c :: cs, caps := caps }
    else k { pos := pos, rest := c :: cs, caps := caps }

/-- Lazy `p*?` followed by the continuation `k`: the shortest run is tried first. -/
def runStarLazy (p : Char → Bool) (caps : Captures) (k : MState → Option Captures) :
    Str → Nat → Option Captures
  | [], pos => k { pos := pos, rest := [], caps := caps }
  | c :: cs, pos =>
    match k { pos := pos, rest := c :: cs, caps := caps } with
    | some out => some out
    | none => if p c then runStarLazy p caps k cs (pos + 1) else none

/-- The pattern `p{n}` followed by the continuation `k`. -/
def runTimes (p : Char → Bool) (caps : Captures) (k : MState → Option Captures) :
    Nat → Str → Nat → Option Captures
  | 0, rest, pos => k { pos := pos, rest := rest, caps := caps }
  | _ + 1, [], _ => none
  | n + 1, c :: cs, pos => if p c then runTimes p caps k n cs (pos + 1) else none

/-- The backtracking matcher of ECMAScript: `re.run st k` matches `re` from the state `st`
and hands every state it can end in to the continuation `k`, in priority order, until `k`
succeeds. -/
def Regex.run : Regex → MState → (MState → Option Captures) → Option Captures
  | Regex.empty, st, k => k st
  | Regex.bol, st, k => if st.pos = 0 then k st else none
  | Regex.eol, st, k => if st.rest = [] then k st else none
  | Regex.char p, st, k =>
    match st.rest with
    | [] => none
    | c :: cs => if p c then k { pos := st.pos + 1, rest := cs, caps := st.caps } else none
  | Regex.plus p, st, k =>
    match st.rest with
    | [] => none
    | c :: cs => if p c then runStar p st.caps k cs (st.pos + 1) else none
  | Regex.plusLazy p, st, k =>
    match st.rest with
    | [] => none
    | c :: cs => if p c then runStarLazy p st.caps k cs (st.pos + 1) else none
  | Regex.times n p, st, k => runTimes p st.caps k n st.rest st.pos
  | Regex.opt r, st, k =>
    match r.run st (fun st1 => if st1.pos = st.pos then none else k st1) with
    | some out => some out
    | none => k st
  | Regex.group i r, st, k =>
    r.run st (fun st1 =>
      k { st1 with caps := (i, st.rest.take (st1.pos - st.pos)) :: st1.caps })
  | Regex.seq r s, st, k => r.run st (fun st1 => s.run st1 k)

/-- The attempts of `RegExp.prototype.exec` at the successive start indices. -/
def execFrom (re : Regex) : Nat → Str → Option Captures
  | pos, [] => re.run { pos := pos, rest := [], caps := [] } (fun st => some st.caps)
  | pos, c :: cs =>
    match re.run { pos := pos, rest := c :: cs, caps := [] } (fun st => some st.caps) with
    | some out => some out
    | none => execFrom re (pos + 1) cs

/-- `String.prototype.match` with a regular expression that has no `g` flag: the captures of
the first match, or `none` for `null`. -/
def exec (re : Regex) (s : Str) : Option Captures := execFrom re 0 s

/-- Element `i` of a match result: the text captured by group `i`, `none` for `undefined`. -/
def capture (caps : Captures) (i : Nat) : Option Str := caps.lookup i

/-- A sequence of patterns. -/
def Regex.cat : List Regex → Regex
  | [] => Regex.empty
  | [r] => r
  | r :: rs => Regex.seq r (Regex.cat rs)

/-- The pattern of one given character. -/
def Regex.lit (c : Char) : Regex := Regex.char (fun x => x == c)

/-- The class `.`: any character but a line terminator. -/
def isDot (c : Char) : Bool := !isLineTerminator c

/-! ## `src/utils/updateUtils.js`: the changelog parser -/

/-- A change note `{ type, text }`. -/
structure ChangeNote where
  type : Str
  text : Str
  deriving DecidableEq, Repr

/-- A release entry `{ version, date, changes }`. -/
structure ReleaseEntry where
  version : Str
  date : Str
  changes : List ChangeNote
  deriving DecidableEq, Repr

/-- What the parser takes from the JavaScript runtime: the Unicode case mapping of
`String.prototype.toLowerCase`, and the text of `new Date().toISOString().split('T')[0]`. -/
structure Runtime where
  toLowerCase : Str → Str
  today : Str

/-- `String.prototype.includes`. -/
def includes (s sub : Str) : Bool := s.tails.any (fun t => sub.isPrefixOf t)

/-- Truthiness of a value that is a string, `null` or `undefined`. -/
def truthy : Option Str → Bool
  | some (_ :: _) => true
  | _ => false

namespace UpdateUtils

/-- The first group of the heading pattern, `[vV]?\d+\.\d+\.\d+`. -/
def versionCore : Regex :=
  Regex.cat [Regex.opt (Regex.char (fun c => c == 'v' || c == 'V')),
    Regex.plus isDigit, Regex.lit '.', Regex.plus isDigit, Regex.lit '.', Regex.plus isDigit]

/-- The second group of the heading pattern, `\d{4}-\d{2}-\d{2}`. -/
def dateCore : Regex :=
  Regex.cat [Regex.times 4 isDigit, Regex.lit '-', Regex.times 2 isDigit,
    Regex.lit '-', Regex.times 2 isDigit]

/-- The heading pattern `/^##\s+([vV]?\d+\.\d+\.\d+)(?:\s+\((\d{4}-\d{2}-\d{2})\))?/`. -/
def versionPattern : Regex :=
  Regex.cat [Regex.bol, Regex.lit '#', Regex.lit '#', Regex.plus isSpace,
    Regex.group 1 versionCore,
    Regex.opt (Regex.cat [Regex.plus isSpace, Regex.lit '(', Regex.group 2 dateCore,
      Regex.lit ')'])]

/-- The change pattern `/^-\s+\[(.+?)\]\s+(.+)$/`. -/
def changePattern : Regex :=
  Regex.cat [Regex.bol, Regex.lit '-', Regex.plus isSpace, Regex.lit '[',
    Regex.group 1 (Regex.plusLazy isDot), Regex.lit ']', Regex.plus isSpace,
    Regex.group 2 (Regex.plus isDot), Regex.eol]

/-- `mapChangeType(typeText)`. -/
def mapChangeType (rt : Runtime) (typeText : Str) : Str :=
  let text := rt.toLowerCase typeText
  if includes text "新功能".toList || includes text "feature".toList then "feature".toList
  else if includes text "优化".toList || includes text "improvement".toList then
    "improvement".toList
  else if includes text "修复".toList || includes text "fix".toList then "fix".toList
  else "other".toList

/-- The local variables of `parseChangelogFromMarkdown`. -/
structure ParserState where
  changelog : List ReleaseEntry
  currentVersion : Option Str
  currentDate : Str
  currentChanges : List ChangeNote
  deriving DecidableEq, Repr

/-- The statement `changelog.push({ version: currentVersion, date: currentDate, changes:
[...currentChanges] })` under its guard `if (currentVersion)`. -/
def pushCurrent (st : ParserState) : List ReleaseEntry :=
  if truthy st.currentVersion then
    st.changelog ++ [{ version := st.currentVersion.getD [], date := st.currentDate,
                       changes := st.currentChanges }]
  else st.changelog

/-- One iteration of the `for` loop of `parseChangelogFromMarkdown`, on the line `lines[i]`. -/
def parseLine (rt : Runtime) (st : ParserState) (rawLine : Str) : ParserState :=
  let line := trim rawLine
  if line = [] then st
  else
    match exec versionPattern line with
    | some versionMatch =>
      { changelog := pushCurrent st
        currentVersion := capture versionMatch 1
        currentDate :=
          if truthy (capture versionMatch 2) then (capture versionMatch 2).getD [] else rt.today
        currentChanges := [] }
    | none =>
      if !truthy st.currentVersion then st
      else
        match exec changePattern line with
        | some changeMatch =>
          if truthy st.currentVersion then
            let type := mapChangeType rt ((capture changeMatch 1).getD [])
            let text := trim ((capture changeMatch 2).getD [])
            { st with currentChanges := st.currentChanges ++ [{ type := type, text := text }] }
          else st
        | none => st

/-- `parseChangelogFromMarkdown(markdownText)`. -/
def parseChangelogFromMarkdown (rt : Runtime) (markdownText : Str) : List ReleaseEntry :=
  if markdownText = [] then []
  else
    let lines := split '\n' markdownText
    pushCurrent (lines.foldl (parseLine rt)
      { changelog := [], currentVersion := none, currentDate := [], currentChanges := [] })

end UpdateUtils

/-! ## `src/constants/version.js`: the changelog formatter -/

namespace Version

/-- The statements `changes.forEach(change => { markdown += "- " + change.text + "\n" })`. -/
def appendBullets (markdown : Str) (changes : List ChangeNote) : Str :=
  changes.foldl (fun md change => md ++ "- ".toList ++ change.text ++ "\n".toList) markdown

/-- One bucket of a release: nothing when the bucket is empty, otherwise its heading, a blank
line, its bullets and a blank line. -/
def appendBucket (markdown : Str) (heading : Str) (changes : List ChangeNote) : Str :=
  if changes.length > 0 then
    appendBullets (markdown ++ heading ++ "\n\n".toList) changes ++ "\n".toList
  else markdown

/-- The body of `history.forEach(release => ...)` in `formatChangelogToMarkdown`. -/
def appendRelease (markdown : Str) (release : ReleaseEntry) : Str :=
  let markdown := markdown ++ "## ".toList ++ release.version ++ " (".toList ++ release.date ++
    ")\n\n".toList
  let featureChanges := release.changes.filter (fun c => c.type == "feature".toList)
  let improvementChanges := release.changes.filter (fun c => c.type == "improvement".toList)
  let fixChanges := release.changes.filter (fun c => c.type == "fix".toList)
  let otherChanges := release.changes.filter (fun c =>
    !(["feature".toList, "improvement".toList, "fix".toList].contains c.type))
  let markdown := appendBucket markdown "### ✨ 新功能".toList featureChanges
  let markdown := appendBucket markdown "### 🚀 优化改进".toList improvementChanges
  let markdown := appendBucket markdown "### 🐛 问题修复".toList fixChanges
  appendBucket markdown "### 其他变更".toList otherChanges

/-- `formatChangelogToMarkdown(limit)`, with the module constant `VERSION_HISTORY` it reads as
its first argument. -/
def formatChangelogToMarkdown (VERSION_HISTORY : List ReleaseEntry) (limit : Int) : Str :=
  let history := if limit > 0 then VERSION_HISTORY.take limit.toNat else VERSION_HISTORY
  history.foldl appendRelease "# 更新日志\n\n".toList

end Version

/-! ## Specification-side definitions for the comparator -/

/-- An un-prefixed dotted-numeric version: non-empty runs of decimal digits separated by
dots, such as `1.2` or `2.0.0`. -/
def isDottedNumeric (v : Str) : Bool :=
  (split '.' v).all (fun seg => !seg.isEmpty && seg.all isDigit)

/-- The numeric components of a dotted version, in the spec's words: the text is split on
`.` and every piece is read as a decimal integer. A component is a JavaScript number, hence
the integer rounded to binary64, which is the integer itself below `2^53`. -/
def numericComponents (v : Str) : List JSNumber :=
  (split '.' v).map (fun seg => roundBinary64 (natOfDigits 10 seg) 1)

/-- A component list padded with zeros up to length `n`. -/
def padZeros (n : Nat) (xs : List JSNumber) : List JSNumber :=
  xs ++ List.replicate (n - xs.length) JSNumber.zero

/-- The verdict at the first position where two lists differ: `1` when the left component
is larger, `-1` when the right one is, `0` when no position differs. -/
def firstDifference : List JSNumber → List JSNumber → Int
  | x :: xs, y :: ys =>
    if x = y then firstDifference xs ys else if JSNumber.gt x y then 1 else -1
  | _, _ => 0

/-- Lexicographic comparison of two component lists, the shorter padded with zeros. -/
def lexCompare (xs ys : List JSNumber) : Int :=
  firstDifference (padZeros (max xs.length ys.length) xs) (padZeros (max xs.length ys.length) ys)

/-- The version `a` followed by `k` copies of `.0`. -/
def appendZeroSegments (a : Str) (k : Nat) : Str :=
  a ++ (List.replicate k ".0".toList).flatten

/-- A version of exactly three dotted numeric components, `X.Y.Z`. -/
def isThreeComponent (v : Str) : Bool :=
  isDottedNumeric v && (split '.' v).length == 3

/-- A leading `v` or `V` is dropped. -/
def stripLeadingV : Str → Str
  | 'v' :: r => r
  | 'V' :: r => r
  | r => r

/-- The canonical comparator of the spec (section 4.1), in the spec's words: a leading `v` or
`V` is stripped, the rest is split on `.` into numeric components, and the first non-equal
component decides, missing components counting as `0`. -/
def canonicalCompare (a b : Str) : Int :=
  lexCompare (numericComponents (stripLeadingV a)) (numericComponents (stripLeadingV b))

/-- A well-formed version string: an optional `v` or `V` followed by a dotted-numeric
version. -/
def isPrefixedVersion (v : Str) : Bool := isDottedNumeric (stripLeadingV v)

/-! ## Specification-side definitions for regular expressions -/

/-- The declarative meaning of a pattern: `Matches re pos caps xs rest caps1` says that `re`
can match exactly the text `xs` at index `pos`, with `rest` the input after `xs`, turning the
captures `caps` into `caps1`. -/
def Matches : Regex → Nat → Captures → Str → Str → Captures → Prop
  | Regex.empty, _, caps, xs, _, caps1 => xs = [] ∧ caps1 = caps
  | Regex.bol, pos, caps, xs, _, caps1 => pos = 0 ∧ xs = [] ∧ caps1 = caps
  | Regex.eol, _, caps, xs, rest, caps1 => rest = [] ∧ xs = [] ∧ caps1 = caps
  | Regex.char p, _, caps, xs, _, caps1 => (∃ c, xs = [c] ∧ p c = true) ∧ caps1 = caps
  | Regex.plus p, _, caps, xs, _, caps1 => xs ≠ [] ∧ (∀ x ∈ xs, p x = true) ∧ caps1 = caps
  | Regex.plusLazy p, _, caps, xs, _, caps1 => xs ≠ [] ∧ (∀ x ∈ xs, p x = true) ∧ caps1 = caps
  | Regex.times n p, _, caps, xs, _, caps1 =>
    xs.length = n ∧ (∀ x ∈ xs, p x = true) ∧ caps1 = caps
  | Regex.opt r, pos, caps, xs, rest, caps1 =>
    Matches r pos caps xs rest caps1 ∨ (xs = [] ∧ caps1 = caps)
  | Regex.group i r, pos, caps, xs, rest, caps1 =>
    ∃ caps0, Matches r pos caps xs rest caps0 ∧ caps1 = (i, xs) :: caps0
  | Regex.seq r s, pos, caps, xs, rest, caps1 =>
    ∃ xs1 xs2 capsm, xs = xs1 ++ xs2 ∧ Matches r pos caps xs1 (xs2 ++ rest) capsm ∧
      Matches s (pos + xs1.length) capsm xs2 rest caps1

/-- The pattern `re` run from the state `st` ends in `st1` without any choice left to a
continuation that accepts `st1`. -/
def Determined (re : Regex) (st st1 : MState) : Prop :=
  ∀ k : MState → Option Captures, (k st1).isSome = true → re.run st k = k st1

/-- The texts `[vV]?\d+\.\d+\.\d+`: an optional `v` or `V`, then three non-empty runs of digits
separated by dots. -/
def VersionShape (v : Str) : Prop :=
  ∃ pre d1 d2 d3 : Str, v = pre ++ d1 ++ '.' :: d2 ++ '.' :: d3 ∧
    (pre = [] ∨ pre = ['v'] ∨ pre = ['V']) ∧
    (d1 ≠ [] ∧ ∀ x ∈ d1, isDigit x = true) ∧ (d2 ≠ [] ∧ ∀ x ∈ d2, isDigit x = true) ∧
    (d3 ≠ [] ∧ ∀ x ∈ d3, isDigit x = true)

/-- The texts `\d{4}-\d{2}-\d{2}`. -/
def DateShape (d : Str) : Prop :=
  ∃ y mo da : Str, d = y ++ '-' :: mo ++ '-' :: da ∧
    (y.length = 4 ∧ ∀ x ∈ y, isDigit x = true) ∧ (mo.length = 2 ∧ ∀ x ∈ mo, isDigit x = true) ∧
    (da.length = 2 ∧ ∀ x ∈ da, isDigit x = true)

/-! ## Specification-side definitions for the changelog parser -/

/-- The heading a line stands for, if its trimmed form matches the heading pattern: the
captured version, and the captured date when there is one, today's date otherwise. -/
def headingOf (rt : Runtime) (rawLine : Str) : Option (Str × Str) :=
  (exec UpdateUtils.versionPattern (trim rawLine)).map
    (fun m => ((capture m 1).getD [], (capture m 2).getD rt.today))

/-- The change note a line stands for, if its trimmed form matches the change pattern: the
mapped label and the trimmed text. -/
def changeOf (rt : Runtime) (rawLine : Str) : Option ChangeNote :=
  (exec UpdateUtils.changePattern (trim rawLine)).map
    (fun m => { type := UpdateUtils.mapChangeType rt ((capture m 1).getD [])
                text := trim ((capture m 2).getD []) })

/-- The lines up to the next heading line, or to the end of the input. -/
def bodyLines (rt : Runtime) (ls : List Str) : List Str :=
  ls.takeWhile (fun l => (headingOf rt l).isNone)

/-- The release entries of a list of lines, read off declaratively: one entry per heading
line, in order, whose changes are the change notes of the lines between that heading and the
next one. Lines before the first heading belong to no entry. -/
def sections (rt : Runtime) : List Str → List ReleaseEntry
  | [] => []
  | l :: ls =>
    match headingOf rt l with
    | some (v, d) =>
      { version := v, date := d, changes := (bodyLines rt ls).filterMap (changeOf rt) } ::
        sections rt ls
    | none => sections rt ls

/-- The entry that the parser state holds open, completed with the change notes of the lines
`body` still to come for it. -/
def openEntry (rt : Runtime) (st : UpdateUtils.ParserState) (body : List Str) :
    List ReleaseEntry :=
  if truthy st.currentVersion then
    [{ version := st.currentVersion.getD [], date := st.currentDate,
       changes := st.currentChanges ++ body.filterMap (changeOf rt) }]
  else []

/-! ## Specification-side definitions for the changelog formatter and the round trip -/

/-- The text whose lines are `ls`, each line ended by a newline. -/
def unlines (ls : List Str) : Str := (ls.map (fun l => l ++ ['\n'])).flatten

/-- The level-2 heading of a release, `## {version} ({date})`. -/
def headingLine (e : ReleaseEntry) : Str :=
  "## ".toList ++ e.version ++ " (".toList ++ e.date ++ ")".toList

/-- The bullet of a change, `- {text}`. -/
def bulletLine (c : ChangeNote) : Str := "- ".toList ++ c.text

/-- The lines of one bucket: none when the bucket is empty, otherwise its heading, a blank
line, one bullet per change and a blank line. -/
def bucketLines (heading : Str) (changes : List ChangeNote) : List Str :=
  if changes.length > 0 then heading :: [] :: (changes.map bulletLine ++ [[]]) else []

/-- The lines of the section of one release. -/
def releaseLines (e : ReleaseEntry) : List Str :=
  headingLine e :: [] ::
    (bucketLines "### ✨ 新功能".toList (e.changes.filter (fun c => c.type == "feature".toList)) ++
      (bucketLines "### 🚀 优化改进".toList
          (e.changes.filter (fun c => c.type == "improvement".toList)) ++
        (bucketLines "### 🐛 问题修复".toList (e.changes.filter (fun c => c.type == "fix".toList)) ++
          bucketLines "### 其他变更".toList (e.changes.filter (fun c =>
            !(["feature".toList, "improvement".toList, "fix".toList].contains c.type))))))

/-- The lines of the whole document: the title, a blank line, and the sections. -/
def documentLines (history : List ReleaseEntry) : List Str :=
  "# 更新日志".toList :: [] :: (history.map releaseLines).flatten

/-- The texts `^v?\d+\.\d+\.\d+$` of the data model. -/
def isVersionString (v : Str) : Bool :=
  match v with
  | 'v' :: r => isThreeComponent r
  | r => isThreeComponent r

/-- The texts `YYYY-MM-DD`: four digits, two digits and two digits separated by `-`. -/
def isDateString (d : Str) : Bool :=
  match d with
  | [y1, y2, y3, y4, s1, m1, m2, s2, d1, d2] =>
    isDigit y1 && isDigit y2 && isDigit y3 && isDigit y4 && s1 == '-' &&
      isDigit m1 && isDigit m2 && s2 == '-' && isDigit d1 && isDigit d2
  | _ => false

/-- A text with no newline character. -/
def newlineFree (s : Str) : Bool := !s.contains '\n'

/-- A history whose versions match `^v?\d+\.\d+\.\d+$`, whose dates have the form
`YYYY-MM-DD` and whose change texts have no newline. -/
def wellFormedHistory (history : List ReleaseEntry) : Bool :=
  history.all (fun e => isVersionString e.version && isDateString e.date &&
    e.changes.all (fun c => newlineFree c.text))

/-- A history none of whose versions, dates and change texts has a newline. -/
def newlineFreeHistory (history : List ReleaseEntry) : Bool :=
  history.all (fun e => newlineFree e.version && newlineFree e.date &&
    e.changes.all (fun c => newlineFree c.text))

/-- Whether a text starts, after optional white space, with a bracketed label `[...]`. -/
def startsWithBracketedLabel (text : Str) : Bool :=
  match text.dropWhile isSpace with
  | '[' :: r => r.contains ']'
  | _ => false

/-- A runtime to evaluate examples with: lower-casing of the ASCII letters, which is what
`toLowerCase` does on ASCII text, and a fixed date. -/
def sampleRuntime : Runtime :=
  { toLowerCase := fun s => s.map Char.toLower, today := "2025-04-12".toList }

/-- A history whose only change text has a second line that is a change line. -/
def embeddedLineHistory : List ReleaseEntry :=
  [{ version := "v1.0.0".toList, date := "2025-01-01".toList,
     changes := [{ type := "feature".toList, text := "x\n- [fix] y".toList }] }]

/-- A history whose version carries a change line after a newline; its texts have none. -/
def embeddedLineVersionHistory : List ReleaseEntry :=
  [{ version := "v1.0.0\n- [fix] y".toList, date := "2025-01-01".toList,
     changes := [{ type := "feature".toList, text := "x".toList }] }]

/-- A history whose date carries a change line between two newlines; its texts have none. -/
def embeddedLineDateHistory : List ReleaseEntry :=
  [{ version := "v1.0.0".toList, date := "2025-01-01)\n- [fix] y\n(".toList,
     changes := [{ type := "feature".toList, text := "x".toList }] }]

/-- The history of the formatting scenario of the spec. -/
def scenarioHistory : List ReleaseEntry :=
  [{ version := "v1.0.1".toList, date := "2025-04-12".toList,
     changes := [{ type := "feature".toList, text := "X".toList }] }]

/-- Component `i` of a version as `compareVersions` reads it: the number of the `i`-th
piece between dots, and `0` past the last piece. -/
def componentAt (v : Str) (i : Nat) : JSNumber :=
  ((split '.' v).map Number).getD i JSNumber.zero

/-! ## Specification-side definitions for the sections of the formatter -/

/-- `String.prototype.startsWith`: whether `s` begins with `pre`. -/
def startsWith (s pre : Str) : Bool := pre.isPrefixOf s

/-- The entries that `formatChangelogToMarkdown` renders: the first `limit` entries of the
history when `limit` is positive, all of them otherwise. -/
def renderedEntries (history : List ReleaseEntry) (limit : Int) : List ReleaseEntry :=
  if limit > 0 then history.take limit.toNat else history

/-- The four buckets of a release, in the spec's words and in their fixed order, each with
its level-3 heading: feature, improvement, fix, and other, which holds every change whose
type is none of the three. -/
def buckets (e : ReleaseEntry) : List (Str × List ChangeNote) :=
  [("### ✨ 新功能".toList, e.changes.filter (fun c => c.type == "feature".toList)),
   ("### 🚀 优化改进".toList, e.changes.filter (fun c => c.type == "improvement".toList)),
   ("### 🐛 问题修复".toList, e.changes.filter (fun c => c.type == "fix".toList)),
   ("### 其他变更".toList, e.changes.filter (fun c =>
      c.type != "feature".toList && c.type != "improvement".toList && c.type != "fix".toList))]

/-- The lines that the buckets of a release write, after the heading of the release: for
every bucket with a change, in order, its heading, a blank line, one bullet per change of the
bucket, and a blank line. -/
def bucketPart (e : ReleaseEntry) : List Str :=
  (((buckets e).filter (fun b => !b.2.isEmpty)).map
    (fun b => b.1 :: [] :: (b.2.map bulletLine ++ [[]]))).flatten

/-! ## `src/utils/updateUtils.js`: the global changelog and its sources -/

namespace UpdateUtils

/-- The arrays of release entries that the program holds, by reference. -/
abbrev Heap := List (List ReleaseEntry)

/-- The elements of the array at a reference. -/
def Heap.read (heap : Heap) (r : Ref) : List ReleaseEntry := heap.getD r []

/-- The heap with the elements of the array at a reference replaced. -/
def Heap.write (heap : Heap) (r : Ref) (items : List ReleaseEntry) : Heap := heap.set r items

/-- A new array: its reference and the heap that holds it. -/
def Heap.alloc (heap : Heap) (items : List ReleaseEntry) : Ref × Heap :=
  (heap.length, heap ++ [items])

/-- The argument of `updateChangelogData`: an array, or a value for which `Array.isArray`
is false. -/
inductive ChangelogArg where
  | array (r : Ref)
  | notArray
  deriving DecidableEq, Repr

/-- `updateChangelogData(changelog)`: `CHANGELOG.length = 0`, then, for an array argument
that has an element at that moment, `changelog.forEach(item => CHANGELOG.push(item))` over
the elements the argument has when `forEach` starts. The only statement that can throw is the
first evaluation of `CHANGELOG`, before any write. -/
def updateChangelogData (scope : Scope) (heap : Heap) (changelog : ChangelogArg) :
    Except JSError Heap :=
  match resolve "CHANGELOG" scope.CHANGELOG with
  | Except.error e => Except.error e
  | Except.ok global =>
    let heap := heap.write global []
    match changelog with
    | ChangelogArg.array r =>
      if (heap.read r).length > 0 then
        Except.ok ((heap.read r).foldl
          (fun h item => h.write global (h.read global ++ [item])) heap)
      else Except.ok heap
    | ChangelogArg.notArray => Except.ok heap

/-- The external collaborators of `fetchChangelogFromUpdatePackage`: the build flag, the
outcome of `await import('../constants/version.js')` with the `VERSION_HISTORY` of the module
(`none` when it is missing), the outcome of the import of the Tauri API followed by
`await invoke('get_changelog_text')`, the outcome of `await fetch(GITHUB_CHANGELOG_URL)` with
`response.ok` and the outcome of `await response.text()`, and the local calendar date of
`new Date()`: `getFullYear()`, `getMonth()` and `getDate()`. -/
structure ChangelogEnv where
  isProduction : Bool
  importVersionModule : Except JSError (Option Ref)
  invokeChangelogText : Except JSError Str
  fetchResponse : Except JSError (Bool × Except JSError Str)
  fullYear : Nat
  month : Nat
  date : Nat

/-- `String(n).padStart(2, '0')`. -/
def padStart2 (n : Nat) : Str :=
  List.replicate (2 - (Nat.toDigits 10 n).length) '0' ++ Nat.toDigits 10 n

/-- The template literal that `fetchChangelogFromUpdatePackage` builds from `new Date()`. -/
def localDate (env : ChangelogEnv) : Str :=
  Nat.toDigits 10 env.fullYear ++ "-".toList ++ padStart2 (env.month + 1) ++ "-".toList ++
    padStart2 env.date

/-- The first inner `try` block with its `catch`: the re-import of the version module. The
result is the returned array, or `none` when control goes on after the block. -/
def reimportBlock (scope : Scope) (env : ChangelogEnv) (heap : Heap) : Option Ref × Heap :=
  match env.importVersionModule with
  | Except.error _ => (none, heap)
  | Except.ok none => (none, heap)
  | Except.ok (some freshChangelog) =>
    match updateChangelogData scope heap (ChangelogArg.array freshChangelog) with
    | Except.error _ => (none, heap)
    | Except.ok heap2 => (some freshChangelog, heap2)

/-- The statements that the second and the third inner `try` block run on a changelog text:
`if (changelogText && changelogText.trim())`, the parse, and
`if (parsedChangelog && parsedChangelog.length > 0)` with the update and the `return`; an
exception of `updateChangelogData` goes to the `catch` of the block, after which control
goes on. -/
def useChangelogText (scope : Scope) (rt : Runtime) (heap : Heap) (changelogText : Str) :
    Option Ref × Heap :=
  if truthy (some changelogText) && truthy (some (trim changelogText)) then
    let parsedChangelog := heap.alloc (parseChangelogFromMarkdown rt changelogText)
    if (parseChangelogFromMarkdown rt changelogText).length > 0 then
      match updateChangelogData scope parsedChangelog.2 (ChangelogArg.array parsedChangelog.1) with
      | Except.error _ => (none, parsedChangelog.2)
      | Except.ok heap2 => (some parsedChangelog.1, heap2)
    else (none, parsedChangelog.2)
  else (none, heap)

/-- The second inner `try` block with its `catch`: the changelog text of the Tauri API. -/
def hostBlock (scope : Scope) (rt : Runtime) (env : ChangelogEnv) (heap : Heap) :
    Option Ref × Heap :=
  match env.invokeChangelogText with
  | Except.error _ => (none, heap)
  | Except.ok changelogText => useChangelogText scope rt heap changelogText

/-- The third inner `try` block with its `catch`: the changelog text fetched from GitHub. -/
def remoteBlock (scope : Scope) (rt : Runtime) (env : ChangelogEnv) (heap : Heap) :
    Option Ref × Heap :=
  match env.fetchResponse with
  | Except.error _ => (none, heap)
  | Except.ok (false, _) => (none, heap)
  | Except.ok (true, Except.error _) => (none, heap)
  | Except.ok (true, Except.ok changelogText) => useChangelogText scope rt heap changelogText

/-- The statements after the three inner blocks: the temporary changelog built from
`CURRENT_VERSION` and the local date, stored by `updateChangelogData` and returned. -/
def temporaryChangelog (scope : Scope) (env : ChangelogEnv) (heap : Heap) :
    Except JSError Ref × Heap :=
  match resolve "CURRENT_VERSION" scope.CURRENT_VERSION with
  | Except.error e => (Except.error e, heap)
  | Except.ok version =>
    let tempChangelog := heap.alloc
      [{ version := version, date := localDate env,
         changes := [{ type := "improvement".toList, text := "提升应用稳定性和性能".toList },
                     { type := "fix".toList, text := "修复已知问题".toList }] }]
    match updateChangelogData scope tempChangelog.2 (ChangelogArg.array tempChangelog.1) with
    | Except.error e => (Except.error e, tempChangelog.2)
    | Except.ok heap2 => (Except.ok tempChangelog.1, heap2)

/-- The body of the outer `try` block of `fetchChangelogFromUpdatePackage`. -/
def fetchChangelogTry (scope : Scope) (rt : Runtime) (env : ChangelogEnv) (heap : Heap) :
    Except JSError Ref × Heap :=
  if !env.isProduction then (resolve "CHANGELOG" scope.CHANGELOG, heap)
  else
    match reimportBlock scope env heap with
    | (some r, heap1) => (Except.ok r, heap1)
    | (none, heap1) =>
      match hostBlock scope rt env heap1 with
      | (some r, heap2) => (Except.ok r, heap2)
      | (none, heap2) =>
        match remoteBlock scope rt env heap2 with
        | (some r, heap3) => (Except.ok r, heap3)
        | (none, heap3) => temporaryChangelog scope env heap3

/-- `fetchChangelogFromUpdatePackage()`: the outer `try` block, and `return CHANGELOG` in its
`catch`. The result is the returned array, or the error the promise is rejected with, and
the heap at the end. -/
def fetchChangelogFromUpdatePackage (scope : Scope) (rt : Runtime) (env : ChangelogEnv)
    (heap : Heap) : Except JSError Ref × Heap :=
  match fetchChangelogTry scope rt env heap with
  | (Except.ok r, heap1) => (Except.ok r, heap1)
  | (Except.error _, heap1) => (resolve "CHANGELOG" scope.CHANGELOG, heap1)

end UpdateUtils

/-! ## Specification-side definitions for the sources of the changelog -/

/-- A changelog text from which no release entry is taken: blank, or parsed to no entry. -/
def noEntryText (rt : Runtime) (changelogText : Str) : Bool :=
  (trim changelogText).isEmpty ||
    (UpdateUtils.parseChangelogFromMarkdown rt changelogText).isEmpty

/-- The re-import of the version module fails: it throws, or the module has no
`VERSION_HISTORY`. -/
def reimportFails (env : UpdateUtils.ChangelogEnv) : Bool :=
  match env.importVersionModule with
  | Except.ok (some _) => false
  | _ => true

/-- The host changelog API fails, or yields a text with no release entry. -/
def hostFails (rt : Runtime) (env : UpdateUtils.ChangelogEnv) : Bool :=
  match env.invokeChangelogText with
  | Except.error _ => true
  | Except.ok changelogText => noEntryText rt changelogText

/-- The remote fetch fails, answers with a status that is not ok, fails to deliver its text,
or yields a text with no release entry. -/
def remoteFails (rt : Runtime) (env : UpdateUtils.ChangelogEnv) : Bool :=
  match env.fetchResponse with
  | Except.error _ => true
  | Except.ok (false, _) => true
  | Except.ok (true, Except.error _) => true
  | Except.ok (true, Except.ok changelogText) => noEntryText rt changelogText

/-- Collaborators that all throw, in a production build, on 12 April 2025. -/
def failingEnv : UpdateUtils.ChangelogEnv :=
  { isProduction := true
    importVersionModule := Except.error (JSError.thrown "import")
    invokeChangelogText := Except.error (JSError.thrown "invoke")
    fetchResponse := Except.error (JSError.thrown "fetch")
    fullYear := 2025, month := 3, date := 12 }

/-- Collaborators of a production build of which the re-import throws and the host API and
the remote fetch yield texts with no heading. -/
def emptyTextEnv : UpdateUtils.ChangelogEnv :=
  { isProduction := true
    importVersionModule := Except.error (JSError.thrown "import")
    invokeChangelogText := Except.ok "no releases yet".toList
    fetchResponse := Except.ok (true, Except.ok "- [fix] y".toList)
    fullYear := 2025, month := 3, date := 12 }

/-! ## `src/utils/storage.js` -/

namespace Storage

/-- The entries of `localStorage`: a text per key, the first entry of a key being the one
that counts. -/
abbrev Store := List (Str × Str)

/-- The text stored under a key, if any. -/
def Store.lookupItem (store : Store) (key : Str) : Option Str :=
  (store.find? (fun entry => entry.1 == key)).map (fun entry => entry.2)

/-- The store with the text of a key set. -/
def Store.withItem (store : Store) (key value : Str) : Store :=
  (key, value) :: store.filter (fun entry => entry.1 != key)

/-- The functions `JSON.stringify` and `JSON.parse` on the values of a type: `stringify`
throws, yields `undefined` (`none`) or yields a text; `parse` throws or yields a value. -/
structure Json (α : Type) where
  stringify : α → Except JSError (Option Str)
  parse : Str → Except JSError α

/-- What the browser decides about `localStorage`: whether every access throws (storage
disabled), and whether a write is refused (quota); a refused write throws and leaves the
store as it is. -/
structure StorageEnv where
  denied : Option JSError
  quota : Store → Str → Str → Option JSError

/-- `localStorage.setItem(key, value)`. -/
def setItem (env : StorageEnv) (store : Store) (key value : Str) : Except JSError Store :=
  match env.denied with
  | some e => Except.error e
  | none =>
    match env.quota store key value with
    | some e => Except.error e
    | none => Except.ok (store.withItem key value)

/-- `localStorage.getItem(key)`: the text, or `null` (`none`). -/
def getItem (env : StorageEnv) (store : Store) (key : Str) : Except JSError (Option Str) :=
  match env.denied with
  | some e => Except.error e
  | none => Except.ok (store.lookupItem key)

/-- The `try` block of `saveToStorage`; the value `undefined` of `JSON.stringify` is stored
as the text `undefined`. -/
def saveToStorageTry {α : Type} (json : Json α) (env : StorageEnv) (store : Store) (key : Str)
    (value : α) : Except JSError Store :=
  match json.stringify value with
  | Except.error e => Except.error e
  | Except.ok serializedValue => setItem env store key (serializedValue.getD "undefined".toList)

/-- `saveToStorage(key, value)`: how the call completes, and the store it leaves. The
`catch` block only logs. -/
def saveToStorage {α : Type} (json : Json α) (env : StorageEnv) (store : Store) (key : Str)
    (value : α) : Except JSError Unit × Store :=
  match saveToStorageTry json env store key value with
  | Except.ok store2 => (Except.ok (), store2)
  | Except.error _ => (Except.ok (), store)

/-- The `try` block of `getFromStorage`. -/
def getFromStorageTry {α : Type} (json : Json α) (env : StorageEnv) (store : Store) (key : Str)
    (defaultValue : α) : Except JSError α :=
  match getItem env store key with
  | Except.error e => Except.error e
  | Except.ok serializedValue =>
    if truthy serializedValue then json.parse (serializedValue.getD []) else Except.ok defaultValue

/-- `getFromStorage(key, defaultValue)`. -/
def getFromStorage {α : Type} (json : Json α) (env : StorageEnv) (store : Store) (key : Str)
    (defaultValue : α) : Except JSError α :=
  match getFromStorageTry json env store key defaultValue with
  | Except.ok value => Except.ok value
  | Except.error _ => Except.ok defaultValue

end Storage

/-! ## `src/composables/useFontManagement.js` -/

namespace FontManagement

/-- `STORAGE_KEYS.FAVORITES`. -/
def FAVORITES : Str := "font-viewer-favorites".toList

/-- `saveFavorites()`: the store after `saveToStorage(STORAGE_KEYS.FAVORITES, favorites.value)`. -/
def saveFavorites (json : Storage.Json (List Str)) (env : Storage.StorageEnv)
    (favorites : List Str) (store : Storage.Store) : Storage.Store :=
  (Storage.saveToStorage json env store FAVORITES favorites).2

/-- `toggleFavorite(fontName)`: the list `favorites.value` and the store after the call. -/
def toggleFavorite (json : Storage.Json (List Str)) (env : Storage.StorageEnv)
    (favorites : List Str) (store : Storage.Store) (fontName : Str) :
    List Str × Storage.Store :=
  let favorites :=
    if favorites.contains fontName then favorites.filter (fun name => name != fontName)
    else favorites ++ [fontName]
  (favorites, saveFavorites json env favorites store)

end FontManagement

/-! ## Specification-side definitions for the storage helpers -/

/-- A `JSON` for the two booleans, to evaluate examples with. -/
def boolJson : Storage.Json Bool :=
  { stringify := fun b => Except.ok (some (if b then "true".toList else "false".toList))
    parse := fun s =>
      if s = "true".toList then Except.ok true
      else if s = "false".toList then Except.ok false
      else Except.error (JSError.thrown "SyntaxError") }

/-- A `JSON` for lists of names that writes the names between commas; enough to evaluate
examples with names that have no comma. -/
def namesJson : Storage.Json (List Str) :=
  { stringify := fun names => Except.ok (some ([','].intercalate names))
    parse := fun s => if s = [] then Except.error (JSError.thrown "SyntaxError")
      else Except.ok (split ',' s) }

/-- A browser whose storage works and accepts every write. -/
def openStorage : Storage.StorageEnv :=
  { denied := none, quota := fun _ _ _ => none }

/-- A browser whose storage refuses every write. -/
def fullStorage : Storage.StorageEnv :=
  { denied := none, quota := fun _ _ _ => some (JSError.thrown "QuotaExceededError") }

/-! ## `scripts/version-release.mjs`: the base version -/

namespace VersionRelease

/-- `[packageVersion, tauriVersion, cargoVersion].filter(v => v !== 'unknown')`. -/
def candidateVersions (packageVersion tauriVersion cargoVersion : Str) : List Str :=
  [packageVersion, tauriVersion, cargoVersion].filter (fun v => v != "unknown".toList)

/-- The statements `let currentVersion = versions[0]` and the `for` loop over `versions` that
keeps the version that compares greater; `none` stands for `undefined`, the value of
`versions[0]` when the list is empty. -/
def selectBase (versions : List Str) : Option Str :=
  match versions with
  | [] => none
  | first :: _ =>
    some (versions.foldl
      (fun currentVersion version =>
        if compareVersions version currentVersion > 0 then version else currentVersion)
      first)

end VersionRelease

/-! ## Specification-side definitions for the order of the versions -/

/-- The place of a number other than `NaN` in the order of the numbers. -/
def JSNumber.rank : JSNumber → WithBot (WithTop Int)
  | JSNumber.nan => ⊥
  | JSNumber.negInf => ⊥
  | JSNumber.fin k => ((k : WithTop Int) : WithBot (WithTop Int))
  | JSNumber.posInf => ((⊤ : WithTop Int) : WithBot (WithTop Int))

/-- The sequence of the ranks of the components of a version, `0` past the last one. -/
def versionKey (v : Str) : Nat → WithBot (WithTop Int) :=
  fun i => JSNumber.rank (componentAt v i)

/-! ## Arithmetic on numbers and the text of a number -/

/-- Rounding of the rational `p / q`, of either sign, to binary64. -/
def roundSigned (p : Int) (q : Nat) : JSNumber :=
  if p < 0 then (roundBinary64 p.natAbs q).neg else roundBinary64 p.toNat q

/-- The operator `x + y` on numbers: the exact sum, rounded. -/
def JSNumber.add : JSNumber → JSNumber → JSNumber
  | JSNumber.nan, _ => JSNumber.nan
  | _, JSNumber.nan => JSNumber.nan
  | JSNumber.posInf, JSNumber.negInf => JSNumber.nan
  | JSNumber.negInf, JSNumber.posInf => JSNumber.nan
  | JSNumber.posInf, _ => JSNumber.posInf
  | _, JSNumber.posInf => JSNumber.posInf
  | JSNumber.negInf, _ => JSNumber.negInf
  | _, JSNumber.negInf => JSNumber.negInf
  | JSNumber.fin a, JSNumber.fin b => roundSigned (a + b) (2 ^ 1074)

/-- The decimal digit of a value below ten. -/
def digitChar (d : Nat) : Char := Char.ofNat (48 + d)

/-- The decimal numeral of `n`, most significant digit first; the first argument bounds the
recursion. -/
def decimalTextAux : Nat → Nat → Str
  | 0, _ => []
  | fuel + 1, n =>
    if n < 10 then [digitChar n] else decimalTextAux fuel (n / 10) ++ [digitChar (n % 10)]

/-- The decimal numeral of `n`. -/
def decimalText (n : Nat) : Str := decimalTextAux (n + 1) n

/-- The text of a number (`Number::toString`, as in a template literal), for the numbers
whose text is needed here: `NaN`, the infinities, and the integers of magnitude up to `2^53`.
Each of these integers is a binary64 value and no shorter or other decimal text of at most as
many digits reads back as it, so its text is its decimal numeral. For the other finite
numbers, whose text is the shortest decimal that reads back as the number, the result is
`none`: their text is outside the model. -/
def numberToString : JSNumber → Option Str
  | JSNumber.nan => some "NaN".toList
  | JSNumber.posInf => some "Infinity".toList
  | JSNumber.negInf => some "-Infinity".toList
  | JSNumber.fin k =>
    if k % 2 ^ 1074 = 0 ∧ k.natAbs / 2 ^ 1074 ≤ 2 ^ 53 then
      some ((if k < 0 then "-".toList else []) ++ decimalText (k.natAbs / 2 ^ 1074))
    else none

/-! ## `scripts/version-release.mjs`: the next version -/

namespace VersionRelease

/-- The statement `x += 1` on a destructured component; `none` stands for `undefined`, the
value of a component that the array does not have, and `undefined + 1` is `NaN`. -/
def increment : Option JSNumber → JSNumber
  | none => JSNumber.nan
  | some x => JSNumber.add x (JSNumber.ofNat 1)

/-- The text of a component in the template literal. -/
def templateText : Option JSNumber → Option Str
  | none => some "undefined".toList
  | some x => numberToString x

/-- The statements of `release` that compute `nextVersion` from `currentVersion` and the
validated `versionType`; `none` when the text of a component is outside the model. -/
def nextVersion (versionType currentVersion : Str) : Option Str :=
  let parts := (split '.' currentVersion).map Number
  let major := parts[0]?
  let minor := parts[1]?
  let patch := parts[2]?
  let bumped : Option JSNumber × Option JSNumber × Option JSNumber :=
    if versionType = "major".toList then
      (some (increment major), some JSNumber.zero, some JSNumber.zero)
    else if versionType = "minor".toList then (major, some (increment minor), some JSNumber.zero)
    else (major, minor, some (increment patch))
  match templateText bumped.1, templateText bumped.2.1, templateText bumped.2.2 with
  | some a, some b, some c => some (a ++ ".".toList ++ b ++ ".".toList ++ c)
  | _, _, _ => none

/-- The start of `release()`, up to `nextVersion`: the version type is the lower-cased first
argument of the script or `patch`; a type other than `major`, `minor` and `patch` ends the
process with `process.exit(1)` (`Except.error 1`), and so does the `TypeError` of
`undefined.split` when no candidate version is left. The three versions are those read from
`package.json`, `tauri.conf.json` and `Cargo.toml`, the last one being `none` when the
pattern of the script finds no version there. -/
def releaseNextVersion (rt : Runtime) (argument : Option Str)
    (packageVersion tauriVersion : Str) (cargoVersionMatch : Option Str) :
    Except Nat (Option Str) :=
  let versionType :=
    match argument with
    | some a => rt.toLowerCase a
    | none => "patch".toList
  if !(["major".toList, "minor".toList, "patch".toList].contains versionType) then
    Except.error 1
  else
    let cargoVersion := cargoVersionMatch.getD "unknown".toList
    match selectBase (candidateVersions packageVersion tauriVersion cargoVersion) with
    | none => Except.error 1
    | some currentVersion => Except.ok (nextVersion versionType currentVersion)

end VersionRelease

/-! ## `scripts/updatelog.mjs` -/

/-- The UTF-16 code units of a character: one unit for a character of the basic plane, the
high and the low surrogate for another one. A JavaScript string is a sequence of code units,
and the positions of `String.prototype.slice` count code units. -/
def codeUnits (c : Char) : List Nat :=
  if c.toNat < 0x10000 then [c.toNat]
  else [0xD800 + (c.toNat - 0x10000) / 0x400, 0xDC00 + (c.toNat - 0x10000) % 0x400]

/-- The code units of a string. -/
def toCodeUnits : Str → List Nat
  | [] => []
  | c :: cs => codeUnits c ++ toCodeUnits cs

/-- The code units removed by `trim`: those of `WhiteSpace` and `LineTerminator`, which all
lie in the basic plane; a surrogate is none of them. -/
def isSpaceUnit (u : Nat) : Bool :=
  u == 0x09 || u == 0x0B || u == 0x0C || u == 0x20 || u == 0xA0 || u == 0x1680 ||
  (0x2000 ≤ u && u ≤ 0x200A) || u == 0x202F || u == 0x205F || u == 0x3000 || u == 0xFEFF ||
  u == 0x0A || u == 0x0D || u == 0x2028 || u == 0x2029

/-- `String.prototype.trim` on code units. -/
def trimUnits (u : List Nat) : List Nat :=
  ((u.dropWhile isSpaceUnit).reverse.dropWhile isSpaceUnit).reverse

namespace Updatelog

/-- `Array.prototype.join` with a separator of one character. -/
def join (sep : Char) : List Str → Str
  | [] => []
  | [line] => line
  | line :: rest => line ++ sep :: join sep rest

/-- The pattern `reTag = /## v[\d\.]+/`. -/
def reTag : Regex :=
  Regex.cat [Regex.lit '#', Regex.lit '#', Regex.lit ' ', Regex.lit 'v',
    Regex.plus (fun c => isDigit c || c == '.')]

/-- `reTag.test(line)`; the pattern has no `g` flag, so every test starts at index `0`. The
pattern has no `u` flag either and is matched against code units; as it asks for five
characters of the basic plane in a row, it matches the code units of a line exactly when it
matches its characters. -/
def test (line : Str) : Bool := (exec reTag line).isSome

/-- A key of `tagMap`, as its code units: `line.slice(3)` can cut a surrogate pair, and the
key then starts with a low surrogate, which no character is. -/
abbrev Key := List Nat

/-- The object `tagMap`: the lines collected under each tag. The keys that the scan creates
contain a digit or a dot, so none of them is the name of a property of `Object.prototype`. -/
abbrev TagMap := List (Key × List Str)

/-- `tagMap[tag].push(line)`. -/
def TagMap.push (tagMap : TagMap) (tag : Key) (line : Str) : TagMap :=
  tagMap.map (fun entry => if entry.1 = tag then (entry.1, entry.2 ++ [line]) else entry)

/-- The variables `_tag` and `tagMap` of the scan; `none` stands for `undefined` and `null`. -/
structure ScanState where
  tag : Option Key
  tagMap : TagMap
  deriving DecidableEq, Repr

/-- The truth value of `_tag`: `undefined`, `null` and the empty string are the falsy ones. -/
def truthyTag : Option Key → Bool
  | some (_ :: _) => true
  | _ => false

/-- The callback of `content.forEach((line, index) => ...)`, with `content[index + 1]` as
`next`, which is `undefined` (`none`) after the last line and is then tested as the text
`undefined`. -/
def scanLine (st : ScanState) (line : Str) (next : Option Str) : ScanState :=
  let tag := if test line then some (trimUnits ((toCodeUnits line).drop 3)) else st.tag
  if test line && (st.tagMap.lookup (tag.getD [])).isNone then
    { tag := tag, tagMap := st.tagMap ++ [(tag.getD [], [])] }
  else
    let tagMap := if truthyTag tag then st.tagMap.push (tag.getD []) line else st.tagMap
    if test (next.getD "undefined".toList) then { tag := none, tagMap := tagMap }
    else { tag := tag, tagMap := tagMap }

/-- The loop `content.forEach`. -/
def scan : ScanState → List Str → ScanState
  | st, [] => st
  | st, line :: rest => scan (scanLine st line rest.head?) rest

/-- The names of the properties that every object inherits from `Object.prototype`: for
these keys `tagMap[tag]` is a function or an object, not a list of lines. -/
def objectPrototypeKeys : List Str :=
  ["constructor".toList, "__proto__".toList, "__defineGetter__".toList,
   "__defineSetter__".toList, "__lookupGetter__".toList, "__lookupSetter__".toList,
   "hasOwnProperty".toList, "isPrototypeOf".toList, "propertyIsEnumerable".toList,
   "toLocaleString".toList, "toString".toList, "valueOf".toList]

/-- `updatelog(tag, type)` on the file `UPDATE_LOG.md`, whose content is `file` (`none` when
the file does not exist): the value returned, or the error thrown, and the content of the
file afterwards. The parameter `type` is `none` when the caller leaves it out. -/
def updatelog (file : Option Str) (tag : Str) (type : Option Str) : Except JSError Str × Str :=
  let type := type.getD "updater".toList
  let text := file.getD "# 更新日志\n\n".toList
  let content := split '\n' text
  let tagMap := (scan { tag := none, tagMap := [] } content).tagMap
  if objectPrototypeKeys.contains tag then
    (Except.error (JSError.thrown "TypeError: tagMap[tag].join is not a function"), text)
  else
    match tagMap.lookup (toCodeUnits tag) with
    | none =>
      if type = "release".toList then
        let newEntry := "\n## ".toList ++ tag ++ "\n- 版本更新\n".toList
        if content.length ≤ 2 then (Except.ok "- 版本更新".toList, text ++ newEntry)
        else
          (Except.ok "- 版本更新".toList,
            join '\n' (content.take 2) ++ newEntry ++ join '\n' (content.drop 2))
      else (Except.ok [], text)
    | some lines => (Except.ok (trim (join '\n' lines)), text)

end Updatelog

/-! ## Specification-side definitions for the update log -/

/-- The tag of a line that the scan takes for a section heading, as its code units. -/
def headingTag (line : Str) : Option Updatelog.Key :=
  if Updatelog.test line then some (trimUnits ((toCodeUnits line).drop 3)) else none

/-- A tag of the form `v` followed by digits and dots. -/
def isTagText (tag : Str) : Bool :=
  match tag with
  | 'v' :: ds => !ds.isEmpty && ds.all (fun c => isDigit c || c == '.')
  | _ => false

/-- A line of white space only. -/
def isBlank (line : Str) : Bool := line.all isSpace

/-! ## More arithmetic on numbers -/

/-- The operator `x - y` on numbers. -/
def JSNumber.sub (x y : JSNumber) : JSNumber := JSNumber.add x y.neg

/-- The operator `x * y` on numbers: the exact product, rounded; the product of an infinity
and zero is `NaN`. -/
def JSNumber.mul : JSNumber → JSNumber → JSNumber
  | JSNumber.nan, _ => JSNumber.nan
  | _, JSNumber.nan => JSNumber.nan
  | JSNumber.fin a, JSNumber.fin b => roundSigned (a * b) (2 ^ 1074 * 2 ^ 1074)
  | JSNumber.fin a, JSNumber.posInf =>
    if a = 0 then JSNumber.nan else if 0 < a then JSNumber.posInf else JSNumber.negInf
  | JSNumber.fin a, JSNumber.negInf =>
    if a = 0 then JSNumber.nan else if 0 < a then JSNumber.negInf else JSNumber.posInf
  | JSNumber.posInf, JSNumber.fin b =>
    if b = 0 then JSNumber.nan else if 0 < b then JSNumber.posInf else JSNumber.negInf
  | JSNumber.negInf, JSNumber.fin b =>
    if b = 0 then JSNumber.nan else if 0 < b then JSNumber.negInf else JSNumber.posInf
  | JSNumber.posInf, JSNumber.posInf => JSNumber.posInf
  | JSNumber.posInf, JSNumber.negInf => JSNumber.negInf
  | JSNumber.negInf, JSNumber.posInf => JSNumber.negInf
  | JSNumber.negInf, JSNumber.negInf => JSNumber.posInf

/-- The operator `x / y` on numbers: the exact quotient, rounded. The quotient of a number
other than zero by zero is an infinity whose sign depends on the sign of the zero, which
the numbers of this development do not keep: a zero divisor is read as `+0`. -/
def JSNumber.div : JSNumber → JSNumber → JSNumber
  | JSNumber.nan, _ => JSNumber.nan
  | _, JSNumber.nan => JSNumber.nan
  | JSNumber.posInf, JSNumber.posInf => JSNumber.nan
  | JSNumber.posInf, JSNumber.negInf => JSNumber.nan
  | JSNumber.negInf, JSNumber.posInf => JSNumber.nan
  | JSNumber.negInf, JSNumber.negInf => JSNumber.nan
  | JSNumber.posInf, JSNumber.fin b => if b < 0 then JSNumber.negInf else JSNumber.posInf
  | JSNumber.negInf, JSNumber.fin b => if b < 0 then JSNumber.posInf else JSNumber.negInf
  | JSNumber.fin _, JSNumber.posInf => JSNumber.fin 0
  | JSNumber.fin _, JSNumber.negInf => JSNumber.fin 0
  | JSNumber.fin a, JSNumber.fin b =>
    if b = 0 then
      if a = 0 then JSNumber.nan else if 0 < a then JSNumber.posInf else JSNumber.negInf
    else roundSigned (a * Int.sign b) b.natAbs

/-- The function `Math.floor`: the greatest integer that is not above the number. -/
def JSNumber.floor : JSNumber → JSNumber
  | JSNumber.fin k => JSNumber.fin (Int.fdiv k (2 ^ 1074) * 2 ^ 1074)
  | x => x

/-- The function `Math.ceil`: the least integer that is not below the number. -/
def JSNumber.ceil : JSNumber → JSNumber
  | JSNumber.fin k => JSNumber.fin (-(Int.fdiv (-k) (2 ^ 1074)) * 2 ^ 1074)
  | x => x

/-- The function `Math.max` of two numbers: `NaN` as soon as an argument is `NaN`. -/
def JSNumber.max (x y : JSNumber) : JSNumber :=
  if x = JSNumber.nan ∨ y = JSNumber.nan then JSNumber.nan
  else if JSNumber.lt x y then y else x

/-- The function `Math.min` of two numbers: `NaN` as soon as an argument is `NaN`. -/
def JSNumber.min (x y : JSNumber) : JSNumber :=
  if x = JSNumber.nan ∨ y = JSNumber.nan then JSNumber.nan
  else if JSNumber.lt y x then y else x

/-- The position that `Array.prototype.slice` derives from an argument for an array of `len`
elements: the number is truncated to an integer (`NaN` counts as `0`), a negative one counts
from the end, and the result is clamped to `[0, len]`. -/
def relativeIndex (len : Nat) : JSNumber → Nat
  | JSNumber.nan => 0
  | JSNumber.negInf => 0
  | JSNumber.posInf => len
  | JSNumber.fin k =>
    let t := Int.tdiv k (2 ^ 1074)
    if t < 0 then (len + t).toNat else min t.toNat len

/-- The method `Array.prototype.slice(start, end)`. -/
def slice {α : Type} (xs : List α) (start stop : JSNumber) : List α :=
  let k := relativeIndex xs.length start
  let final := relativeIndex xs.length stop
  (xs.drop k).take (final - k)

/-- The method `Array.prototype.map` with a callback of the element and its index; the second
argument is the index of the first element of the list. -/
def mapIndexed {α β : Type} (f : α → Nat → β) : Nat → List α → List β
  | _, [] => []
  | i, x :: xs => f x i :: mapIndexed f (i + 1) xs

/-- The truth value of `!x` for `x` a number or `undefined` (`none`): `undefined`, `NaN`
and zero are the falsy ones. -/
def falsy : Option JSNumber → Bool
  | none => true
  | some x => x = JSNumber.nan ∨ x = JSNumber.fin 0

/-- The expression `x || 0` for `x` a number or `undefined`. -/
def orZero (x : Option JSNumber) : JSNumber :=
  if falsy x then JSNumber.zero else x.getD JSNumber.zero

/-! ## `src/composables/useVirtualScroll.js` -/

namespace VirtualScroll

/-- The merged options `opts` that the window reads. -/
structure Options where
  itemHeight : JSNumber
  overscan : JSNumber

/-- The object `defaultOptions`. -/
def defaultOptions : Options := { itemHeight := JSNumber.ofNat 40, overscan := JSNumber.ofNat 5 }

/-- The computed `startIndex`. -/
def startIndex (opts : Options) (scrollTop : JSNumber) : JSNumber :=
  JSNumber.max (JSNumber.ofNat 0)
    (JSNumber.sub (JSNumber.floor (JSNumber.div scrollTop opts.itemHeight)) opts.overscan)

/-- The expression `listData.value?.length`; `none` is `undefined`, the value of the
expression when `listData.value` is `undefined` or `null` (here `none` as well). An array has
fewer than `2^32` elements, so its length is a number. -/
def lengthOf {α : Type} (listData : Option (List α)) : Option JSNumber :=
  listData.map (fun xs => JSNumber.ofNat xs.length)

/-- The computed `endIndex`. -/
def endIndex {α : Type} (opts : Options) (scrollTop viewportHeight : JSNumber)
    (listData : Option (List α)) : JSNumber :=
  JSNumber.min (orZero (lengthOf listData))
    (JSNumber.add
      (JSNumber.ceil (JSNumber.div (JSNumber.add scrollTop viewportHeight) opts.itemHeight))
      opts.overscan)

/-- An element of `visibleItems`: the properties of the list element, then `__index` and, of
`__style`, `top` and `height`, whose texts are `none` when the text of the number is outside
the model (`position` and `width` are constants). -/
structure VisibleItem (α : Type) where
  item : α
  __index : JSNumber
  top : Option Str
  height : Option Str

/-- The template literal of a number followed by `px`. -/
def px (x : JSNumber) : Option Str := (numberToString x).map (fun t => t ++ "px".toList)

/-- The computed `visibleItems`. -/
def visibleItems {α : Type} (opts : Options) (scrollTop viewportHeight : JSNumber)
    (listData : Option (List α)) : List (VisibleItem α) :=
  if falsy (lengthOf listData) then []
  else
    match listData with
    | none => []
    | some xs =>
      let start := startIndex opts scrollTop
      mapIndexed
        (fun item index =>
          { item := item
            __index := JSNumber.add start (JSNumber.ofNat index)
            top := px (JSNumber.mul (JSNumber.add start (JSNumber.ofNat index)) opts.itemHeight)
            height := px opts.itemHeight })
        0 (slice xs start (endIndex opts scrollTop viewportHeight listData))

end VirtualScroll

/-! # Lemmas and theorems -/

/-! ## Strings -/

theorem split_ne_nil (sep : Char) (s : Str) : split sep s ≠ [] := by
  induction s with
  | nil => simp [split]
  | cons c cs ih =>
    unfold split
    split_ifs
    · simp
    · cases h : split sep cs <;> simp

theorem split_append_sep (sep : Char) (a b : Str) :
    split sep (a ++ sep :: b) = split sep a ++ split sep b := by
  induction a with
  | nil => simp [split]
  | cons c cs ih =>
    by_cases hc : c = sep
    · simp [split, hc, ih]
    · have h1 := split_ne_nil sep cs
      cases h : split sep cs with
      | nil => exact absurd h h1
      | cons p ps => simp [split, hc, ih, h]

theorem split_of_not_mem (sep : Char) (a : Str) (h : sep ∉ a) : split sep a = [a] := by
  induction a with
  | nil => simp [split]
  | cons c cs ih =>
    simp only [List.mem_cons, not_or] at h
    have hc : c ≠ sep := fun e => h.1 e.symm
    simp [split, hc, ih h.2]

/-! ## Numbers -/

theorem JSNumber.lt_irrefl (x : JSNumber) : JSNumber.lt x x = false := by
  cases x <;> simp [JSNumber.lt]

theorem JSNumber.lt_asymm {x y : JSNumber} (h : JSNumber.lt x y = true) :
    JSNumber.lt y x = false := by
  cases x <;> cases y <;> simp_all [JSNumber.lt]
  all_goals omega

theorem JSNumber.lt_or_gt_of_ne {x y : JSNumber} (hx : x ≠ JSNumber.nan) (hy : y ≠ JSNumber.nan)
    (h : x ≠ y) : JSNumber.lt x y = true ∨ JSNumber.lt y x = true := by
  cases x <;> cases y <;> simp_all [JSNumber.lt]

theorem roundBinary64_ne_nan (p q : Nat) : roundBinary64 p q ≠ JSNumber.nan := by
  unfold roundBinary64
  intro h
  dsimp only at h
  split_ifs at h

theorem log2Floor_le (fuel : Nat) : ∀ (t m : Nat), m < 2 ^ (t + 1) → log2Floor fuel m ≤ t := by
  induction fuel with
  | zero =>
    intro t m _
    simp [log2Floor]
  | succ f ih =>
    intro t m hm
    unfold log2Floor
    split_ifs with h2
    · omega
    · cases t with
      | zero =>
        simp at hm
        omega
      | succ t =>
        have hdiv : m / 2 < 2 ^ (t + 1) := by
          rw [Nat.div_lt_iff_lt_mul (by norm_num)]
          calc m < 2 ^ (t + 1 + 1) := hm
            _ = 2 ^ (t + 1) * 2 := by ring
        have := ih t (m / 2) hdiv
        omega

theorem roundHalfEven_mul (q d : Nat) (hd : 0 < d) : roundHalfEven (q * d) d = q := by
  unfold roundHalfEven
  simp [Nat.mul_div_cancel _ hd, hd]

set_option exponentiation.threshold 4096 in
/-- Integers below `2^53` are binary64 values: rounding leaves them unchanged. -/
theorem roundBinary64_of_lt (n : Nat) (h : n < 2 ^ 53) :
    roundBinary64 n 1 = JSNumber.ofNat n := by
  have hs : n * 2 ^ 1074 < 2 ^ (1126 + 1) := by
    calc n * 2 ^ 1074 < 2 ^ 53 * 2 ^ 1074 := Nat.mul_lt_mul_of_pos_right h (Nat.two_pow_pos _)
      _ = 2 ^ (1126 + 1) := by rw [← Nat.pow_add]
  have hlog := log2Floor_le (n * 2 ^ 1074) 1126 (n * 2 ^ 1074) hs
  generalize hj : log2Floor (n * 2 ^ 1074) (n * 2 ^ 1074) - 52 = j
  have hj1 : j ≤ 1074 := by omega
  have hsplit : n * 2 ^ 1074 = n * 2 ^ (1074 - j) * 2 ^ j := by
    rw [Nat.mul_assoc, ← Nat.pow_add, Nat.sub_add_cancel hj1]
  have hround : roundHalfEven (n * 2 ^ 1074) (1 * 2 ^ j) * 2 ^ j = n * 2 ^ 1074 := by
    rw [Nat.one_mul]
    conv_lhs => rw [hsplit]
    rw [roundHalfEven_mul _ _ (Nat.two_pow_pos _)]
    exact hsplit.symm
  have hlt : ¬ 2 ^ 2098 ≤ n * 2 ^ 1074 := by
    have hpow : (2:Nat) ^ (1126 + 1) ≤ 2 ^ 2098 :=
      Nat.pow_le_pow_right (by norm_num) (by norm_num)
    exact fun hle => absurd (lt_of_lt_of_le hs hpow) (not_lt.mpr hle)
  unfold roundBinary64
  simp only [Nat.div_one, hj, hround, if_neg hlt, JSNumber.ofNat]
  push_cast
  rfl

theorem isDigit_not_isSpace {c : Char} (h : isDigit c = true) : isSpace c = false := by
  simp only [isDigit, Bool.and_eq_true, decide_eq_true_eq] at h
  simp only [isSpace, isWhiteSpace, isLineTerminator, Bool.or_eq_false_iff, beq_eq_false_iff_ne,
    Bool.and_eq_false_iff, decide_eq_false_iff_not]
  omega

theorem dropWhile_of_head {p : Char → Bool} {c : Char} {cs : Str} (h : p c = false) :
    (c :: cs).dropWhile p = c :: cs := by
  simp [List.dropWhile, h]

theorem trim_of_digits {s : Str} (h : s.all isDigit = true) : trim s = s := by
  rcases List.eq_nil_or_concat s with rfl | ⟨l, d, rfl⟩
  · rfl
  · rw [List.concat_eq_append] at h ⊢
    have hd : isSpace d = false :=
      isDigit_not_isSpace (by simp [List.all_eq_true] at h; exact h.2)
    have h1 : trimStart (l ++ [d]) = l ++ [d] := by
      cases l with
      | nil => exact dropWhile_of_head hd
      | cons c cs =>
        have hc : isSpace c = false :=
          isDigit_not_isSpace (by simp [List.all_eq_true] at h; exact h.1)
        exact dropWhile_of_head hc
    unfold trim
    rw [h1]
    unfold trimEnd
    rw [List.reverse_append, List.reverse_singleton, List.singleton_append, dropWhile_of_head hd]
    simp

theorem isDigit_iff (c : Char) : isDigit c = true ↔ 48 ≤ c.toNat ∧ c.toNat ≤ 57 := by
  simp [isDigit]

theorem parseNonDecimal_of_digits {s : Str} (h : s.all isDigit = true) :
    parseNonDecimal s = none := by
  unfold parseNonDecimal
  split
  · rename_i x ds
    have hx : isDigit x = true := by
      simp [List.all_eq_true] at h
      exact h.2.1
    rw [isDigit_iff] at hx
    have e1 : x ≠ 'x' := by rintro rfl; revert hx; decide
    have e2 : x ≠ 'X' := by rintro rfl; revert hx; decide
    have e3 : x ≠ 'o' := by rintro rfl; revert hx; decide
    have e4 : x ≠ 'O' := by rintro rfl; revert hx; decide
    have e5 : x ≠ 'b' := by rintro rfl; revert hx; decide
    have e6 : x ≠ 'B' := by rintro rfl; revert hx; decide
    simp [e1, e2, e3, e4, e5, e6]
  · rfl

theorem takeWhile_of_all {p : Char → Bool} {s : Str} (h : s.all p = true) :
    s.takeWhile p = s := by
  induction s with
  | nil => rfl
  | cons c cs ih =>
    simp only [List.all_cons, Bool.and_eq_true] at h
    simp [List.takeWhile, h.1, ih h.2]

theorem dropWhile_of_all {p : Char → Bool} {s : Str} (h : s.all p = true) :
    s.dropWhile p = [] := by
  induction s with
  | nil => rfl
  | cons c cs ih =>
    simp only [List.all_cons, Bool.and_eq_true] at h
    simp [List.dropWhile, h.1, ih h.2]

theorem parseUnsignedDecimal_of_digits {s : Str} (hne : s ≠ []) (h : s.all isDigit = true) :
    parseUnsignedDecimal s = some (natOfDigits 10 s, 0) := by
  unfold parseUnsignedDecimal
  simp [takeWhile_of_all h, dropWhile_of_all h, hne]

/-- On a non-empty run of decimal digits `Number` is the binary64 rounding of the integer the
digits write. -/
theorem Number_of_digits {s : Str} (hne : s ≠ []) (h : s.all isDigit = true) :
    Number s = roundBinary64 (natOfDigits 10 s) 1 := by
  unfold Number
  simp only [trim_of_digits h, hne, if_false, parseNonDecimal_of_digits h]
  cases s with
  | nil => exact absurd rfl hne
  | cons c cs =>
    have hc : isDigit c = true := by
      simp only [List.all_cons, Bool.and_eq_true] at h
      exact h.1
    rw [isDigit_iff] at hc
    have e1 : c ≠ '+' := by rintro rfl; revert hc; decide
    have e2 : c ≠ '-' := by rintro rfl; revert hc; decide
    have e3 : c ≠ 'I' := by rintro rfl; revert hc; decide
    have hu : stripSign (c :: cs) = c :: cs := by
      unfold stripSign
      split
      · rename_i heq; cases heq; exact absurd rfl e1
      · rename_i heq; cases heq; exact absurd rfl e2
      · rfl
    have hn : hasMinusSign (c :: cs) = false := by
      unfold hasMinusSign
      split
      · rename_i heq; cases heq; exact absurd rfl e2
      · rfl
    have hI : c :: cs ≠ "Infinity".toList := by
      intro heq
      have : c = 'I' := by
        have := congrArg List.head? heq
        simpa using this
      exact e3 this
    rw [hu, hn, if_neg hI, parseUnsignedDecimal_of_digits hne h]
    show ofDecimal false (natOfDigits 10 (c :: cs)) 0 = _
    simp only [ofDecimal, le_refl, if_true, Int.toNat_zero, pow_zero, mul_one,
      Bool.false_eq_true, if_false]

/-! ## The segment-wise comparator -/

namespace VersionRelease

theorem compareLoop_succ (pa pb : List JSNumber) (n i : Nat) :
    compareLoop pa pb (n + 1) i =
      if JSNumber.gt (pa.getD i JSNumber.zero) (pb.getD i JSNumber.zero) then 1
      else if JSNumber.lt (pa.getD i JSNumber.zero) (pb.getD i JSNumber.zero) then -1
      else compareLoop pa pb n (i + 1) := by
  have part : ∀ l : List JSNumber,
      (if i < l.length then l.getD i JSNumber.zero else JSNumber.zero) =
        l.getD i JSNumber.zero := by
    intro l
    split_ifs with h
    · rfl
    · rw [List.getD_eq_default]
      omega
  simp only [compareLoop, part]

theorem compareLoop_shift (pa pb : List JSNumber) (n i : Nat) :
    compareLoop pa pb n (i + 1) = compareLoop pa.tail pb.tail n i := by
  have tl : ∀ (l : List JSNumber) (j : Nat),
      l.getD (j + 1) JSNumber.zero = l.tail.getD j JSNumber.zero := by
    intro l j
    cases l <;> simp
  induction n generalizing i with
  | zero => rfl
  | succ n ih => rw [compareLoop_succ, compareLoop_succ, ih, tl, tl]

theorem padZeros_succ (n : Nat) (l : List JSNumber) (h : l.length ≤ n + 1) :
    padZeros (n + 1) l = l.getD 0 JSNumber.zero :: padZeros n l.tail := by
  cases l with
  | nil => simp [padZeros, List.replicate_succ]
  | cons x xs => simp [padZeros]

/-- The loop of `compareVersions` computes the lexicographic verdict on the zero-padded
component lists, as long as no component is `NaN`. -/
theorem compareLoop_eq_firstDifference (n : Nat) :
    ∀ pa pb : List JSNumber, (∀ x ∈ pa, x ≠ JSNumber.nan) → (∀ y ∈ pb, y ≠ JSNumber.nan) →
      n = max pa.length pb.length →
      compareLoop pa pb n 0 = firstDifference (padZeros n pa) (padZeros n pb) := by
  induction n with
  | zero =>
    intro pa pb _ _ hn
    have ha : pa = [] := List.length_eq_zero.mp (by omega)
    have hb : pb = [] := List.length_eq_zero.mp (by omega)
    subst ha hb
    rfl
  | succ n ih =>
    intro pa pb ha hb hn
    have hta : ∀ x ∈ pa.tail, x ≠ JSNumber.nan := fun x hx => ha x (List.mem_of_mem_tail hx)
    have htb : ∀ y ∈ pb.tail, y ≠ JSNumber.nan := fun y hy => hb y (List.mem_of_mem_tail hy)
    have hlen : n = max pa.tail.length pb.tail.length := by
      simp only [List.length_tail]
      omega
    have hxa : pa.getD 0 JSNumber.zero ≠ JSNumber.nan := by
      cases pa with
      | nil => simp [JSNumber.zero]
      | cons x xs => simpa using ha x (by simp)
    have hxb : pb.getD 0 JSNumber.zero ≠ JSNumber.nan := by
      cases pb with
      | nil => simp [JSNumber.zero]
      | cons y ys => simpa using hb y (by simp)
    rw [compareLoop_succ, compareLoop_shift, ih _ _ hta htb hlen,
      padZeros_succ n pa (by omega), padZeros_succ n pb (by omega)]
    generalize pa.getD 0 JSNumber.zero = x at hxa ⊢
    generalize pb.getD 0 JSNumber.zero = y at hxb ⊢
    simp only [firstDifference, JSNumber.gt]
    by_cases heq : x = y
    · subst heq
      simp [JSNumber.lt_irrefl]
    · rcases JSNumber.lt_or_gt_of_ne hxa hxb heq with hlt | hgt
      · simp [heq, hlt, JSNumber.lt_asymm hlt]
      · simp [heq, hgt]

theorem compareLoop_antisymm (pa pb : List JSNumber) (n i : Nat) :
    compareLoop pa pb n i = -compareLoop pb pa n i := by
  induction n generalizing i with
  | zero => rfl
  | succ n ih =>
    rw [compareLoop_succ, compareLoop_succ, ih]
    generalize pa.getD i JSNumber.zero = x
    generalize pb.getD i JSNumber.zero = y
    simp only [JSNumber.gt]
    rcases Bool.eq_false_or_eq_true (JSNumber.lt y x) with h1 | h1
    · simp [h1, JSNumber.lt_asymm h1]
    · rcases Bool.eq_false_or_eq_true (JSNumber.lt x y) with h2 | h2 <;> simp [h1, h2]

theorem compareLoop_of_getD_eq (pa pb : List JSNumber)
    (h : ∀ i, pa.getD i JSNumber.zero = pb.getD i JSNumber.zero) (n i : Nat) :
    compareLoop pa pb n i = 0 := by
  induction n generalizing i with
  | zero => rfl
  | succ n ih => rw [compareLoop_succ, h, ih]; simp [JSNumber.gt, JSNumber.lt_irrefl]

theorem isDottedNumeric_ne_nil {v : Str} (h : isDottedNumeric v = true) : v ≠ [] := by
  rintro rfl
  revert h
  decide

theorem map_Number_of_isDottedNumeric {v : Str} (h : isDottedNumeric v = true) :
    (split '.' v).map Number = numericComponents v := by
  unfold numericComponents
  apply List.map_congr_left
  intro seg hseg
  simp only [isDottedNumeric, List.all_eq_true, Bool.and_eq_true, Bool.not_eq_true',
    List.isEmpty_eq_false] at h
  exact Number_of_digits (h seg hseg).1 (List.all_eq_true.mpr (h seg hseg).2)

theorem numericComponents_ne_nan (v : Str) : ∀ x ∈ numericComponents v, x ≠ JSNumber.nan := by
  intro x hx
  simp only [numericComponents, List.mem_map] at hx
  obtain ⟨seg, _, rfl⟩ := hx
  exact roundBinary64_ne_nan _ _

theorem split_append_zero_segments (x : Str) (k : Nat) :
    split '.' (appendZeroSegments x k) = split '.' x ++ List.replicate k "0".toList := by
  induction k generalizing x with
  | zero => simp [appendZeroSegments]
  | succ k ih =>
    have e : appendZeroSegments x (k + 1) = x ++ '.' :: appendZeroSegments "0".toList k := by
      simp [appendZeroSegments, List.replicate_succ]
    rw [e, split_append_sep, ih]
    simp [List.replicate_succ, split]

theorem Number_zero_digit : Number "0".toList = JSNumber.zero := by decide!

theorem getD_append_replicate_zero (l : List JSNumber) (k i : Nat) :
    (l ++ List.replicate k JSNumber.zero).getD i JSNumber.zero = l.getD i JSNumber.zero := by
  simp only [List.getD_eq_getElem?_getD]
  by_cases h : i < l.length
  · rw [List.getElem?_append_left h]
  · rw [List.getElem?_append_right (by omega), List.getElem?_eq_none (l := l) (by omega)]
    by_cases h2 : i - l.length < k
    · simp [List.getElem?_replicate, h2]
    · simp [List.getElem?_replicate, h2]

end VersionRelease

/-- C1. For well-formed un-prefixed dotted-numeric versions `a` and `b`, the segment-wise
`compareVersions` of `version-release.mjs` is the lexicographic comparison of their numeric
component lists, the shorter one padded with zeros: `1` when `a` has the larger component at
the first position where they differ, `-1` when `b` has, `0` when no position differs.
In particular `compareVersions("2.0.0", "1.9.9") = 1`. -/
theorem compareVersions_lexicographic (a b : Str)
    (ha : isDottedNumeric a = true) (hb : isDottedNumeric b = true) :
    VersionRelease.compareVersions a b = lexCompare (numericComponents a) (numericComponents b) ∧
      VersionRelease.compareVersions "2.0.0".toList "1.9.9".toList = 1 := by
  refine ⟨?_, by decide!⟩
  unfold VersionRelease.compareVersions
  rw [if_neg (by
    simp [VersionRelease.isDottedNumeric_ne_nil ha, VersionRelease.isDottedNumeric_ne_nil hb])]
  simp only [VersionRelease.map_Number_of_isDottedNumeric ha,
    VersionRelease.map_Number_of_isDottedNumeric hb]
  exact VersionRelease.compareLoop_eq_firstDifference _ _ _
    (VersionRelease.numericComponents_ne_nan a) (VersionRelease.numericComponents_ne_nan b) rfl

/-- Witness for C1 at `1.10.3` against `1.9`. -/
theorem compareVersions_lexicographic_witness :
    isDottedNumeric "1.10.3".toList = true ∧ isDottedNumeric "1.9".toList = true ∧
      (VersionRelease.compareVersions "1.10.3".toList "1.9".toList =
          lexCompare (numericComponents "1.10.3".toList) (numericComponents "1.9".toList) ∧
        VersionRelease.compareVersions "2.0.0".toList "1.9.9".toList = 1) :=
  ⟨by decide, by decide,
    compareVersions_lexicographic "1.10.3".toList "1.9".toList (by decide) (by decide)⟩

/-- C2. Missing trailing components count as `0`: for every version string `a` (well-formed or
not) and every `k`, the segment-wise `compareVersions` returns `0` on `a` against `a` followed
by `k` copies of `.0`, in both argument orders. In particular
`compareVersions("1.2", "1.2.0") = 0`. -/
theorem compareVersions_trailing_zero_segments (a : Str) (k : Nat) :
    VersionRelease.compareVersions a (appendZeroSegments a k) = 0 ∧
      VersionRelease.compareVersions (appendZeroSegments a k) a = 0 ∧
      VersionRelease.compareVersions "1.2".toList "1.2.0".toList = 0 := by
  have key : ∀ i, ((split '.' (appendZeroSegments a k)).map Number).getD i JSNumber.zero =
      ((split '.' a).map Number).getD i JSNumber.zero := by
    intro i
    rw [VersionRelease.split_append_zero_segments, List.map_append, List.map_replicate,
      VersionRelease.Number_zero_digit, VersionRelease.getD_append_replicate_zero]
  refine ⟨?_, ?_, by decide!⟩
  · unfold VersionRelease.compareVersions
    split_ifs
    · rfl
    · exact VersionRelease.compareLoop_of_getD_eq _ _ (fun i => (key i).symm) _ _
  · unfold VersionRelease.compareVersions
    split_ifs
    · rfl
    · exact VersionRelease.compareLoop_of_getD_eq _ _ key _ _

/-- C3. The segment-wise `compareVersions` is antisymmetric on all strings, well-formed
versions included: `compareVersions(a, b) = -compareVersions(b, a)`; consequently
`compareVersions(x, x) = 0`. -/
theorem compareVersions_antisymmetric (a b : Str) :
    VersionRelease.compareVersions a b = -VersionRelease.compareVersions b a ∧
      VersionRelease.compareVersions a a = 0 := by
  have anti : ∀ x y : Str,
      VersionRelease.compareVersions x y = -VersionRelease.compareVersions y x := by
    intro x y
    unfold VersionRelease.compareVersions
    by_cases h : x = [] ∨ y = []
    · rw [if_pos h, if_pos (Or.symm h)]
      rfl
    · rw [if_neg h, if_neg (fun h2 => h (Or.symm h2))]
      simp only
      rw [max_comm]
      exact VersionRelease.compareLoop_antisymm _ _ _ _
  refine ⟨anti a b, ?_⟩
  have := anti a a
  omega

/-! ## The digit-collapsing comparator and the update check -/

/-- C4. The digit-collapsing `compareVersions` of `updateUtils.js` is not equivalent to the
segment-wise `compareVersions` of `version-release.mjs`: on the well-formed three-component
versions `1.0.10` and `1.1.0`, whose third components have different digit counts, the first
returns `1` (`1010 > 110`) and the second `-1`. -/
theorem comparators_not_equivalent :
    ∃ a b : Str, isThreeComponent a = true ∧ isThreeComponent b = true ∧
      (split '.' a).map List.length ≠ (split '.' b).map List.length ∧
      UpdateUtils.compareVersions a b = 1 ∧ VersionRelease.compareVersions a b = -1 ∧
      UpdateUtils.compareVersions a b ≠ VersionRelease.compareVersions a b :=
  ⟨"1.0.10".toList, "1.1.0".toList, by decide, by decide, by decide, by decide!, by decide!,
    by decide!⟩

/-- C5. Current version `v1.0.10`, production build, remote manifest `v1.1.0`: the remote
version is the greater one under the canonical comparator, yet with `formatVersion` and
`CURRENT_VERSION` bound `fetchLatestVersion` answers `hasUpdate = false`, because
`compareVersions` collapses the versions to `110` and `1010`; and in the scope the module
really has, the call is rejected with a `ReferenceError`. -/
theorem fetchLatestVersion_misses_greater_version :
    canonicalCompare "v1.1.0".toList "v1.0.10".toList = 1 ∧
      UpdateUtils.fetchLatestVersion UpdateUtils.linkedScope
          { isProduction := true
            checkUpdate := Except.ok (true, some { version := "v1.1.0".toList }) }
          "v1.0.10".toList =
        Except.ok { version := "v1.1.0".toList, hasUpdate := false,
                    currentVersion := "v1.0.10".toList } ∧
      UpdateUtils.fetchLatestVersion UpdateUtils.moduleScope
          { isProduction := true
            checkUpdate := Except.ok (true, some { version := "v1.1.0".toList }) }
          "v1.0.10".toList =
        Except.error (JSError.referenceError "CURRENT_VERSION") :=
  ⟨by decide!, by decide!, by decide!⟩

/-- C6. When the remote collaborator throws in production, the `catch` block reads
`CURRENT_VERSION`, which `updateUtils.js` never imports: in the scope the module really has,
`fetchLatestVersion` is rejected with a `ReferenceError` for every current version. With the
identifier bound to the constant of `constants/version.js`, the fallback is the one the
claim describes. -/
theorem fetchLatestVersion_fallback_unbound (c : Str) (e : JSError) :
    UpdateUtils.fetchLatestVersion UpdateUtils.moduleScope
        { isProduction := true, checkUpdate := Except.error e } c =
      Except.error (JSError.referenceError "CURRENT_VERSION") ∧
    UpdateUtils.fetchLatestVersion UpdateUtils.linkedScope
        { isProduction := true, checkUpdate := Except.error e } c =
      Except.ok
        { version :=
            if UpdateUtils.compareVersions Version.CURRENT_VERSION c > 0
            then Version.CURRENT_VERSION else c
          hasUpdate := decide (UpdateUtils.compareVersions Version.CURRENT_VERSION c > 0)
          currentVersion := c } := by
  constructor
  · rfl
  · simp [UpdateUtils.fetchLatestVersion, UpdateUtils.fetchLatestVersionTry,
      UpdateUtils.fetchLatestVersionCatch, UpdateUtils.linkedScope, UpdateUtils.resolve]

/-! ## Regular expressions: the matcher is sound for the declarative meaning -/

theorem runStar_sound (p : Char → Bool) (caps : Captures) (k : MState → Option Captures)
    (out : Captures) :
    ∀ (l : Str) (pos : Nat), runStar p caps k l pos = some out →
      ∃ ys rest, l = ys ++ rest ∧ (∀ y ∈ ys, p y = true) ∧
        k { pos := pos + ys.length, rest := rest, caps := caps } = some out := by
  intro l
  induction l with
  | nil =>
    intro pos h
    exact ⟨[], [], rfl, by simp, by simpa [runStar] using h⟩
  | cons c cs ih =>
    intro pos h
    unfold runStar at h
    by_cases hp : p c = true
    · rw [if_pos hp] at h
      cases hr : runStar p caps k cs (pos + 1) with
      | some o =>
        rw [hr] at h
        obtain ⟨ys, rest, hl, hall, hk⟩ := ih (pos + 1) (hr.trans h)
        refine ⟨c :: ys, rest, by simp [hl], ?_, ?_⟩
        · intro y hy
          rcases List.mem_cons.mp hy with rfl | hy
          · exact hp
          · exact hall y hy
        · simpa [Nat.add_assoc, Nat.add_comm 1] using hk
      | none =>
        rw [hr] at h
        exact ⟨[], c :: cs, rfl, by simp, by simpa using h⟩
    · rw [if_neg hp] at h
      exact ⟨[], c :: cs, rfl, by simp, by simpa using h⟩

theorem runStarLazy_sound (p : Char → Bool) (caps : Captures) (k : MState → Option Captures)
    (out : Captures) :
    ∀ (l : Str) (pos : Nat), runStarLazy p caps k l pos = some out →
      ∃ ys rest, l = ys ++ rest ∧ (∀ y ∈ ys, p y = true) ∧
        k { pos := pos + ys.length, rest := rest, caps := caps } = some out := by
  intro l
  induction l with
  | nil =>
    intro pos h
    exact ⟨[], [], rfl, by simp, by simpa [runStarLazy] using h⟩
  | cons c cs ih =>
    intro pos h
    unfold runStarLazy at h
    cases hk0 : k { pos := pos, rest := c :: cs, caps := caps } with
    | some o =>
      rw [hk0] at h
      exact ⟨[], c :: cs, rfl, by simp, by simpa using hk0.trans h⟩
    | none =>
      rw [hk0] at h
      by_cases hp : p c = true
      · simp only [hp, if_true] at h
        obtain ⟨ys, rest, hl, hall, hk⟩ := ih (pos + 1) h
        refine ⟨c :: ys, rest, by simp [hl], ?_, ?_⟩
        · intro y hy
          rcases List.mem_cons.mp hy with rfl | hy
          · exact hp
          · exact hall y hy
        · simpa [Nat.add_assoc, Nat.add_comm 1] using hk
      · simp [hp] at h

theorem runTimes_sound (p : Char → Bool) (caps : Captures) (k : MState → Option Captures)
    (out : Captures) :
    ∀ (n : Nat) (l : Str) (pos : Nat), runTimes p caps k n l pos = some out →
      ∃ ys rest, l = ys ++ rest ∧ ys.length = n ∧ (∀ y ∈ ys, p y = true) ∧
        k { pos := pos + ys.length, rest := rest, caps := caps } = some out := by
  intro n
  induction n with
  | zero =>
    intro l pos h
    exact ⟨[], l, rfl, rfl, by simp, by simpa [runTimes] using h⟩
  | succ n ih =>
    intro l pos h
    cases l with
    | nil => simp [runTimes] at h
    | cons c cs =>
      unfold runTimes at h
      by_cases hp : p c = true
      · rw [if_pos hp] at h
        obtain ⟨ys, rest, hl, hlen, hall, hk⟩ := ih cs (pos + 1) h
        refine ⟨c :: ys, rest, by simp [hl], by simp [hlen], ?_, ?_⟩
        · intro y hy
          rcases List.mem_cons.mp hy with rfl | hy
          · exact hp
          · exact hall y hy
        · simpa [Nat.add_assoc, Nat.add_comm 1] using hk
      · rw [if_neg hp] at h
        exact absurd h (by simp)

/-- Soundness of the matcher: when `re.run` succeeds, the continuation succeeded on a state
reached by a match of `re` in the declarative sense. -/
theorem run_sound (re : Regex) :
    ∀ (pos : Nat) (input : Str) (caps : Captures) (k : MState → Option Captures)
      (out : Captures),
      re.run { pos := pos, rest := input, caps := caps } k = some out →
      ∃ xs rest caps1, input = xs ++ rest ∧ Matches re pos caps xs rest caps1 ∧
        k { pos := pos + xs.length, rest := rest, caps := caps1 } = some out := by
  induction re with
  | empty =>
    intro pos input caps k out h
    exact ⟨[], input, caps, rfl, ⟨rfl, rfl⟩, by simpa [Regex.run] using h⟩
  | bol =>
    intro pos input caps k out h
    simp only [Regex.run] at h
    split_ifs at h with h0
    exact ⟨[], input, caps, rfl, ⟨h0, rfl, rfl⟩, by simpa using h⟩
  | eol =>
    intro pos input caps k out h
    simp only [Regex.run] at h
    split_ifs at h with h0
    exact ⟨[], input, caps, rfl, ⟨h0, rfl, rfl⟩, by simpa using h⟩
  | char p =>
    intro pos input caps k out h
    cases input with
    | nil => simp [Regex.run] at h
    | cons c cs =>
      simp only [Regex.run] at h
      split_ifs at h with hp
      exact ⟨[c], cs, caps, rfl, ⟨⟨c, rfl, hp⟩, rfl⟩, by simpa using h⟩
  | plus p =>
    intro pos input caps k out h
    cases input with
    | nil => simp [Regex.run] at h
    | cons c cs =>
      simp only [Regex.run] at h
      split_ifs at h with hp
      obtain ⟨ys, rest, hl, hall, hk⟩ := runStar_sound p caps k out cs (pos + 1) h
      refine ⟨c :: ys, rest, caps, by simp [hl], ⟨by simp, ?_, rfl⟩, ?_⟩
      · intro y hy
        rcases List.mem_cons.mp hy with rfl | hy
        · exact hp
        · exact hall y hy
      · simpa [Nat.add_assoc, Nat.add_comm 1] using hk
  | plusLazy p =>
    intro pos input caps k out h
    cases input with
    | nil => simp [Regex.run] at h
    | cons c cs =>
      simp only [Regex.run] at h
      split_ifs at h with hp
      obtain ⟨ys, rest, hl, hall, hk⟩ := runStarLazy_sound p caps k out cs (pos + 1) h
      refine ⟨c :: ys, rest, caps, by simp [hl], ⟨by simp, ?_, rfl⟩, ?_⟩
      · intro y hy
        rcases List.mem_cons.mp hy with rfl | hy
        · exact hp
        · exact hall y hy
      · simpa [Nat.add_assoc, Nat.add_comm 1] using hk
  | times n p =>
    intro pos input caps k out h
    simp only [Regex.run] at h
    obtain ⟨ys, rest, hl, hlen, hall, hk⟩ := runTimes_sound p caps k out n input pos h
    exact ⟨ys, rest, caps, hl, ⟨hlen, hall, rfl⟩, hk⟩
  | opt r ih =>
    intro pos input caps k out h
    simp only [Regex.run] at h
    cases hr : r.run { pos := pos, rest := input, caps := caps }
        (fun st1 => if st1.pos = pos then none else k st1) with
    | some o =>
      rw [hr] at h
      obtain ⟨xs, rest, caps1, hl, hm, hk⟩ := ih pos input caps _ o hr
      simp only at hk
      split_ifs at hk
      exact ⟨xs, rest, caps1, hl, Or.inl hm, hk.trans h⟩
    | none =>
      rw [hr] at h
      exact ⟨[], input, caps, rfl, Or.inr ⟨rfl, rfl⟩, by simpa using h⟩
  | group i r ih =>
    intro pos input caps k out h
    simp only [Regex.run] at h
    obtain ⟨xs, rest, caps1, hl, hm, hk⟩ := ih pos input caps _ out h
    refine ⟨xs, rest, (i, xs) :: caps1, hl, ⟨caps1, hm, rfl⟩, ?_⟩
    simpa [hl] using hk
  | seq r s ihr ihs =>
    intro pos input caps k out h
    simp only [Regex.run] at h
    obtain ⟨xs1, rest1, capsm, hl1, hm1, hk1⟩ := ihr pos input caps _ out h
    obtain ⟨xs2, rest, caps1, hl2, hm2, hk2⟩ := ihs _ rest1 capsm k out hk1
    refine ⟨xs1 ++ xs2, rest, caps1, by simp [hl1, hl2], ⟨xs1, xs2, capsm, rfl, ?_, hm2⟩, ?_⟩
    · rw [← hl2]
      exact hm1
    · simpa [Nat.add_assoc] using hk2

theorem execFrom_sound (re : Regex) (out : Captures) :
    ∀ (s : Str) (pos : Nat), execFrom re pos s = some out →
      ∃ skipped xs rest, s = skipped ++ xs ++ rest ∧
        Matches re (pos + skipped.length) [] xs rest out := by
  intro s
  induction s with
  | nil =>
    intro pos h
    simp only [execFrom] at h
    obtain ⟨xs, rest, caps1, hl, hm, hk⟩ := run_sound re pos [] [] _ out h
    simp only [Option.some.injEq] at hk
    subst hk
    exact ⟨[], xs, rest, by simpa using hl, by simpa using hm⟩
  | cons c cs ih =>
    intro pos h
    simp only [execFrom] at h
    cases hr : re.run { pos := pos, rest := c :: cs, caps := [] } (fun st => some st.caps) with
    | some o =>
      rw [hr] at h
      obtain ⟨xs, rest, caps1, hl, hm, hk⟩ := run_sound re pos (c :: cs) [] _ o hr
      simp only [Option.some.injEq] at hk h
      subst hk
      subst h
      exact ⟨[], xs, rest, by simpa using hl, by simpa using hm⟩
    | none =>
      rw [hr] at h
      obtain ⟨skipped, xs, rest, hl, hm⟩ := ih (pos + 1) h
      refine ⟨c :: skipped, xs, rest, by simp [hl], ?_⟩
      simpa [Nat.add_assoc, Nat.add_comm 1] using hm

/-! ## The two patterns of the parser: what a match looks like -/

namespace UpdateUtils

theorem beq_char_true {c d : Char} (h : (c == d) = true) : c = d := by
  simpa using h

theorem Matches_versionCore {pos : Nat} {caps caps1 : Captures} {xs rest : Str}
    (h : Matches versionCore pos caps xs rest caps1) : caps1 = caps ∧ VersionShape xs := by
  simp only [versionCore, Regex.cat, Regex.lit, Matches] at h
  obtain ⟨pre, r1, c1, rfl, hpre, d1, r2, c2, rfl, ⟨hd1, hd1', hc2⟩, dot1, r3, c3, rfl,
    ⟨⟨x1, rfl, hx1⟩, hc3⟩, d2, r4, c4, rfl, ⟨hd2, hd2', hc4⟩, dot2, d3, c5, rfl,
    ⟨⟨x2, rfl, hx2⟩, hc5⟩, hd3, hd3', hc6⟩ := h
  have e1 := beq_char_true hx1
  have e2 := beq_char_true hx2
  subst e1 e2
  have hc : c1 = caps ∧ (pre = [] ∨ pre = ['v'] ∨ pre = ['V']) := by
    rcases hpre with ⟨⟨c, rfl, hc⟩, rfl⟩ | ⟨rfl, rfl⟩
    · refine ⟨rfl, Or.inr ?_⟩
      simp only [Bool.or_eq_true, beq_iff_eq] at hc
      rcases hc with rfl | rfl
      · exact Or.inl rfl
      · exact Or.inr rfl
    · exact ⟨rfl, Or.inl rfl⟩
  refine ⟨?_, pre, d1, d2, d3, by simp, hc.2, ⟨hd1, hd1'⟩, ⟨hd2, hd2'⟩, ⟨hd3, hd3'⟩⟩
  rw [hc6, hc5, hc4, hc3, hc2, hc.1]

theorem Matches_dateCore {pos : Nat} {caps caps1 : Captures} {xs rest : Str}
    (h : Matches dateCore pos caps xs rest caps1) : caps1 = caps ∧ DateShape xs := by
  simp only [dateCore, Regex.cat, Regex.lit, Matches] at h
  obtain ⟨y, r1, c1, rfl, ⟨hy, hy', rfl⟩, dash1, r2, c2, rfl, ⟨⟨x1, rfl, hx1⟩, rfl⟩,
    mo, r3, c3, rfl, ⟨hmo, hmo', rfl⟩, dash2, da, c4, rfl, ⟨⟨x2, rfl, hx2⟩, rfl⟩,
    hda, hda', rfl⟩ := h
  have e1 := beq_char_true hx1
  have e2 := beq_char_true hx2
  subst e1 e2
  exact ⟨rfl, y, mo, da, by simp, ⟨hy, hy'⟩, ⟨hmo, hmo'⟩, ⟨hda, hda'⟩⟩

/-- A line matched by the heading pattern starts with `##`, white space and a version text;
group 1 holds that text, and group 2 holds a date text when the optional part matched. -/
theorem versionPattern_sound {line : Str} {m : Captures}
    (h : exec versionPattern line = some m) :
    ∃ ws v tail, line = '#' :: '#' :: (ws ++ v ++ tail) ∧
      (ws ≠ [] ∧ ∀ x ∈ ws, isSpace x = true) ∧ VersionShape v ∧
      (m = [(1, v)] ∨ ∃ d, DateShape d ∧ m = [(2, d), (1, v)]) := by
  obtain ⟨skipped, xs, rest, hl, hm⟩ := execFrom_sound _ _ _ _ h
  simp only [versionPattern, Regex.cat, Regex.lit, Matches] at hm
  obtain ⟨e0, r0, c0, rfl, ⟨hpos, rfl, rfl⟩, h1, r1, c1, rfl, ⟨⟨x1, rfl, hx1⟩, rfl⟩,
    h2, r2, c2, rfl, ⟨⟨x2, rfl, hx2⟩, rfl⟩, ws, r3, c3, rfl, ⟨hws, hws', rfl⟩,
    v, r4, c4, rfl, ⟨caps0, hv, rfl⟩, hopt⟩ := hm
  have e1 := beq_char_true hx1
  have e2 := beq_char_true hx2
  subst e1 e2
  have hsk : skipped = [] := List.length_eq_zero.mp (by omega)
  subst hsk
  obtain ⟨rfl, hvs⟩ := @Matches_versionCore 0 _ _ _ [] hv
  rcases hopt with ⟨ws2, r5, c5, rfl, ⟨_, _, rfl⟩, par, r6, c6, rfl, ⟨_, rfl⟩,
    d, r7, c7, rfl, ⟨caps2, hd, rfl⟩, _, rfl⟩ | ⟨rfl, rfl⟩
  · obtain ⟨rfl, hds⟩ := @Matches_dateCore 0 _ _ _ [] hd
    exact ⟨ws, v, ws2 ++ (par ++ (d ++ (r7 ++ rest))), by simp [hl], ⟨hws, hws'⟩, hvs,
      Or.inr ⟨d, hds, rfl⟩⟩
  · exact ⟨ws, v, rest, by simp [hl], ⟨hws, hws'⟩, hvs, Or.inl rfl⟩

theorem versionShape_ne_nil {v : Str} (h : VersionShape v) : v ≠ [] := by
  obtain ⟨pre, d1, d2, d3, rfl, _, _, _, _⟩ := h
  simp

theorem dateShape_ne_nil {d : Str} (h : DateShape d) : d ≠ [] := by
  obtain ⟨y, mo, da, rfl, _, _, _⟩ := h
  simp

theorem truthy_some_of_ne_nil {s : Str} (h : s ≠ []) : truthy (some s) = true := by
  cases s with
  | nil => exact absurd rfl h
  | cons c cs => rfl

/-- After a heading match, group 1 is a non-empty text and `versionMatch[2] || today` is the
captured date when there is one, today's date otherwise. -/
theorem versionPattern_captures (today : Str) {line : Str} {m : Captures}
    (h : exec versionPattern line = some m) :
    truthy (capture m 1) = true ∧
      (if truthy (capture m 2) then (capture m 2).getD [] else today) =
        (capture m 2).getD today := by
  obtain ⟨ws, v, tail, _, _, hv, hm⟩ := versionPattern_sound h
  rcases hm with rfl | ⟨d, hd, rfl⟩
  · exact ⟨by simpa [capture, List.lookup] using truthy_some_of_ne_nil (versionShape_ne_nil hv),
      by simp [capture, List.lookup, truthy]⟩
  · have hc2 : capture [(2, d), (1, v)] 2 = some d := by simp [capture, List.lookup]
    have hc1 : capture [(2, d), (1, v)] 1 = some v := by simp [capture, List.lookup]
    rw [hc1, hc2]
    exact ⟨truthy_some_of_ne_nil (versionShape_ne_nil hv), by simp [truthy_some_of_ne_nil (dateShape_ne_nil hd)]⟩

/-! ## The parser loop computes the declarative sections -/

theorem exec_versionPattern_nil : exec versionPattern [] = none := by decide

theorem exec_changePattern_nil : exec changePattern [] = none := by decide

theorem headingOf_of_trim_nil {rt : Runtime} {l : Str} (h : trim l = []) :
    headingOf rt l = none := by
  simp [headingOf, h, exec_versionPattern_nil]

theorem changeOf_of_trim_nil {rt : Runtime} {l : Str} (h : trim l = []) :
    changeOf rt l = none := by
  simp [changeOf, h, exec_changePattern_nil]

theorem foldl_parseLine (rt : Runtime) :
    ∀ (ls : List Str) (st : ParserState),
      pushCurrent (ls.foldl (parseLine rt) st) =
        st.changelog ++ openEntry rt st (bodyLines rt ls) ++ sections rt ls := by
  intro ls
  induction ls with
  | nil =>
    intro st
    simp only [List.foldl_nil, bodyLines, List.takeWhile_nil, sections, List.append_nil,
      openEntry, pushCurrent, List.filterMap_nil]
    split_ifs <;> simp
  | cons l ls ih =>
    intro st
    rw [List.foldl_cons, ih]
    by_cases hl : trim l = []
    · have e : parseLine rt st l = st := by simp [parseLine, hl]
      simp [e, bodyLines, sections, headingOf_of_trim_nil hl, openEntry,
        changeOf_of_trim_nil hl]
    · cases hv : exec versionPattern (trim l) with
      | some m =>
        obtain ⟨h1, h2⟩ := versionPattern_captures rt.today hv
        have e : parseLine rt st l =
            { changelog := pushCurrent st, currentVersion := capture m 1,
              currentDate := (capture m 2).getD rt.today, currentChanges := [] } := by
          simp only [parseLine, hl, if_false, hv, h2]
        have hh : headingOf rt l = some ((capture m 1).getD [], (capture m 2).getD rt.today) := by
          simp [headingOf, hv]
        rw [e]
        by_cases ht : truthy st.currentVersion = true <;>
          simp [openEntry, pushCurrent, ht, h1, bodyLines, hh, sections]
      | none =>
        have hh : headingOf rt l = none := by simp [headingOf, hv]
        by_cases ht : truthy st.currentVersion = true
        · cases hc : exec changePattern (trim l) with
          | some m =>
            have e : parseLine rt st l = { st with currentChanges := st.currentChanges ++
                [{ type := mapChangeType rt ((capture m 1).getD []),
                   text := trim ((capture m 2).getD []) }] } := by
              simp [parseLine, hl, hv, ht, hc]
            have hco : changeOf rt l = some (ChangeNote.mk
                (mapChangeType rt ((capture m 1).getD [])) (trim ((capture m 2).getD []))) := by
              simp [changeOf, hc]
            rw [e]
            simp [openEntry, ht, bodyLines, hh, sections, hco]
          | none =>
            have e : parseLine rt st l = st := by simp [parseLine, hl, hv, ht, hc]
            have hco : changeOf rt l = none := by simp [changeOf, hc]
            rw [e]
            simp [openEntry, ht, bodyLines, hh, sections, hco]
        · have e : parseLine rt st l = st := by simp [parseLine, hl, hv, ht]
          rw [e]
          simp [openEntry, ht, bodyLines, hh, sections]

/-- The parser returns the declarative sections of the lines of its input. -/
theorem parse_eq_sections (rt : Runtime) (markdownText : Str) :
    parseChangelogFromMarkdown rt markdownText = sections rt (split '\n' markdownText) := by
  unfold parseChangelogFromMarkdown
  split_ifs with h
  · subst h
    simp [split, sections, headingOf, trim, trimStart, trimEnd, exec_versionPattern_nil]
  · simp only [foldl_parseLine]
    simp [openEntry, truthy]

theorem sections_map_heading (rt : Runtime) (ls : List Str) :
    (sections rt ls).map (fun e => (e.version, e.date)) = ls.filterMap (headingOf rt) := by
  induction ls with
  | nil => rfl
  | cons l ls ih =>
    cases h : headingOf rt l with
    | none => simp [sections, h, ih]
    | some vd => simp [sections, h, ih]

end UpdateUtils

/-- C9. For every markdown text, `parseChangelogFromMarkdown` returns exactly one release
entry per line whose trimmed form matches the heading pattern, in document order, the one
opened by the last heading included: the sequence of `(version, date)` pairs of the result is
the sequence of headings of the lines, where the version is the text captured by group 1,
prefix unchanged, and the date is the text captured by group 2 when there is one and the
injected current date otherwise. Group 1 is set by every match. -/
theorem parse_entries_are_heading_lines (rt : Runtime) (markdownText : Str) :
    (UpdateUtils.parseChangelogFromMarkdown rt markdownText).map (fun e => (e.version, e.date)) =
        (split '\n' markdownText).filterMap (fun rawLine =>
          (exec UpdateUtils.versionPattern (trim rawLine)).map
            (fun m => ((capture m 1).getD [], (capture m 2).getD rt.today))) ∧
      ∀ (line : Str) (m : Captures), exec UpdateUtils.versionPattern line = some m →
        ∃ v, capture m 1 = some v ∧ v ≠ [] := by
  constructor
  · rw [UpdateUtils.parse_eq_sections, UpdateUtils.sections_map_heading]
    rfl
  · intro line m h
    obtain ⟨ws, v, tail, _, _, hv, hm⟩ := UpdateUtils.versionPattern_sound h
    refine ⟨v, ?_, UpdateUtils.versionShape_ne_nil hv⟩
    rcases hm with rfl | ⟨d, _, rfl⟩ <;> simp [capture, List.lookup]

/-- C10. For every markdown text, the entries returned by `parseChangelogFromMarkdown` are the
sections of its lines: the changes of the entry opened by a heading line are, in document
order, one note `{ type: mapChangeType(label), text: trimmed text }` for each line between
that heading and the next heading (or the end of the input) whose trimmed form matches the
change pattern; a change line before the first heading belongs to no entry, and no line
contributes to any entry but the one of the nearest heading above it. -/
theorem parse_changes_are_section_lines (rt : Runtime) (markdownText : Str) :
    UpdateUtils.parseChangelogFromMarkdown rt markdownText =
      sections rt (split '\n' markdownText) :=
  UpdateUtils.parse_eq_sections rt markdownText

/-! ## The formatter writes the document lines -/

namespace Version

theorem unlines_append (a b : List Str) : unlines (a ++ b) = unlines a ++ unlines b := by
  simp [unlines]

theorem unlines_cons (l : Str) (ls : List Str) : unlines (l :: ls) = l ++ '\n' :: unlines ls := by
  simp [unlines]

theorem appendBullets_eq (markdown : Str) (changes : List ChangeNote) :
    appendBullets markdown changes = markdown ++ unlines (changes.map bulletLine) := by
  unfold appendBullets
  induction changes generalizing markdown with
  | nil => simp [unlines]
  | cons c cs ih =>
    rw [List.foldl_cons, ih]
    simp [unlines_cons, bulletLine]

theorem appendBucket_eq (markdown heading : Str) (changes : List ChangeNote) :
    appendBucket markdown heading changes = markdown ++ unlines (bucketLines heading changes) := by
  unfold appendBucket bucketLines
  split_ifs
  · rw [appendBullets_eq]
    simp [unlines_cons, unlines_append, unlines]
  · simp [unlines]

theorem appendRelease_eq (markdown : Str) (release : ReleaseEntry) :
    appendRelease markdown release = markdown ++ unlines (releaseLines release) := by
  unfold appendRelease releaseLines
  simp only [appendBucket_eq, unlines_cons, unlines_append, headingLine]
  simp

theorem foldl_appendRelease_eq (markdown : Str) (history : List ReleaseEntry) :
    history.foldl appendRelease markdown =
      markdown ++ unlines (history.map releaseLines).flatten := by
  induction history generalizing markdown with
  | nil => simp [unlines]
  | cons e es ih =>
    rw [List.foldl_cons, ih, appendRelease_eq]
    simp [unlines_append]

/-- With limit `0` the formatter writes the document lines, each ended by a newline. -/
theorem formatChangelogToMarkdown_eq_unlines (history : List ReleaseEntry) :
    formatChangelogToMarkdown history 0 = unlines (documentLines history) := by
  unfold formatChangelogToMarkdown documentLines
  simp only [lt_self_iff_false, if_false, foldl_appendRelease_eq, unlines_cons]
  rfl

theorem split_unlines (ls : List Str) (h : ∀ l ∈ ls, '\n' ∉ l) :
    split '\n' (unlines ls) = ls ++ [[]] := by
  induction ls with
  | nil => rfl
  | cons l ls ih =>
    rw [unlines_cons, split_append_sep, split_of_not_mem _ _ (h l (by simp)),
      ih (fun x hx => h x (by simp [hx]))]
    rfl

end Version

/-! ## Trimming -/

theorem dropWhile_append_singleton {p : Char → Bool} {c : Char} (h : p c = false) (l : Str) :
    (l ++ [c]).dropWhile p = l.dropWhile p ++ [c] := by
  induction l with
  | nil => simp [List.dropWhile, h]
  | cons x xs ih =>
    by_cases hx : p x = true
    · simp [List.dropWhile, hx, ih]
    · simp [List.dropWhile, hx]

theorem trimEnd_cons {c : Char} (h : isSpace c = false) (s : Str) :
    trimEnd (c :: s) = c :: trimEnd s := by
  simp [trimEnd, dropWhile_append_singleton h]

theorem trim_cons {c : Char} (h : isSpace c = false) (s : Str) :
    trim (c :: s) = c :: trimEnd s := by
  unfold trim trimStart
  rw [dropWhile_of_head h, trimEnd_cons h]

theorem trimEnd_append_singleton {d : Char} (h : isSpace d = false) (s : Str) :
    trimEnd (s ++ [d]) = s ++ [d] := by
  simp [trimEnd, List.dropWhile, h]

/-- A text whose first and last characters are not white space is its own trimmed form. -/
theorem trim_eq_self {c d : Char} (hc : isSpace c = false) (hd : isSpace d = false) (s : Str) :
    trim (c :: (s ++ [d])) = c :: (s ++ [d]) := by
  rw [trim_cons hc, trimEnd_append_singleton hd]

theorem trimEnd_prefix (s : Str) : ∃ t, s = trimEnd s ++ t := by
  refine ⟨(s.reverse.takeWhile isSpace).reverse, ?_⟩
  have := List.takeWhile_append_dropWhile isSpace s.reverse
  have h2 := congrArg List.reverse this
  simp only [List.reverse_append, List.reverse_reverse] at h2
  exact h2.symm

theorem not_mem_trimEnd {a : Char} {s : Str} (h : a ∉ s) : a ∉ trimEnd s := by
  obtain ⟨t, ht⟩ := trimEnd_prefix s
  intro hm
  apply h
  rw [ht]
  exact List.mem_append_left _ hm

theorem not_mem_trim {a : Char} {s : Str} (h : a ∉ s) : a ∉ trim s := by
  unfold trim
  apply not_mem_trimEnd
  intro hm
  exact h ((List.dropWhile_sublist isSpace).subset hm)

/-! ## The change pattern: what a match looks like -/

namespace UpdateUtils

/-- A line matched by the change pattern is `-`, white space, a bracketed label, white space
and a text; groups 1 and 2 hold the label and the text, neither with a line terminator. -/
theorem changePattern_sound {line : Str} {m : Captures}
    (h : exec changePattern line = some m) :
    ∃ ws label ws2 text, line = '-' :: (ws ++ '[' :: (label ++ ']' :: (ws2 ++ text))) ∧
      (ws ≠ [] ∧ ∀ x ∈ ws, isSpace x = true) ∧ (∀ x ∈ label, isDot x = true) ∧
      (∀ x ∈ text, isDot x = true) ∧ m = [(2, text), (1, label)] := by
  obtain ⟨skipped, xs, rest, hl, hm⟩ := execFrom_sound _ _ _ _ h
  simp only [changePattern, Regex.cat, Regex.lit, Matches] at hm
  obtain ⟨e0, r0, c0, rfl, ⟨hpos, rfl, rfl⟩, h1, r1, c1, rfl, ⟨⟨x1, rfl, hx1⟩, rfl⟩,
    ws, r2, c2, rfl, ⟨hws, hws', rfl⟩, h3, r3, c3, rfl, ⟨⟨x3, rfl, hx3⟩, rfl⟩,
    label, r4, c4, rfl, ⟨caps0, ⟨_, hlabel, rfl⟩, rfl⟩, h5, r5, c5, rfl, ⟨⟨x5, rfl, hx5⟩, rfl⟩,
    ws2, r6, c6, rfl, ⟨_, _, rfl⟩, text, r7, c7, rfl, ⟨caps1, ⟨_, htext, rfl⟩, rfl⟩,
    hrest, rfl, rfl⟩ := hm
  have e1 := beq_char_true hx1
  have e3 := beq_char_true hx3
  have e5 := beq_char_true hx5
  subst e1 e3 e5 hrest
  have hsk : skipped = [] := List.length_eq_zero.mp (by omega)
  subst hsk
  exact ⟨ws, label, ws2, text, by simp [hl], ⟨hws, hws'⟩, hlabel, htext, rfl⟩

theorem isDot_newline : isDot '\n' = false := by decide

/-- The text of a parsed change note has no newline. -/
theorem changeOf_text_newlineFree {rt : Runtime} {l : Str} {c : ChangeNote}
    (h : changeOf rt l = some c) : '\n' ∉ c.text := by
  unfold changeOf at h
  cases hm : exec changePattern (trim l) with
  | none => simp [hm] at h
  | some m =>
    simp only [hm, Option.map_some', Option.some.injEq] at h
    obtain ⟨ws, label, ws2, text, _, _, _, htext, rfl⟩ := changePattern_sound hm
    subst h
    apply not_mem_trim
    simp only [capture, List.lookup, beq_self_eq_true, Option.getD_some]
    intro hmem
    have := htext _ hmem
    rw [isDot_newline] at this
    exact absurd this (by simp)

end UpdateUtils

/-! ## Regular expressions: runs without choice -/

theorem determined_bol (input : Str) (caps : Captures) :
    Determined Regex.bol { pos := 0, rest := input, caps := caps }
      { pos := 0, rest := input, caps := caps } := by
  intro k _
  simp [Regex.run]

theorem determined_char {p : Char → Bool} {c : Char} (hc : p c = true) (pos : Nat) (cs : Str)
    (caps : Captures) :
    Determined (Regex.char p) { pos := pos, rest := c :: cs, caps := caps }
      { pos := pos + 1, rest := cs, caps := caps } := by
  intro k _
  simp [Regex.run, hc]

theorem determined_lit (c : Char) (pos : Nat) (cs : Str) (caps : Captures) :
    Determined (Regex.lit c) { pos := pos, rest := c :: cs, caps := caps }
      { pos := pos + 1, rest := cs, caps := caps } :=
  determined_char (by simp) pos cs caps

theorem runStar_greedy {p : Char → Bool} (caps : Captures) (k : MState → Option Captures)
    (rest : Str) (hrest : ∀ c cs, rest = c :: cs → p c = false) :
    ∀ (xs : Str) (pos : Nat), (∀ x ∈ xs, p x = true) →
      (k { pos := pos + xs.length, rest := rest, caps := caps }).isSome = true →
      runStar p caps k (xs ++ rest) pos =
        k { pos := pos + xs.length, rest := rest, caps := caps } := by
  intro xs
  induction xs with
  | nil =>
    intro pos _ _
    cases rest with
    | nil => simp [runStar]
    | cons c cs => simp [runStar, hrest c cs rfl]
  | cons x xs ih =>
    intro pos hall hk
    have hx : p x = true := hall x (by simp)
    have e : pos + 1 + xs.length = pos + (x :: xs).length := by
      simp only [List.length_cons]
      omega
    rw [← e] at hk ⊢
    have h3 := ih (pos + 1) (fun y hy => hall y (by simp [hy])) hk
    obtain ⟨out, hout⟩ := Option.isSome_iff_exists.mp hk
    simp only [List.cons_append, runStar, hx, if_true, List.append_eq]
    rw [h3, hout]

theorem determined_plus {p : Char → Bool} {xs rest : Str} (hne : xs ≠ [])
    (hall : ∀ x ∈ xs, p x = true) (hrest : ∀ c cs, rest = c :: cs → p c = false) (pos : Nat)
    (caps : Captures) :
    Determined (Regex.plus p) { pos := pos, rest := xs ++ rest, caps := caps }
      { pos := pos + xs.length, rest := rest, caps := caps } := by
  intro k hk
  cases xs with
  | nil => exact absurd rfl hne
  | cons x xs =>
    have hx : p x = true := hall x (by simp)
    have hk1 : (k { pos := pos + 1 + xs.length, rest := rest, caps := caps }).isSome = true := by
      simpa [Nat.add_assoc, Nat.add_comm 1] using hk
    have := runStar_greedy caps k rest hrest xs (pos + 1) (fun y hy => hall y (by simp [hy])) hk1
    simp only [List.cons_append, Regex.run, hx, if_true, this]
    simp [Nat.add_assoc, Nat.add_comm 1]

theorem determined_times {p : Char → Bool} (caps : Captures) (rest : Str) :
    ∀ (xs : Str) (pos : Nat), (∀ x ∈ xs, p x = true) →
      Determined (Regex.times xs.length p) { pos := pos, rest := xs ++ rest, caps := caps }
        { pos := pos + xs.length, rest := rest, caps := caps } := by
  intro xs
  induction xs with
  | nil =>
    intro pos _ k _
    simp [Regex.run, runTimes]
  | cons x xs ih =>
    intro pos hall k hk
    have hx : p x = true := hall x (by simp)
    have e : pos + 1 + xs.length = pos + (x :: xs).length := by
      simp only [List.length_cons]
      omega
    rw [← e] at hk ⊢
    have h3 := ih (pos + 1) (fun y hy => hall y (by simp [hy])) k hk
    simp only [Regex.run] at h3
    simp only [List.cons_append, List.length_cons, Regex.run, runTimes, hx, if_true,
      List.append_eq, h3]

theorem determined_times_of_length {p : Char → Bool} {n : Nat} {xs : Str} (hn : xs.length = n)
    (hall : ∀ x ∈ xs, p x = true) (pos : Nat) (rest : Str) (caps : Captures) :
    Determined (Regex.times n p) { pos := pos, rest := xs ++ rest, caps := caps }
      { pos := pos + xs.length, rest := rest, caps := caps } := by
  subst hn
  exact determined_times caps rest xs pos hall

theorem determined_seq {r s : Regex} {st st1 st2 : MState} (hr : Determined r st st1)
    (hs : Determined s st1 st2) : Determined (Regex.seq r s) st st2 := by
  intro k hk
  have h2 := hs k hk
  simp only [Regex.run]
  rw [hr (fun st1 => s.run st1 k) (by simpa [h2] using hk), h2]

theorem determined_group {r : Regex} {st st1 : MState} (i : Nat) (hr : Determined r st st1) :
    Determined (Regex.group i r) st
      { st1 with caps := (i, st.rest.take (st1.pos - st.pos)) :: st1.caps } := by
  intro k hk
  simp only [Regex.run]
  rw [hr _ hk]

theorem determined_opt_taken {r : Regex} {st st1 : MState} (hr : Determined r st st1)
    (hpos : st1.pos ≠ st.pos) : Determined (Regex.opt r) st st1 := by
  intro k hk
  simp only [Regex.run]
  have h1 := hr (fun st2 => if st2.pos = st.pos then none else k st2) (by simpa [hpos] using hk)
  rw [h1]
  simp only [hpos, if_false]
  obtain ⟨out, hout⟩ := Option.isSome_iff_exists.mp hk
  simp [hout]

theorem determined_opt_skipped {p : Char → Bool} {rest : Str}
    (hrest : ∀ c cs, rest = c :: cs → p c = false) (pos : Nat) (caps : Captures) :
    Determined (Regex.opt (Regex.char p)) { pos := pos, rest := rest, caps := caps }
      { pos := pos, rest := rest, caps := caps } := by
  intro k _
  cases rest with
  | nil => simp [Regex.run]
  | cons c cs => simp [Regex.run, hrest c cs rfl]

/-! ## The heading pattern on a formatted heading -/

namespace UpdateUtils

theorem isDigit_not_prefix_letter {c : Char} (h : isDigit c = true) :
    (c == 'v' || c == 'V') = false := by
  rw [isDigit_iff] at h
  have e1 : c ≠ 'v' := by rintro rfl; revert h; decide
  have e2 : c ≠ 'V' := by rintro rfl; revert h; decide
  simp [e1, e2]

theorem determined_versionCore {v rest : Str} (hv : VersionShape v)
    (hrest : ∀ c cs, rest = c :: cs → isDigit c = false) (pos : Nat) (caps : Captures) :
    Determined versionCore { pos := pos, rest := v ++ rest, caps := caps }
      { pos := pos + v.length, rest := rest, caps := caps } := by
  obtain ⟨pre, d1, d2, d3, rfl, hpre, ⟨hd1, hd1'⟩, ⟨hd2, hd2'⟩, ⟨hd3, hd3'⟩⟩ := hv
  have hdot : ∀ (t : Str) (c : Char) (cs : Str), '.' :: t = c :: cs → isDigit c = false := by
    intro t c cs h
    have : c = '.' := by
      have := congrArg List.head? h
      simpa using this.symm
    subst this
    decide
  have s1 : Determined (Regex.opt (Regex.char (fun c => c == 'v' || c == 'V')))
      { pos := pos, rest := pre ++ (d1 ++ '.' :: (d2 ++ '.' :: (d3 ++ rest))), caps := caps }
      { pos := pos + pre.length, rest := d1 ++ '.' :: (d2 ++ '.' :: (d3 ++ rest)),
        caps := caps } := by
    rcases hpre with rfl | rfl | rfl
    · apply determined_opt_skipped
      intro c cs h
      cases d1 with
      | nil => exact absurd rfl hd1
      | cons x xs =>
        have : c = x := by
          have := congrArg List.head? h
          simpa using this.symm
        subst this
        exact isDigit_not_prefix_letter (hd1' c (by simp))
    · exact determined_opt_taken (determined_char (by decide) pos _ caps) (by simp)
    · exact determined_opt_taken (determined_char (by decide) pos _ caps) (by simp)
  have s2 := determined_plus hd1 hd1' (hdot (d2 ++ '.' :: (d3 ++ rest))) (pos + pre.length) caps
  have s3 := determined_lit '.' (pos + pre.length + d1.length) (d2 ++ '.' :: (d3 ++ rest)) caps
  have s4 := determined_plus hd2 hd2' (hdot (d3 ++ rest)) (pos + pre.length + d1.length + 1) caps
  have s5 := determined_lit '.' (pos + pre.length + d1.length + 1 + d2.length) (d3 ++ rest) caps
  have s6 := determined_plus hd3 hd3' hrest (pos + pre.length + d1.length + 1 + d2.length + 1) caps
  have all := determined_seq s1 (determined_seq s2 (determined_seq s3
    (determined_seq s4 (determined_seq s5 s6))))
  have e : pos + pre.length + d1.length + 1 + d2.length + 1 + d3.length =
      pos + (pre ++ d1 ++ '.' :: d2 ++ '.' :: d3).length := by
    simp only [List.length_append, List.length_cons]
    omega
  rw [e] at all
  simpa [versionCore, Regex.cat] using all

theorem determined_dateCore {d : Str} (hd : DateShape d) (pos : Nat) (rest : Str)
    (caps : Captures) :
    Determined dateCore { pos := pos, rest := d ++ rest, caps := caps }
      { pos := pos + d.length, rest := rest, caps := caps } := by
  obtain ⟨y, mo, da, rfl, ⟨hy, hy'⟩, ⟨hmo, hmo'⟩, ⟨hda, hda'⟩⟩ := hd
  have s1 := determined_times_of_length hy hy' pos ('-' :: (mo ++ '-' :: (da ++ rest))) caps
  have s2 := determined_lit '-' (pos + y.length) (mo ++ '-' :: (da ++ rest)) caps
  have s3 := determined_times_of_length hmo hmo' (pos + y.length + 1) ('-' :: (da ++ rest)) caps
  have s4 := determined_lit '-' (pos + y.length + 1 + mo.length) (da ++ rest) caps
  have s5 := determined_times_of_length hda hda' (pos + y.length + 1 + mo.length + 1) rest caps
  have all := determined_seq s1 (determined_seq s2 (determined_seq s3 (determined_seq s4 s5)))
  have e : pos + y.length + 1 + mo.length + 1 + da.length =
      pos + (y ++ '-' :: mo ++ '-' :: da).length := by
    simp only [List.length_append, List.length_cons]
    omega
  rw [e] at all
  simpa [dateCore, Regex.cat] using all

theorem versionShape_head {v : Str} (hv : VersionShape v) :
    ∃ c cs, v = c :: cs ∧ isSpace c = false := by
  obtain ⟨pre, d1, d2, d3, rfl, hpre, ⟨hd1, hd1'⟩, _, _⟩ := hv
  rcases hpre with rfl | rfl | rfl
  · cases d1 with
    | nil => exact absurd rfl hd1
    | cons x xs => exact ⟨x, _, rfl, isDigit_not_isSpace (hd1' x (by simp))⟩
  · exact ⟨'v', _, rfl, by decide⟩
  · exact ⟨'V', _, rfl, by decide⟩

/-- On the heading `## {version} ({date})` of a version text and a date text, the heading
pattern matches and captures the version and the date. -/
theorem exec_versionPattern_heading {v d : Str} (hv : VersionShape v) (hd : DateShape d) :
    exec versionPattern ('#' :: '#' :: ' ' :: (v ++ ' ' :: '(' :: (d ++ [')']))) =
      some [(2, d), (1, v)] := by
  obtain ⟨c0, cs0, hc0, hsp⟩ := versionShape_head hv
  have hrest1 : ∀ c cs, v ++ ' ' :: '(' :: (d ++ [')']) = c :: cs → isSpace c = false := by
    intro c cs h
    rw [hc0] at h
    have : c = c0 := by
      have := congrArg List.head? h
      simpa using this.symm
    rw [this]
    exact hsp
  have hrest2 : ∀ c cs, ' ' :: '(' :: (d ++ [')']) = c :: cs → isDigit c = false := by
    intro c cs h
    have : c = ' ' := by
      have := congrArg List.head? h
      simpa using this.symm
    rw [this]
    decide
  have hrest3 : ∀ c cs, '(' :: (d ++ [')']) = c :: cs → isSpace c = false := by
    intro c cs h
    have : c = '(' := by
      have := congrArg List.head? h
      simpa using this.symm
    rw [this]
    decide
  have hsp1 : ∀ x ∈ [' '], isSpace x = true := by
    intro x hx
    rw [List.mem_singleton.mp hx]
    decide
  have hne1 : [' '] ≠ ([] : Str) := by simp
  have t1 := determined_bol ('#' :: '#' :: ([' '] ++ (v ++ ' ' :: '(' :: (d ++ [')'])))) []
  have t2 := determined_lit '#' 0 ('#' :: ([' '] ++ (v ++ ' ' :: '(' :: (d ++ [')'])))) []
  have t3 := determined_lit '#' (0 + 1) ([' '] ++ (v ++ ' ' :: '(' :: (d ++ [')']))) []
  have t4 := determined_plus hne1 hsp1 hrest1 (0 + 1 + 1) []
  have t5 := determined_group 1
    (determined_versionCore hv hrest2 (0 + 1 + 1 + [' '].length) [])
  have u1 := @determined_plus isSpace [' '] ('(' :: (d ++ [')'])) hne1 hsp1 hrest3
    (0 + 1 + 1 + [' '].length + v.length) [(1, v)]
  have u2 := determined_lit '(' (0 + 1 + 1 + [' '].length + v.length + [' '].length)
    (d ++ [')']) [(1, v)]
  have u3 := determined_group 2 (determined_dateCore hd
    (0 + 1 + 1 + [' '].length + v.length + [' '].length + 1) [')'] [(1, v)])
  have u4 := determined_lit ')'
    (0 + 1 + 1 + [' '].length + v.length + [' '].length + 1 + d.length) [] [(2, d), (1, v)]
  simp only [Nat.add_sub_cancel_left, List.take_left', List.take_left] at t5 u3
  have u := determined_opt_taken (determined_seq u1 (determined_seq u2 (determined_seq u3 u4)))
    (by simp only; omega)
  have all := determined_seq t1 (determined_seq t2 (determined_seq t3
    (determined_seq t4 (determined_seq t5 u))))
  have key := all (fun st => some st.caps) rfl
  simp only [exec, execFrom]
  have e : versionPattern = Regex.seq Regex.bol (Regex.seq (Regex.lit '#') (Regex.seq
      (Regex.lit '#') (Regex.seq (Regex.plus isSpace) (Regex.seq (Regex.group 1 versionCore)
        (Regex.opt (Regex.seq (Regex.plus isSpace) (Regex.seq (Regex.lit '(')
          (Regex.seq (Regex.group 2 dateCore) (Regex.lit ')'))))))))) := rfl
  rw [e]
  simp only [List.singleton_append] at key
  rw [key]

end UpdateUtils

/-! ## Well-formed versions and dates -/

theorem split_singleton {sep : Char} : ∀ {s a : Str}, split sep s = [a] → s = a := by
  intro s
  induction s with
  | nil =>
    intro a h
    simpa [split] using h
  | cons c cs ih =>
    intro a h
    by_cases hc : c = sep
    · simp only [split, hc, if_true, List.cons.injEq] at h
      exact absurd h.2 (split_ne_nil sep cs)
    · cases hs : split sep cs with
      | nil => exact absurd hs (split_ne_nil sep cs)
      | cons p ps =>
        simp only [split, hc, if_false, hs, List.cons.injEq] at h
        obtain ⟨rfl, rfl⟩ := h
        rw [ih hs]

theorem split_cons_cons {sep : Char} :
    ∀ {s a b : Str} {rest : List Str}, split sep s = a :: b :: rest →
      ∃ t, s = a ++ sep :: t ∧ split sep t = b :: rest := by
  intro s
  induction s with
  | nil =>
    intro a b rest h
    simp [split] at h
  | cons c cs ih =>
    intro a b rest h
    by_cases hc : c = sep
    · simp only [split, hc, if_true, List.cons.injEq] at h
      obtain ⟨rfl, h2⟩ := h
      exact ⟨cs, by simp [hc], h2⟩
    · cases hs : split sep cs with
      | nil => exact absurd hs (split_ne_nil sep cs)
      | cons p ps =>
        simp only [split, hc, if_false, hs, List.cons.injEq] at h
        obtain ⟨rfl, rfl⟩ := h
        obtain ⟨t, ht, ht2⟩ := ih hs
        exact ⟨t, by simp [ht], ht2⟩

theorem isThreeComponent_shape {r : Str} (h : isThreeComponent r = true) :
    ∃ d1 d2 d3 : Str, r = d1 ++ '.' :: d2 ++ '.' :: d3 ∧
      (d1 ≠ [] ∧ ∀ x ∈ d1, isDigit x = true) ∧ (d2 ≠ [] ∧ ∀ x ∈ d2, isDigit x = true) ∧
      (d3 ≠ [] ∧ ∀ x ∈ d3, isDigit x = true) := by
  simp only [isThreeComponent, isDottedNumeric, Bool.and_eq_true, List.all_eq_true,
    Bool.not_eq_true', List.isEmpty_eq_false, beq_iff_eq] at h
  obtain ⟨hall, hlen⟩ := h
  match hs : split '.' r, hlen with
  | [a, b, c], _ =>
    obtain ⟨t, rfl, ht⟩ := split_cons_cons hs
    obtain ⟨u, rfl, hu⟩ := split_cons_cons ht
    have := split_singleton hu
    subst this
    rw [hs] at hall
    have ha := hall a (by simp)
    have hb := hall b (by simp)
    have hc := hall u (by simp)
    exact ⟨a, b, u, by simp, ⟨ha.1, ha.2⟩, ⟨hb.1, hb.2⟩, ⟨hc.1, hc.2⟩⟩

theorem isVersionString_shape {v : Str} (h : isVersionString v = true) : VersionShape v := by
  unfold isVersionString at h
  split at h
  · obtain ⟨d1, d2, d3, rfl, h1, h2, h3⟩ := isThreeComponent_shape h
    exact ⟨['v'], d1, d2, d3, by simp, Or.inr (Or.inl rfl), h1, h2, h3⟩
  · obtain ⟨d1, d2, d3, rfl, h1, h2, h3⟩ := isThreeComponent_shape h
    exact ⟨[], d1, d2, d3, by simp, Or.inl rfl, h1, h2, h3⟩

theorem isDateString_shape {d : Str} (h : isDateString d = true) : DateShape d := by
  unfold isDateString at h
  split at h
  · rename_i y1 y2 y3 y4 s1 m1 m2 s2 d1 d2
    simp only [Bool.and_eq_true, beq_iff_eq] at h
    obtain ⟨⟨⟨⟨⟨⟨⟨⟨⟨h1, h2⟩, h3⟩, h4⟩, rfl⟩, h5⟩, h6⟩, rfl⟩, h7⟩, h8⟩ := h
    refine ⟨[y1, y2, y3, y4], [m1, m2], [d1, d2], by simp, ⟨rfl, ?_⟩, ⟨rfl, ?_⟩, ⟨rfl, ?_⟩⟩
    · simp [h1, h2, h3, h4]
    · simp [h5, h6]
    · simp [h7, h8]
  · exact absurd h (by simp)

theorem isDigit_ne_newline {c : Char} (h : isDigit c = true) : c ≠ '\n' := by
  rintro rfl
  revert h
  decide

theorem versionShape_newlineFree {v : Str} (h : VersionShape v) : '\n' ∉ v := by
  obtain ⟨pre, d1, d2, d3, rfl, hpre, ⟨_, h1⟩, ⟨_, h2⟩, ⟨_, h3⟩⟩ := h
  intro hm
  simp only [List.append_assoc, List.cons_append, List.mem_append, List.mem_cons] at hm
  rcases hm with hm | hm | hm | hm | hm | hm
  · rcases hpre with rfl | rfl | rfl <;> simp at hm
  · exact isDigit_ne_newline (h1 _ hm) rfl
  · exact absurd hm (by decide)
  · exact isDigit_ne_newline (h2 _ hm) rfl
  · exact absurd hm (by decide)
  · exact isDigit_ne_newline (h3 _ hm) rfl

theorem dateShape_newlineFree {d : Str} (h : DateShape d) : '\n' ∉ d := by
  obtain ⟨y, mo, da, rfl, ⟨_, h1⟩, ⟨_, h2⟩, ⟨_, h3⟩⟩ := h
  intro hm
  simp only [List.append_assoc, List.cons_append, List.mem_append, List.mem_cons] at hm
  rcases hm with hm | hm | hm | hm | hm
  · exact isDigit_ne_newline (h1 _ hm) rfl
  · exact absurd hm (by decide)
  · exact isDigit_ne_newline (h2 _ hm) rfl
  · exact absurd hm (by decide)
  · exact isDigit_ne_newline (h3 _ hm) rfl

theorem newlineFree_iff (s : Str) : newlineFree s = true ↔ '\n' ∉ s := by
  simp [newlineFree]

theorem wellFormedHistory_iff (history : List ReleaseEntry) :
    wellFormedHistory history = true ↔
      ∀ e ∈ history, isVersionString e.version = true ∧ isDateString e.date = true ∧
        ∀ c ∈ e.changes, '\n' ∉ c.text := by
  simp [wellFormedHistory, List.all_eq_true, newlineFree, and_assoc]

theorem newlineFreeHistory_iff (history : List ReleaseEntry) :
    newlineFreeHistory history = true ↔
      ∀ e ∈ history, '\n' ∉ e.version ∧ '\n' ∉ e.date ∧ ∀ c ∈ e.changes, '\n' ∉ c.text := by
  simp [newlineFreeHistory, List.all_eq_true, newlineFree, and_assoc]

theorem newlineFreeHistory_of_wellFormed {history : List ReleaseEntry}
    (h : wellFormedHistory history = true) : newlineFreeHistory history = true := by
  rw [newlineFreeHistory_iff]
  rw [wellFormedHistory_iff] at h
  intro e he
  obtain ⟨hv, hd, ht⟩ := h e he
  exact ⟨versionShape_newlineFree (isVersionString_shape hv),
    dateShape_newlineFree (isDateString_shape hd), ht⟩

/-! ## The lines of a formatted document, read by the parser -/

namespace UpdateUtils

theorem exec_versionPattern_of_head {c : Char} {cs : Str} (h : c ≠ '#') :
    exec versionPattern (c :: cs) = none := by
  cases hm : exec versionPattern (c :: cs) with
  | none => rfl
  | some m =>
    obtain ⟨ws, v, tail, hl, _⟩ := versionPattern_sound hm
    simp only [List.cons.injEq] at hl
    exact absurd hl.1 h

theorem exec_changePattern_of_head {c : Char} {cs : Str} (h : c ≠ '-') :
    exec changePattern (c :: cs) = none := by
  cases hm : exec changePattern (c :: cs) with
  | none => rfl
  | some m =>
    obtain ⟨ws, label, ws2, text, hl, _⟩ := changePattern_sound hm
    simp only [List.cons.injEq] at hl
    exact absurd hl.1 h

theorem headingOf_bulletLine (rt : Runtime) (c : ChangeNote) :
    headingOf rt (bulletLine c) = none := by
  have e : trim (bulletLine c) = '-' :: trimEnd (' ' :: c.text) :=
    trim_cons (by decide) _
  simp [headingOf, e, exec_versionPattern_of_head (show '-' ≠ '#' by decide)]

theorem trim_headingLine (e : ReleaseEntry) : trim (headingLine e) = headingLine e := by
  have h : headingLine e = '#' :: (('#' :: ' ' :: (e.version ++ ' ' :: '(' :: e.date)) ++ [')']) := by
    simp [headingLine]
  rw [h]
  exact trim_eq_self (by decide) (by decide) _

theorem headingOf_headingLine (rt : Runtime) (e : ReleaseEntry) (hv : VersionShape e.version)
    (hd : DateShape e.date) : headingOf rt (headingLine e) = some (e.version, e.date) := by
  have h : headingLine e = '#' :: '#' :: ' ' :: (e.version ++ ' ' :: '(' :: (e.date ++ [')'])) := by
    simp [headingLine]
  unfold headingOf
  rw [trim_headingLine, h, exec_versionPattern_heading hv hd]
  simp [capture, List.lookup]

theorem filterMap_headingOf_bucketLines (rt : Runtime) (heading : Str)
    (changes : List ChangeNote) (hh : headingOf rt heading = none) :
    (bucketLines heading changes).filterMap (headingOf rt) = [] := by
  have hnil : headingOf rt [] = none := headingOf_of_trim_nil rfl
  unfold bucketLines
  split_ifs
  · simp only [List.filterMap_cons, hh, hnil, List.filterMap_append, List.filterMap_nil,
      List.append_nil]
    rw [List.filterMap_eq_nil_iff]
    intro l hl
    obtain ⟨c, _, rfl⟩ := List.mem_map.mp hl
    exact headingOf_bulletLine rt c
  · rfl

theorem headingOf_bucket_headings (rt : Runtime) :
    headingOf rt "### ✨ 新功能".toList = none ∧ headingOf rt "### 🚀 优化改进".toList = none ∧
      headingOf rt "### 🐛 问题修复".toList = none ∧ headingOf rt "### 其他变更".toList = none ∧
      headingOf rt "# 更新日志".toList = none := by
  have h1 : exec versionPattern (trim "### ✨ 新功能".toList) = none := by decide
  have h2 : exec versionPattern (trim "### 🚀 优化改进".toList) = none := by decide
  have h3 : exec versionPattern (trim "### 🐛 问题修复".toList) = none := by decide
  have h4 : exec versionPattern (trim "### 其他变更".toList) = none := by decide
  have h5 : exec versionPattern (trim "# 更新日志".toList) = none := by decide
  have g : ∀ l : Str, exec versionPattern (trim l) = none → headingOf rt l = none := by
    intro l hl
    simp [headingOf, hl]
  exact ⟨g _ h1, g _ h2, g _ h3, g _ h4, g _ h5⟩

theorem filterMap_headingOf_releaseLines (rt : Runtime) (e : ReleaseEntry)
    (hv : VersionShape e.version) (hd : DateShape e.date) :
    (releaseLines e).filterMap (headingOf rt) = [(e.version, e.date)] := by
  obtain ⟨b1, b2, b3, b4, _⟩ := headingOf_bucket_headings rt
  have hnil : headingOf rt [] = none := headingOf_of_trim_nil rfl
  unfold releaseLines
  simp only [List.filterMap_cons, headingOf_headingLine rt e hv hd, hnil, List.filterMap_append,
    filterMap_headingOf_bucketLines rt _ _ b1, filterMap_headingOf_bucketLines rt _ _ b2,
    filterMap_headingOf_bucketLines rt _ _ b3, filterMap_headingOf_bucketLines rt _ _ b4,
    List.append_nil]

theorem filterMap_headingOf_sections (rt : Runtime) (history : List ReleaseEntry)
    (h : ∀ e ∈ history, VersionShape e.version ∧ DateShape e.date) :
    (history.map releaseLines).flatten.filterMap (headingOf rt) =
      history.map (fun e => (e.version, e.date)) := by
  induction history with
  | nil => rfl
  | cons e es ih =>
    have he := h e (by simp)
    simp only [List.map_cons, List.flatten_cons, List.filterMap_append,
      filterMap_headingOf_releaseLines rt e he.1 he.2, ih (fun x hx => h x (by simp [hx]))]
    rfl

theorem filterMap_headingOf_documentLines (rt : Runtime) (history : List ReleaseEntry)
    (h : ∀ e ∈ history, VersionShape e.version ∧ DateShape e.date) :
    (documentLines history ++ [[]]).filterMap (headingOf rt) =
      history.map (fun e => (e.version, e.date)) := by
  obtain ⟨_, _, _, _, b5⟩ := headingOf_bucket_headings rt
  have hnil : headingOf rt [] = none := headingOf_of_trim_nil rfl
  unfold documentLines
  simp only [List.cons_append, List.filterMap_cons, b5, hnil, List.filterMap_append,
    filterMap_headingOf_sections rt history h, List.filterMap_nil, List.append_nil]

theorem bucketLines_newlineFree {heading : Str} {changes : List ChangeNote}
    (hh : '\n' ∉ heading) (hc : ∀ c ∈ changes, '\n' ∉ c.text) :
    ∀ l ∈ bucketLines heading changes, '\n' ∉ l := by
  intro l hl
  unfold bucketLines at hl
  split_ifs at hl
  · simp only [List.mem_cons, List.mem_append, List.mem_map, List.mem_singleton] at hl
    rcases hl with rfl | rfl | ⟨c, hc1, rfl⟩ | hl
    · exact hh
    · simp
    · have := hc c hc1
      simp only [bulletLine, List.mem_append]
      rintro (hm | hm)
      · exact absurd hm (by decide)
      · exact this hm
    · have : l = [] := by simpa using hl
      subst this
      simp
  · simp at hl

theorem releaseLines_newlineFree {e : ReleaseEntry} (hv : '\n' ∉ e.version) (hd : '\n' ∉ e.date)
    (hc : ∀ c ∈ e.changes, '\n' ∉ c.text) : ∀ l ∈ releaseLines e, '\n' ∉ l := by
  intro l hl
  have sub : ∀ (p : ChangeNote → Bool), ∀ c ∈ e.changes.filter p, '\n' ∉ c.text :=
    fun p c hc1 => hc c (List.mem_of_mem_filter hc1)
  unfold releaseLines at hl
  simp only [List.mem_cons, List.mem_append] at hl
  rcases hl with rfl | rfl | hl | hl | hl | hl
  · simp only [headingLine, List.mem_append, or_assoc]
    rintro (hm | hm | hm | hm | hm)
    · exact absurd hm (by decide)
    · exact hv hm
    · exact absurd hm (by decide)
    · exact hd hm
    · exact absurd hm (by decide)
  · simp
  · exact bucketLines_newlineFree (by decide) (sub _) l hl
  · exact bucketLines_newlineFree (by decide) (sub _) l hl
  · exact bucketLines_newlineFree (by decide) (sub _) l hl
  · exact bucketLines_newlineFree (by decide) (sub _) l hl

theorem documentLines_newlineFree {history : List ReleaseEntry}
    (h : newlineFreeHistory history = true) : ∀ l ∈ documentLines history, '\n' ∉ l := by
  rw [newlineFreeHistory_iff] at h
  intro l hl
  unfold documentLines at hl
  simp only [List.mem_cons, List.mem_flatten, List.mem_map] at hl
  rcases hl with rfl | rfl | ⟨ls, ⟨e, he, rfl⟩, hl⟩
  · decide
  · simp
  · obtain ⟨hv, hd, hc⟩ := h e he
    exact releaseLines_newlineFree hv hd hc l hl

/-- The parser applied to a formatted history reads the sections of the document lines. -/
theorem parse_format_eq_sections (rt : Runtime) {history : List ReleaseEntry}
    (h : newlineFreeHistory history = true) :
    parseChangelogFromMarkdown rt (Version.formatChangelogToMarkdown history 0) =
      sections rt (documentLines history ++ [[]]) := by
  rw [parse_eq_sections, Version.formatChangelogToMarkdown_eq_unlines,
    Version.split_unlines _ (documentLines_newlineFree h)]

end UpdateUtils

/-! ## The round trip -/

namespace UpdateUtils

theorem sections_changes_newlineFree (rt : Runtime) :
    ∀ (ls : List Str), ∀ e ∈ sections rt ls, ∀ c ∈ e.changes, '\n' ∉ c.text := by
  intro ls
  induction ls with
  | nil =>
    intro e he
    simp [sections] at he
  | cons l ls ih =>
    intro e he c hc
    cases hh : headingOf rt l with
    | none =>
      simp only [sections, hh] at he
      exact ih e he c hc
    | some vd =>
      simp only [sections, hh, List.mem_cons] at he
      rcases he with rfl | he
      · simp only [List.mem_filterMap] at hc
        obtain ⟨x, _, hx⟩ := hc
        exact changeOf_text_newlineFree hx
      · exact ih e he c hc

theorem sections_changes_nil (rt : Runtime) :
    ∀ (ls : List Str), (∀ l ∈ ls, changeOf rt l = none) → ∀ e ∈ sections rt ls, e.changes = [] := by
  intro ls
  induction ls with
  | nil =>
    intro _ e he
    simp [sections] at he
  | cons l ls ih =>
    intro hall e he
    have hls : ∀ x ∈ ls, changeOf rt x = none := fun x hx => hall x (by simp [hx])
    cases hh : headingOf rt l with
    | none =>
      simp only [sections, hh] at he
      exact ih hls e he
    | some vd =>
      simp only [sections, hh, List.mem_cons] at he
      rcases he with rfl | he
      · simp only [List.filterMap_eq_nil_iff]
        intro x hx
        exact hls x ((List.takeWhile_sublist _).subset hx)
      · exact ih hls e he

theorem dropWhile_append_of_all {p : Char → Bool} {c : Char} (hc : p c = false) (r : Str) :
    ∀ ws : Str, (∀ x ∈ ws, p x = true) → (ws ++ c :: r).dropWhile p = c :: r := by
  intro ws
  induction ws with
  | nil =>
    intro _
    simp [List.dropWhile, hc]
  | cons w ws ih =>
    intro h
    simp [List.dropWhile, h w (by simp), ih (fun x hx => h x (by simp [hx]))]

theorem changeOf_bulletLine (rt : Runtime) (c : ChangeNote)
    (h : startsWithBracketedLabel c.text = false) : changeOf rt (bulletLine c) = none := by
  have e : trim (bulletLine c) = '-' :: trimEnd (' ' :: c.text) :=
    trim_cons (by decide) _
  cases hm : exec changePattern (trim (bulletLine c)) with
  | none => simp [changeOf, hm]
  | some m =>
    exfalso
    rw [e] at hm
    obtain ⟨ws, label, ws2, text, hl, ⟨hws, hws'⟩, _, _, _⟩ := changePattern_sound hm
    simp only [List.cons.injEq, true_and] at hl
    obtain ⟨t, ht⟩ := trimEnd_prefix (' ' :: c.text)
    rw [hl] at ht
    cases ws with
    | nil => exact hws rfl
    | cons w ws1 =>
      simp only [List.cons_append, List.append_assoc, List.cons.injEq] at ht
      obtain ⟨_, ht2⟩ := ht
      have hd := dropWhile_append_of_all (p := isSpace) (c := '[') (by decide)
        (label ++ ']' :: (ws2 ++ (text ++ t))) ws1 (fun x hx => hws' x (by simp [hx]))
      unfold startsWithBracketedLabel at h
      rw [ht2, hd] at h
      simp at h

theorem changeOf_headingLine (rt : Runtime) (e : ReleaseEntry) :
    changeOf rt (headingLine e) = none := by
  have h : headingLine e = '#' :: '#' :: ' ' :: (e.version ++ ' ' :: '(' :: (e.date ++ [')'])) := by
    simp [headingLine]
  unfold changeOf
  rw [trim_headingLine, h, exec_changePattern_of_head (by decide)]
  rfl

theorem changeOf_bucket_headings (rt : Runtime) :
    changeOf rt "### ✨ 新功能".toList = none ∧ changeOf rt "### 🚀 优化改进".toList = none ∧
      changeOf rt "### 🐛 问题修复".toList = none ∧ changeOf rt "### 其他变更".toList = none ∧
      changeOf rt "# 更新日志".toList = none := by
  have h1 : exec changePattern (trim "### ✨ 新功能".toList) = none := by decide
  have h2 : exec changePattern (trim "### 🚀 优化改进".toList) = none := by decide
  have h3 : exec changePattern (trim "### 🐛 问题修复".toList) = none := by decide
  have h4 : exec changePattern (trim "### 其他变更".toList) = none := by decide
  have h5 : exec changePattern (trim "# 更新日志".toList) = none := by decide
  have g : ∀ l : Str, exec changePattern (trim l) = none → changeOf rt l = none := by
    intro l hl
    simp [changeOf, hl]
  exact ⟨g _ h1, g _ h2, g _ h3, g _ h4, g _ h5⟩

theorem changeOf_bucketLines (rt : Runtime) {heading : Str} {changes : List ChangeNote}
    (hh : changeOf rt heading = none)
    (hc : ∀ c ∈ changes, startsWithBracketedLabel c.text = false) :
    ∀ l ∈ bucketLines heading changes, changeOf rt l = none := by
  intro l hl
  unfold bucketLines at hl
  split_ifs at hl
  · simp only [List.mem_cons, List.mem_append, List.mem_map] at hl
    rcases hl with rfl | rfl | ⟨c, hc1, rfl⟩ | hl
    · exact hh
    · exact changeOf_of_trim_nil rfl
    · exact changeOf_bulletLine rt c (hc c hc1)
    · have : l = [] := by simpa using hl
      subst this
      exact changeOf_of_trim_nil rfl
  · simp at hl

theorem changeOf_documentLines (rt : Runtime) {history : List ReleaseEntry}
    (h : ∀ e ∈ history, ∀ c ∈ e.changes, startsWithBracketedLabel c.text = false) :
    ∀ l ∈ documentLines history ++ [[]], changeOf rt l = none := by
  obtain ⟨b1, b2, b3, b4, b5⟩ := changeOf_bucket_headings rt
  intro l hl
  unfold documentLines at hl
  simp only [List.cons_append, List.mem_cons, List.mem_append, List.mem_flatten,
    List.mem_map] at hl
  rcases hl with rfl | rfl | ⟨ls, ⟨e, he, rfl⟩, hl⟩ | hl
  · exact b5
  · exact changeOf_of_trim_nil rfl
  · have sub : ∀ (p : ChangeNote → Bool), ∀ c ∈ e.changes.filter p,
        startsWithBracketedLabel c.text = false :=
      fun p c hc1 => h e he c (List.mem_of_mem_filter hc1)
    unfold releaseLines at hl
    simp only [List.mem_cons, List.mem_append] at hl
    rcases hl with rfl | rfl | hl | hl | hl | hl
    · exact changeOf_headingLine rt e
    · exact changeOf_of_trim_nil rfl
    · exact changeOf_bucketLines rt b1 (sub _) l hl
    · exact changeOf_bucketLines rt b2 (sub _) l hl
    · exact changeOf_bucketLines rt b3 (sub _) l hl
    · exact changeOf_bucketLines rt b4 (sub _) l hl
  · have : l = [] := by simpa using hl
    subst this
    exact changeOf_of_trim_nil rfl

/-- Parsing a formatted history whose fields have no newline and whose change texts do not
start with a bracketed label yields entries without changes. -/
theorem parse_format_changes_nil (rt : Runtime) (history : List ReleaseEntry)
    (hnl : newlineFreeHistory history = true)
    (hlab : ∀ e ∈ history, ∀ c ∈ e.changes, startsWithBracketedLabel c.text = false) :
    ∀ e ∈ parseChangelogFromMarkdown rt (Version.formatChangelogToMarkdown history 0),
      e.changes = [] := by
  rw [parse_format_eq_sections rt hnl]
  exact sections_changes_nil rt _ (changeOf_documentLines rt hlab)

theorem parse_format_pairs (rt : Runtime) {history : List ReleaseEntry}
    (h : wellFormedHistory history = true) :
    (parseChangelogFromMarkdown rt (Version.formatChangelogToMarkdown history 0)).map
        (fun e => (e.version, e.date)) = history.map (fun e => (e.version, e.date)) := by
  rw [parse_format_eq_sections rt (newlineFreeHistory_of_wellFormed h), sections_map_heading,
    filterMap_headingOf_documentLines]
  intro e he
  obtain ⟨hv, hd, _⟩ := (wellFormedHistory_iff history).mp h e he
  exact ⟨isVersionString_shape hv, isDateString_shape hd⟩

theorem parse_format_wellFormed (rt : Runtime) {history : List ReleaseEntry}
    (h : wellFormedHistory history = true) :
    wellFormedHistory
      (parseChangelogFromMarkdown rt (Version.formatChangelogToMarkdown history 0)) = true := by
  rw [wellFormedHistory_iff]
  intro e he
  have hp := parse_format_pairs rt h
  have hmem : (e.version, e.date) ∈ history.map (fun e => (e.version, e.date)) := by
    rw [← hp]
    exact List.mem_map.mpr ⟨e, he, rfl⟩
  obtain ⟨e0, he0, heq⟩ := List.mem_map.mp hmem
  simp only [Prod.mk.injEq] at heq
  obtain ⟨hv, hd, _⟩ := (wellFormedHistory_iff history).mp h e0 he0
  refine ⟨heq.1 ▸ hv, heq.2 ▸ hd, ?_⟩
  rw [parse_format_eq_sections rt (newlineFreeHistory_of_wellFormed h)] at he
  exact sections_changes_newlineFree rt _ e he

end UpdateUtils

/-- C7. For every history whose entries have a version matching `^v?\d+\.\d+\.\d+$`, a date of
the form `YYYY-MM-DD` and change texts without a newline, parsing the formatted history (limit
`0`) gives exactly the sequence of `(version, date)` pairs of the history; and formatting that
result and parsing again gives the same pairs once more, so the document
`format(parse(format(h)))` shows the pairs of `h`. -/
theorem roundtrip_preserves_version_date (rt : Runtime) (history : List ReleaseEntry)
    (h : wellFormedHistory history = true) :
    (UpdateUtils.parseChangelogFromMarkdown rt
        (Version.formatChangelogToMarkdown history 0)).map (fun e => (e.version, e.date)) =
      history.map (fun e => (e.version, e.date)) ∧
    (split '\n' (Version.formatChangelogToMarkdown
        (UpdateUtils.parseChangelogFromMarkdown rt
          (Version.formatChangelogToMarkdown history 0)) 0)).filterMap (headingOf rt) =
      history.map (fun e => (e.version, e.date)) := by
  refine ⟨UpdateUtils.parse_format_pairs rt h, ?_⟩
  have h2 := UpdateUtils.parse_format_pairs rt (UpdateUtils.parse_format_wellFormed rt h)
  rw [UpdateUtils.parse_eq_sections, UpdateUtils.sections_map_heading] at h2
  rw [h2]
  exact UpdateUtils.parse_format_pairs rt h

/-- Witness for C7: a two-entry history, one of its change texts written with a label. -/
theorem roundtrip_preserves_version_date_witness :
    wellFormedHistory
        [{ version := "v1.0.1".toList, date := "2025-04-12".toList,
           changes := [{ type := "feature".toList, text := "X".toList }] },
         { version := "0.9.10".toList, date := "2024-12-31".toList,
           changes := [{ type := "fix".toList, text := "[fix] crash".toList }] }] = true ∧
      ((UpdateUtils.parseChangelogFromMarkdown sampleRuntime (Version.formatChangelogToMarkdown
          [{ version := "v1.0.1".toList, date := "2025-04-12".toList,
             changes := [{ type := "feature".toList, text := "X".toList }] },
           { version := "0.9.10".toList, date := "2024-12-31".toList,
             changes := [{ type := "fix".toList, text := "[fix] crash".toList }] }] 0)).map
          (fun e => (e.version, e.date)) =
        [("v1.0.1".toList, "2025-04-12".toList), ("0.9.10".toList, "2024-12-31".toList)]) :=
  ⟨by decide,
    (roundtrip_preserves_version_date sampleRuntime
      [{ version := "v1.0.1".toList, date := "2025-04-12".toList,
         changes := [{ type := "feature".toList, text := "X".toList }] },
       { version := "0.9.10".toList, date := "2024-12-31".toList,
         changes := [{ type := "fix".toList, text := "[fix] crash".toList }] }] (by decide)).1⟩

/-- C8, as stated, fails: the change text `x\n- [fix] y` does not start with a bracketed
label, yet the formatted history has the line `- [fix] y`, and the parsed entry has a
change. A newline in a version or in a date has the same effect, with change texts that
have neither a label nor a newline. -/
theorem roundtrip_embedded_change_line :
    (∀ e ∈ embeddedLineHistory, ∀ c ∈ e.changes, startsWithBracketedLabel c.text = false) ∧
      ¬ (∀ e ∈ UpdateUtils.parseChangelogFromMarkdown sampleRuntime
            (Version.formatChangelogToMarkdown embeddedLineHistory 0), e.changes = []) ∧
      UpdateUtils.parseChangelogFromMarkdown sampleRuntime
          (Version.formatChangelogToMarkdown embeddedLineHistory 0) =
        [{ version := "v1.0.0".toList, date := "2025-01-01".toList,
           changes := [{ type := "fix".toList, text := "y".toList }] }] ∧
      (∀ e ∈ embeddedLineVersionHistory, ∀ c ∈ e.changes,
        startsWithBracketedLabel c.text = false ∧ newlineFree c.text = true) ∧
      ¬ (∀ e ∈ UpdateUtils.parseChangelogFromMarkdown sampleRuntime
            (Version.formatChangelogToMarkdown embeddedLineVersionHistory 0), e.changes = []) ∧
      (∀ e ∈ embeddedLineDateHistory, ∀ c ∈ e.changes,
        startsWithBracketedLabel c.text = false ∧ newlineFree c.text = true) ∧
      ¬ (∀ e ∈ UpdateUtils.parseChangelogFromMarkdown sampleRuntime
            (Version.formatChangelogToMarkdown embeddedLineDateHistory 0), e.changes = []) := by
  decide!

/-- C8, amended. The round trip does not preserve change notes: for every history whose
versions, dates and change texts have no newline and whose change texts do not start (after
optional white space) with a bracketed label, every entry of the parsed formatted history has
an empty list of changes; so the well-formed history of the spec's formatting scenario, which
has one change, is not recovered. -/
theorem roundtrip_drops_unlabelled_changes (rt : Runtime) (history : List ReleaseEntry)
    (hnl : newlineFreeHistory history = true)
    (hlab : ∀ e ∈ history, ∀ c ∈ e.changes, startsWithBracketedLabel c.text = false) :
    (∀ e ∈ UpdateUtils.parseChangelogFromMarkdown rt
          (Version.formatChangelogToMarkdown history 0), e.changes = []) ∧
      (wellFormedHistory scenarioHistory = true ∧ (∃ e ∈ scenarioHistory, e.changes ≠ []) ∧
        UpdateUtils.parseChangelogFromMarkdown rt
          (Version.formatChangelogToMarkdown scenarioHistory 0) ≠ scenarioHistory) := by
  refine ⟨UpdateUtils.parse_format_changes_nil rt history hnl hlab, by decide, by decide, ?_⟩
  intro heq
  have hnil := UpdateUtils.parse_format_changes_nil rt scenarioHistory (by decide) (by decide)
  rw [heq] at hnil
  exact absurd (hnil _ (List.mem_singleton.mpr rfl)) (by decide)

/-- Witness for the amended C8: the history of the formatting scenario. -/
theorem roundtrip_drops_unlabelled_changes_witness :
    newlineFreeHistory scenarioHistory = true ∧
      (∀ e ∈ scenarioHistory, ∀ c ∈ e.changes, startsWithBracketedLabel c.text = false) ∧
      (∀ e ∈ UpdateUtils.parseChangelogFromMarkdown sampleRuntime
          (Version.formatChangelogToMarkdown scenarioHistory 0), e.changes = []) :=
  ⟨by decide, by decide,
    (roundtrip_drops_unlabelled_changes sampleRuntime scenarioHistory (by decide) (by decide)).1⟩

/-! ## The segment-wise comparator on arbitrary strings -/

namespace VersionRelease

theorem compareLoop_range (pa pb : List JSNumber) (n i : Nat) :
    compareLoop pa pb n i = -1 ∨ compareLoop pa pb n i = 0 ∨ compareLoop pa pb n i = 1 := by
  induction n generalizing i with
  | zero => exact Or.inr (Or.inl rfl)
  | succ n ih =>
    rw [compareLoop_succ]
    split_ifs
    · exact Or.inr (Or.inr rfl)
    · exact Or.inl rfl
    · exact ih (i + 1)

theorem JSNumber.lt_nan_left (x : JSNumber) : JSNumber.lt JSNumber.nan x = false := by
  cases x <;> rfl

theorem JSNumber.lt_nan_right (x : JSNumber) : JSNumber.lt x JSNumber.nan = false := by
  cases x <;> rfl

theorem compareLoop_of_unordered (pa pb : List JSNumber)
    (h : ∀ i, pa.getD i JSNumber.zero = pb.getD i JSNumber.zero ∨
      pa.getD i JSNumber.zero = JSNumber.nan ∨ pb.getD i JSNumber.zero = JSNumber.nan)
    (n i : Nat) : compareLoop pa pb n i = 0 := by
  induction n generalizing i with
  | zero => rfl
  | succ n ih =>
    rw [compareLoop_succ, ih]
    have hboth : JSNumber.lt (pb.getD i JSNumber.zero) (pa.getD i JSNumber.zero) = false ∧
        JSNumber.lt (pa.getD i JSNumber.zero) (pb.getD i JSNumber.zero) = false := by
      rcases h i with e | e | e
      · rw [e]
        exact ⟨JSNumber.lt_irrefl _, JSNumber.lt_irrefl _⟩
      · rw [e]
        exact ⟨JSNumber.lt_nan_right _, JSNumber.lt_nan_left _⟩
      · rw [e]
        exact ⟨JSNumber.lt_nan_left _, JSNumber.lt_nan_right _⟩
    simp only [JSNumber.gt, hboth.1, hboth.2]
    rfl

end VersionRelease

/-- C19. For every pair of strings, well-formed or not, the segment-wise `compareVersions`
returns `-1`, `0` or `1` (the embedding is a total function: no path of the code throws); it
returns `0` as soon as an argument is empty; and `NaN` is neither greater nor less than its
counterpart: when at every position the two components are equal or one of them is `NaN`,
the result is `0`. -/
theorem compareVersions_degenerate_inputs (a b : Str) :
    (VersionRelease.compareVersions a b = -1 ∨ VersionRelease.compareVersions a b = 0 ∨
        VersionRelease.compareVersions a b = 1) ∧
      VersionRelease.compareVersions [] b = 0 ∧ VersionRelease.compareVersions a [] = 0 ∧
      ((∀ i, componentAt a i = componentAt b i ∨ componentAt a i = JSNumber.nan ∨
          componentAt b i = JSNumber.nan) →
        VersionRelease.compareVersions a b = 0) := by
  refine ⟨?_, by simp [VersionRelease.compareVersions],
    by simp [VersionRelease.compareVersions], ?_⟩
  · unfold VersionRelease.compareVersions
    split_ifs
    · exact Or.inr (Or.inl rfl)
    · exact VersionRelease.compareLoop_range _ _ _ _
  · intro h
    unfold VersionRelease.compareVersions
    split_ifs
    · rfl
    · exact VersionRelease.compareLoop_of_unordered _ _ h _ _

/-- Witness for C19: `1.x.3` against `1.y.3`, which differ in a non-numeric component only. -/
theorem compareVersions_degenerate_inputs_witness :
    (∀ i, componentAt "1.x.3".toList i = componentAt "1.y.3".toList i ∨
        componentAt "1.x.3".toList i = JSNumber.nan ∨
        componentAt "1.y.3".toList i = JSNumber.nan) ∧
      VersionRelease.compareVersions "1.x.3".toList "1.y.3".toList = 0 :=
  have h : ∀ i, componentAt "1.x.3".toList i = componentAt "1.y.3".toList i ∨
      componentAt "1.x.3".toList i = JSNumber.nan ∨
      componentAt "1.y.3".toList i = JSNumber.nan := by
    intro i
    have ea : (split '.' "1.x.3".toList).map Number =
        [JSNumber.ofNat 1, JSNumber.nan, JSNumber.ofNat 3] := by decide!
    have eb : (split '.' "1.y.3".toList).map Number =
        [JSNumber.ofNat 1, JSNumber.nan, JSNumber.ofNat 3] := by decide!
    left
    unfold componentAt
    rw [ea, eb]
  ⟨h, (compareVersions_degenerate_inputs "1.x.3".toList "1.y.3".toList).2.2.2 h⟩

/-! ## The segment-wise comparator on prefixed versions -/

namespace VersionRelease

theorem Number_of_prefixed_digits {c : Char} {ds : Str} (hc : c = 'v' ∨ c = 'V') (hne : ds ≠ [])
    (h : ds.all isDigit = true) : Number (c :: ds) = JSNumber.nan := by
  have hsp : isSpace c = false := by
    rcases hc with rfl | rfl <;> decide
  have htrim : trim (c :: ds) = c :: ds := by
    rcases List.eq_nil_or_concat ds with rfl | ⟨l, d, rfl⟩
    · exact absurd rfl hne
    · rw [List.concat_eq_append] at h ⊢
      have hd : isSpace d = false :=
        isDigit_not_isSpace (by simp [List.all_eq_true] at h; exact h.2)
      exact trim_eq_self hsp hd l
  have hnd : parseNonDecimal (c :: ds) = none := by
    unfold parseNonDecimal
    split
    · rename_i heq
      simp only [List.cons.injEq] at heq
      rcases hc with rfl | rfl
      · exact absurd heq.1 (by decide)
      · exact absurd heq.1 (by decide)
    · rfl
  have hstrip : stripSign (c :: ds) = c :: ds := by
    rcases hc with rfl | rfl <;> rfl
  have hinf : c :: ds ≠ "Infinity".toList := by
    intro heq
    have e : c = 'I' := by
      have := congrArg List.head? heq
      simpa using this
    rcases hc with rfl | rfl
    · exact absurd e (by decide)
    · exact absurd e (by decide)
  have hdec : parseUnsignedDecimal (c :: ds) = none := by
    rcases hc with rfl | rfl
    · simp [parseUnsignedDecimal, List.takeWhile, List.dropWhile, isDigit]
    · simp [parseUnsignedDecimal, List.takeWhile, List.dropWhile, isDigit]
  unfold Number
  simp only [htrim, hnd, hstrip, if_neg hinf, hdec]
  simp

theorem split_cons_of_ne {sep c : Char} (hc : c ≠ sep) {s seg : Str} {rest : List Str}
    (hs : split sep s = seg :: rest) : split sep (c :: s) = (c :: seg) :: rest := by
  simp [split, hc, hs]

theorem parts_of_prefixed {a : Str} {c : Char} (hc : c = 'v' ∨ c = 'V')
    (ha : isDottedNumeric a = true) :
    (split '.' (c :: a)).map Number = JSNumber.nan :: (numericComponents a).tail := by
  have hm := map_Number_of_isDottedNumeric ha
  have hcdot : c ≠ '.' := by
    rcases hc with rfl | rfl <;> decide
  cases hs : split '.' a with
  | nil => exact absurd hs (split_ne_nil _ _)
  | cons seg rest =>
    simp only [isDottedNumeric, List.all_eq_true, Bool.and_eq_true, Bool.not_eq_true',
      List.isEmpty_eq_false] at ha
    have hseg := ha seg (by simp [hs])
    rw [split_cons_of_ne hcdot hs, List.map_cons,
      Number_of_prefixed_digits hc hseg.1 (List.all_eq_true.mpr hseg.2), ← hm, hs]
    rfl

theorem parts_of_unprefixed {a : Str} (ha : isDottedNumeric a = true) :
    ∃ x, x ≠ JSNumber.nan ∧
      (split '.' a).map Number = x :: (numericComponents a).tail := by
  rw [map_Number_of_isDottedNumeric ha]
  cases hn : numericComponents a with
  | nil =>
    have : (numericComponents a).length = (split '.' a).length := by simp [numericComponents]
    rw [hn] at this
    exact absurd (List.length_eq_zero.mp this.symm) (split_ne_nil _ _)
  | cons x xs =>
    exact ⟨x, numericComponents_ne_nan a x (by simp [hn]), rfl⟩

theorem tail_ne_nan (v : Str) : ∀ x ∈ (numericComponents v).tail, x ≠ JSNumber.nan :=
  fun x hx => numericComponents_ne_nan v x (List.mem_of_mem_tail hx)

/-- When the first components compare as neither greater nor less, the loop decides on the
components after the first. -/
theorem compareLoop_skip_first (x y : JSNumber) (ta tb : List JSNumber)
    (hxy : JSNumber.lt x y = false) (hyx : JSNumber.lt y x = false)
    (ha : ∀ z ∈ ta, z ≠ JSNumber.nan) (hb : ∀ z ∈ tb, z ≠ JSNumber.nan) :
    compareLoop (x :: ta) (y :: tb) (max (x :: ta).length (y :: tb).length) 0 =
      lexCompare ta tb := by
  have hmax : max (x :: ta).length (y :: tb).length = max ta.length tb.length + 1 := by
    simp only [List.length_cons]
    omega
  rw [hmax, compareLoop_succ, compareLoop_shift]
  simp only [List.getD_cons_zero, JSNumber.gt, hxy, hyx, List.tail_cons]
  exact compareLoop_eq_firstDifference _ ta tb ha hb rfl

end VersionRelease

/-- C18, as stated, fails: the segment-wise `compareVersions` does not strip a prefix. With
`v` on both sides, `v2.0.0` against `v1.0.0` compares as `0`, while `2.0.0` against `1.0.0`
compares as `1`; with `V` on one side only the result is `0` as well. -/
theorem compareVersions_keeps_prefix :
    isDottedNumeric "2.0.0".toList = true ∧ isDottedNumeric "1.0.0".toList = true ∧
      VersionRelease.compareVersions "2.0.0".toList "1.0.0".toList = 1 ∧
      VersionRelease.compareVersions "v2.0.0".toList "v1.0.0".toList = 0 ∧
      VersionRelease.compareVersions "V2.0.0".toList "1.0.0".toList = 0 ∧
      VersionRelease.compareVersions ("v".toList ++ "2.0.0".toList) ("v".toList ++ "1.0.0".toList) ≠
        VersionRelease.compareVersions "2.0.0".toList "1.0.0".toList := by
  decide!

/-- C18, amended. The segment-wise `compareVersions` does not strip a leading `v` or `V`: a
prefixed first component reads as `NaN`, which is neither greater nor less than its
counterpart. For well-formed dotted-numeric versions `a` and `b` and prefixes `p`, `q` among
the empty text, `v` and `V`, at least one of them not empty, `compareVersions(p + a, q + b)`
is the lexicographic comparison of the components of `a` and `b` after the first. -/
theorem compareVersions_prefixed_skips_first (a b p q : Str)
    (ha : isDottedNumeric a = true) (hb : isDottedNumeric b = true)
    (hp : p = [] ∨ p = ['v'] ∨ p = ['V']) (hq : q = [] ∨ q = ['v'] ∨ q = ['V'])
    (hpq : p ≠ [] ∨ q ≠ []) :
    VersionRelease.compareVersions (p ++ a) (q ++ b) =
      lexCompare (numericComponents a).tail (numericComponents b).tail := by
  have hane : a ≠ [] := VersionRelease.isDottedNumeric_ne_nil ha
  have hbne : b ≠ [] := VersionRelease.isDottedNumeric_ne_nil hb
  have hA : ∃ x, (p = [] → x ≠ JSNumber.nan) ∧ (p ≠ [] → x = JSNumber.nan) ∧
      (split '.' (p ++ a)).map Number = x :: (numericComponents a).tail := by
    rcases hp with rfl | rfl | rfl
    · obtain ⟨x, hx, e⟩ := VersionRelease.parts_of_unprefixed ha
      exact ⟨x, fun _ => hx, fun h => absurd rfl h, e⟩
    · exact ⟨JSNumber.nan, fun h => absurd h (by simp), fun _ => rfl,
        VersionRelease.parts_of_prefixed (Or.inl rfl) ha⟩
    · exact ⟨JSNumber.nan, fun h => absurd h (by simp), fun _ => rfl,
        VersionRelease.parts_of_prefixed (Or.inr rfl) ha⟩
  have hB : ∃ y, (q = [] → y ≠ JSNumber.nan) ∧ (q ≠ [] → y = JSNumber.nan) ∧
      (split '.' (q ++ b)).map Number = y :: (numericComponents b).tail := by
    rcases hq with rfl | rfl | rfl
    · obtain ⟨y, hy, e⟩ := VersionRelease.parts_of_unprefixed hb
      exact ⟨y, fun _ => hy, fun h => absurd rfl h, e⟩
    · exact ⟨JSNumber.nan, fun h => absurd h (by simp), fun _ => rfl,
        VersionRelease.parts_of_prefixed (Or.inl rfl) hb⟩
    · exact ⟨JSNumber.nan, fun h => absurd h (by simp), fun _ => rfl,
        VersionRelease.parts_of_prefixed (Or.inr rfl) hb⟩
  obtain ⟨x, _, hx, eA⟩ := hA
  obtain ⟨y, _, hy, eB⟩ := hB
  have hlt : JSNumber.lt x y = false ∧ JSNumber.lt y x = false := by
    rcases hpq with h | h
    · rw [hx h]
      exact ⟨VersionRelease.JSNumber.lt_nan_left _, VersionRelease.JSNumber.lt_nan_right _⟩
    · rw [hy h]
      exact ⟨VersionRelease.JSNumber.lt_nan_right _, VersionRelease.JSNumber.lt_nan_left _⟩
  unfold VersionRelease.compareVersions
  rw [if_neg (by simp [hane, hbne])]
  simp only [eA, eB]
  exact VersionRelease.compareLoop_skip_first x y _ _ hlt.1 hlt.2
    (VersionRelease.tail_ne_nan a) (VersionRelease.tail_ne_nan b)

/-- Witness for the amended C18: `v1.2.3` against `1.10`. -/
theorem compareVersions_prefixed_skips_first_witness :
    isDottedNumeric "1.2.3".toList = true ∧ isDottedNumeric "1.10".toList = true ∧
      VersionRelease.compareVersions (['v'] ++ "1.2.3".toList) ([] ++ "1.10".toList) =
        lexCompare (numericComponents "1.2.3".toList).tail
          (numericComponents "1.10".toList).tail :=
  ⟨by decide, by decide,
    compareVersions_prefixed_skips_first "1.2.3".toList "1.10".toList ['v'] [] (by decide)
      (by decide) (Or.inr (Or.inl rfl)) (Or.inl rfl) (Or.inl (by simp))⟩

/-! ## The sections of a formatted document -/

namespace Version

theorem bucketLines_nil (heading : Str) : bucketLines heading [] = [] := rfl

theorem bucketLines_cons (heading : Str) (c : ChangeNote) (cs : List ChangeNote) :
    bucketLines heading (c :: cs) = heading :: [] :: ((c :: cs).map bulletLine ++ [[]]) := by
  simp [bucketLines]

theorem bucketLines_eq (heading : Str) (cs : List ChangeNote) :
    bucketLines heading cs =
      (([(heading, cs)].filter (fun b => !b.2.isEmpty)).map
        (fun b => b.1 :: [] :: (b.2.map bulletLine ++ [[]]))).flatten := by
  cases cs with
  | nil => rfl
  | cons c cs => simp [bucketLines]

/-- The lines of a section are its heading, a blank line and the lines of its buckets. -/
theorem releaseLines_eq (e : ReleaseEntry) :
    releaseLines e = headingLine e :: [] :: bucketPart e := by
  have hother : e.changes.filter (fun c =>
        !(["feature".toList, "improvement".toList, "fix".toList].contains c.type)) =
      e.changes.filter (fun c => c.type != "feature".toList &&
        c.type != "improvement".toList && c.type != "fix".toList) := by
    apply List.filter_congr
    intro c _
    simp only [List.contains_eq_any_beq, List.any_cons, List.any_nil, Bool.or_false,
      Bool.not_or, bne]
    cases (c.type == "feature".toList) <;> cases (c.type == "improvement".toList) <;>
      cases (c.type == "fix".toList) <;> rfl
  unfold releaseLines bucketPart buckets
  rw [hother]
  simp only [bucketLines_eq, List.filter_cons, List.filter_nil]
  split_ifs <;> simp

theorem formatChangelogToMarkdown_rendered (history : List ReleaseEntry) (limit : Int) :
    formatChangelogToMarkdown history limit =
      formatChangelogToMarkdown (renderedEntries history limit) 0 := by
  unfold formatChangelogToMarkdown renderedEntries
  simp

theorem startsWith_bulletLine (c : ChangeNote) :
    startsWith (bulletLine c) "## ".toList = false ∧
      startsWith (bulletLine c) "### ".toList = false ∧
      startsWith (bulletLine c) "- ".toList = true := by
  refine ⟨?_, ?_, ?_⟩ <;> simp [startsWith, bulletLine, List.isPrefixOf]

theorem startsWith_headingLine (e : ReleaseEntry) :
    startsWith (headingLine e) "## ".toList = true ∧
      startsWith (headingLine e) "### ".toList = false ∧
      startsWith (headingLine e) "- ".toList = false := by
  refine ⟨?_, ?_, ?_⟩ <;> simp [startsWith, headingLine, List.isPrefixOf]

theorem filter_bucket_block (pre : Str) (heading : Str) (cs : List ChangeNote)
    (hb : ∀ c : ChangeNote, startsWith (bulletLine c) pre = false) (hnil : startsWith [] pre = false) :
    (heading :: [] :: (cs.map bulletLine ++ [[]])).filter (fun l => startsWith l pre) =
      if startsWith heading pre then [heading] else [] := by
  have hbul : (cs.map bulletLine).filter (fun l => startsWith l pre) = [] := by
    rw [List.filter_eq_nil_iff]
    intro l hl
    obtain ⟨c, _, rfl⟩ := List.mem_map.mp hl
    simp [hb c]
  by_cases hh : startsWith heading pre = true <;>
    simp [List.filter_cons, hnil, List.filter_append, hbul, hh]

end Version

namespace Version

theorem filter_blocks (pre : Str) (hb : ∀ c : ChangeNote, startsWith (bulletLine c) pre = false)
    (hnil : startsWith [] pre = false) (bs : List (Str × List ChangeNote)) :
    (((bs.filter (fun b => !b.2.isEmpty)).map
        (fun b => b.1 :: [] :: (b.2.map bulletLine ++ [[]]))).flatten).filter
        (fun l => startsWith l pre) =
      ((bs.filter (fun b => !b.2.isEmpty)).filter (fun b => startsWith b.1 pre)).map
        (fun b => b.1) := by
  induction bs with
  | nil => rfl
  | cons b bs ih =>
    obtain ⟨hd, cs⟩ := b
    cases cs with
    | nil => simpa using ih
    | cons c cs =>
      have hf : ((hd, c :: cs) :: bs).filter (fun b => !b.2.isEmpty) =
          (hd, c :: cs) :: bs.filter (fun b => !b.2.isEmpty) := by
        simp [List.filter_cons]
      rw [hf, List.map_cons, List.flatten_cons, List.filter_append, ih,
        filter_bucket_block pre hd (c :: cs) hb hnil]
      by_cases hh : startsWith hd pre = true <;> simp [List.filter_cons, hh]

theorem filter_bullets_blocks (bs : List (Str × List ChangeNote))
    (hh : ∀ b ∈ bs, startsWith b.1 "- ".toList = false) :
    (((bs.filter (fun b => !b.2.isEmpty)).map
        (fun b => b.1 :: [] :: (b.2.map bulletLine ++ [[]]))).flatten).filter
        (fun l => startsWith l "- ".toList) =
      (bs.map (fun b => b.2.map bulletLine)).flatten := by
  induction bs with
  | nil => rfl
  | cons b bs ih =>
    have hrest := ih (fun x hx => hh x (by simp [hx]))
    have hall : ∀ xs : List ChangeNote,
        (xs.map bulletLine).filter (fun l => startsWith l "- ".toList) = xs.map bulletLine := by
      intro xs
      rw [List.filter_eq_self]
      intro l hl
      obtain ⟨c, _, rfl⟩ := List.mem_map.mp hl
      exact (startsWith_bulletLine c).2.2
    obtain ⟨hd, cs⟩ := b
    have h0 : startsWith hd "- ".toList = false := hh (hd, cs) (by simp)
    have hnil : startsWith ([] : Str) "- ".toList = false := by decide
    cases cs with
    | nil => simpa using hrest
    | cons c cs =>
      have hf : ((hd, c :: cs) :: bs).filter (fun b => !b.2.isEmpty) =
          (hd, c :: cs) :: bs.filter (fun b => !b.2.isEmpty) := by
        simp [List.filter_cons]
      have e1 : (hd :: [] :: (List.map bulletLine (c :: cs) ++ [[]])).filter
          (fun l => startsWith l "- ".toList) = List.map bulletLine (c :: cs) := by
        simp only [List.filter_cons, h0, hnil, List.filter_append, hall (c :: cs),
          List.filter_nil, Bool.false_eq_true, if_false, List.append_nil]
      rw [hf, List.map_cons, List.flatten_cons, List.filter_append, hrest, e1]
      rfl

theorem buckets_headings (e : ReleaseEntry) :
    (buckets e).map (fun b => b.1) =
      ["### ✨ 新功能".toList, "### 🚀 优化改进".toList, "### 🐛 问题修复".toList,
        "### 其他变更".toList] := rfl

theorem buckets_heading_prefixes (e : ReleaseEntry) :
    ∀ b ∈ buckets e, startsWith b.1 "### ".toList = true ∧
      startsWith b.1 "## ".toList = false ∧ startsWith b.1 "- ".toList = false ∧
      '\n' ∉ b.1 := by
  intro b hb
  simp only [buckets, List.mem_cons, List.mem_singleton, List.not_mem_nil, or_false] at hb
  rcases hb with rfl | rfl | rfl | rfl <;> refine ⟨?_, ?_, ?_, ?_⟩ <;> dsimp only <;> decide

/-- Every change of a release is in exactly one of its four buckets. -/
theorem buckets_perm (e : ReleaseEntry) :
    List.Perm ((buckets e).map (fun b => b.2)).flatten e.changes := by
  unfold buckets
  simp only [List.map_cons, List.map_nil, List.flatten_cons, List.flatten_nil, List.append_nil]
  induction e.changes with
  | nil => exact List.Perm.refl _
  | cons c cs ih =>
    simp only [List.filter_cons]
    by_cases h1 : c.type = "feature".toList
    · have e2 : ¬ (c.type = "improvement".toList) := by rw [h1]; decide
      have e3 : ¬ (c.type = "fix".toList) := by rw [h1]; decide
      simp only [h1, beq_self_eq_true, if_true, bne_self_eq_false, Bool.false_and, if_false]
      have f2 : ("feature".toList == "improvement".toList) = false := by decide
      have f3 : ("feature".toList == "fix".toList) = false := by decide
      simp only [f2, f3, Bool.false_eq_true, if_false, List.cons_append]
      exact List.Perm.cons c ih
    · by_cases h2 : c.type = "improvement".toList
      · have f1 : ("improvement".toList == "feature".toList) = false := by decide
        have f3 : ("improvement".toList == "fix".toList) = false := by decide
        simp only [h2, beq_self_eq_true, if_true, bne_self_eq_false, Bool.false_and,
          Bool.and_false, if_false, f1, f3, Bool.false_eq_true]
        exact (List.perm_middle).trans (List.Perm.cons c ih)
      · by_cases h3 : c.type = "fix".toList
        · have f1 : ("fix".toList == "feature".toList) = false := by decide
          have f2 : ("fix".toList == "improvement".toList) = false := by decide
          simp only [h3, beq_self_eq_true, if_true, bne_self_eq_false, Bool.and_false,
            if_false, f1, f2, Bool.false_eq_true]
          rw [← List.append_assoc]
          exact (List.perm_middle).trans (List.Perm.cons c (by simpa using ih))
        · have g1 : (c.type == "feature".toList) = false := by simpa using h1
          have g2 : (c.type == "improvement".toList) = false := by simpa using h2
          have g3 : (c.type == "fix".toList) = false := by simpa using h3
          simp only [g1, g2, g3, bne, Bool.not_false, Bool.and_self, if_true,
            Bool.false_eq_true, if_false]
          rw [← List.append_assoc, ← List.append_assoc]
          exact (List.perm_middle).trans (List.Perm.cons c (by simpa using ih))

end Version

namespace Version

theorem filter_bucketPart_level2 (e : ReleaseEntry) :
    (bucketPart e).filter (fun l => startsWith l "## ".toList) = [] := by
  unfold bucketPart
  rw [filter_blocks "## ".toList (fun c => (startsWith_bulletLine c).1) (by decide),
    List.map_eq_nil_iff, List.filter_eq_nil_iff]
  intro b hb
  rw [(buckets_heading_prefixes e b (List.mem_of_mem_filter hb)).2.1]
  exact Bool.false_ne_true

theorem filter_bucketPart_level3 (e : ReleaseEntry) :
    (bucketPart e).filter (fun l => startsWith l "### ".toList) =
      ((buckets e).filter (fun b => !b.2.isEmpty)).map (fun b => b.1) := by
  unfold bucketPart
  rw [filter_blocks "### ".toList (fun c => (startsWith_bulletLine c).2.1) (by decide)]
  congr 1
  rw [List.filter_eq_self]
  intro b hb
  exact (buckets_heading_prefixes e b (List.mem_of_mem_filter hb)).1

theorem filter_bucketPart_bullets (e : ReleaseEntry) :
    (bucketPart e).filter (fun l => startsWith l "- ".toList) =
      ((buckets e).map (fun b => b.2.map bulletLine)).flatten :=
  filter_bullets_blocks (buckets e) (fun b hb => (buckets_heading_prefixes e b hb).2.2.1)

theorem bucketPart_newlineFree (e : ReleaseEntry) (hc : ∀ c ∈ e.changes, '\n' ∉ c.text) :
    ∀ l ∈ bucketPart e, '\n' ∉ l := by
  intro l hl
  have hmem : l ∈ releaseLines { version := [], date := [], changes := e.changes } := by
    rw [releaseLines_eq]
    exact List.mem_cons_of_mem _ (List.mem_cons_of_mem _ hl)
  exact @UpdateUtils.releaseLines_newlineFree
    { version := [], date := [], changes := e.changes } (List.not_mem_nil _)
    (List.not_mem_nil _) hc l hmem

theorem filter_documentLines_level2 (history : List ReleaseEntry) :
    (documentLines history).filter (fun l => startsWith l "## ".toList) =
      history.map headingLine := by
  have hrel : ∀ h : List ReleaseEntry,
      ((h.map releaseLines).flatten).filter (fun l => startsWith l "## ".toList) =
        h.map headingLine := by
    intro h
    induction h with
    | nil => rfl
    | cons e es ih =>
      rw [List.map_cons, List.flatten_cons, List.filter_append, ih, releaseLines_eq]
      have hnil : startsWith ([] : Str) "## ".toList = false := by decide
      simp only [List.filter_cons, (startsWith_headingLine e).1, hnil, filter_bucketPart_level2,
        if_true, Bool.false_eq_true, if_false, List.cons_append, List.nil_append, List.map_cons]
  have htitle : startsWith "# 更新日志".toList "## ".toList = false := by decide
  have hnil : startsWith ([] : Str) "## ".toList = false := by decide
  unfold documentLines
  simp only [List.filter_cons, htitle, hnil, hrel, Bool.false_eq_true, if_false]

theorem bullets_length (e : ReleaseEntry) :
    (((buckets e).map (fun b => b.2.map bulletLine)).flatten).length = e.changes.length := by
  have hmap : ((buckets e).map (fun b => b.2.map bulletLine)).flatten =
      (((buckets e).map (fun b => b.2)).flatten).map bulletLine := by
    rw [List.map_flatten, List.map_map]
    rfl
  rw [hmap, List.length_map]
  exact (buckets_perm e).length_eq

theorem renderedEntries_newlineFree {history : List ReleaseEntry} (limit : Int)
    (h : newlineFreeHistory history = true) :
    newlineFreeHistory (renderedEntries history limit) = true := by
  rw [newlineFreeHistory_iff] at h ⊢
  intro e he
  unfold renderedEntries at he
  split_ifs at he
  · exact h e (List.mem_of_mem_take he)
  · exact h e he

theorem renderedEntries_scenario (limit : Int) :
    renderedEntries scenarioHistory limit = scenarioHistory := by
  unfold renderedEntries
  split_ifs with hpos
  · have h1 : 1 ≤ limit.toNat := by omega
    exact List.take_of_length_le h1
  · rfl

end Version

/-- C14: for a history whose versions, dates and change texts have no newline and for every
limit, the lines of the formatted document that start with `## ` are the headings
`## {version} ({date})` of the rendered entries, one per entry and in history order; the
document of the scenario history has the lines `## v1.0.1 (2025-04-12)`, the heading of the
new features and `- X`. -/
theorem format_level2_headings (history : List ReleaseEntry) (limit : Int)
    (h : newlineFreeHistory history = true) :
    (split '\n' (Version.formatChangelogToMarkdown history limit)).filter
        (fun l => startsWith l "## ".toList) =
      (renderedEntries history limit).map
        (fun e => "## ".toList ++ e.version ++ " (".toList ++ e.date ++ ")".toList) ∧
    (∀ n : Int,
      "## v1.0.1 (2025-04-12)".toList ∈
          split '\n' (Version.formatChangelogToMarkdown scenarioHistory n) ∧
        "### ✨ 新功能".toList ∈
          split '\n' (Version.formatChangelogToMarkdown scenarioHistory n) ∧
        "- X".toList ∈ split '\n' (Version.formatChangelogToMarkdown scenarioHistory n)) := by
  refine ⟨?_, ?_⟩
  · rw [Version.formatChangelogToMarkdown_rendered, Version.formatChangelogToMarkdown_eq_unlines,
      Version.split_unlines _
        (UpdateUtils.documentLines_newlineFree (Version.renderedEntries_newlineFree limit h)),
      List.filter_append, Version.filter_documentLines_level2]
    have hnil : startsWith ([] : Str) "## ".toList = false := by decide
    simp only [List.filter_cons, hnil, Bool.false_eq_true, if_false, List.filter_nil,
      List.append_nil]
    rfl
  · intro n
    rw [Version.formatChangelogToMarkdown_rendered, Version.renderedEntries_scenario]
    decide

theorem format_level2_headings_witness :
    newlineFreeHistory scenarioHistory = true ∧
      (split '\n' (Version.formatChangelogToMarkdown scenarioHistory 0)).filter
          (fun l => startsWith l "## ".toList) =
        (renderedEntries scenarioHistory 0).map
          (fun e => "## ".toList ++ e.version ++ " (".toList ++ e.date ++ ")".toList) :=
  ⟨by decide, (format_level2_headings scenarioHistory 0 (by decide)).1⟩

namespace Version

theorem buckets_heading_injective (e : ReleaseEntry) :
    ∀ b ∈ buckets e, ∀ b2 ∈ buckets e, b2.1 = b.1 → b2 = b := by
  intro b hb b2 hb2 h12
  simp only [buckets, List.mem_cons, List.mem_singleton, List.not_mem_nil, or_false] at hb hb2
  rcases hb with rfl | rfl | rfl | rfl <;> rcases hb2 with rfl | rfl | rfl | rfl <;>
    first
      | rfl
      | (dsimp only at h12; exact absurd h12 (by decide))

theorem heading_mem_bucketPart (e : ReleaseEntry) :
    ∀ b ∈ buckets e, (b.1 ∈ bucketPart e ↔ b.2 ≠ []) := by
  intro b hb
  have hpre := (buckets_heading_prefixes e b hb).1
  have hiff : b.1 ∈ bucketPart e ↔
      b.1 ∈ (bucketPart e).filter (fun l => startsWith l "### ".toList) := by
    rw [List.mem_filter]
    exact ⟨fun h => ⟨h, hpre⟩, fun h => h.1⟩
  rw [hiff, filter_bucketPart_level3, List.mem_map]
  constructor
  · rintro ⟨b2, hb2, h12⟩
    have hmem := List.mem_of_mem_filter hb2
    have hne := (List.mem_filter.mp hb2).2
    have heq := buckets_heading_injective e b hb b2 hmem h12
    subst heq
    intro hnil
    rw [hnil] at hne
    exact absurd hne (by decide)
  · intro hne
    refine ⟨b, List.mem_filter.mpr ⟨hb, ?_⟩, rfl⟩
    cases hcs : b.2 with
    | nil => exact absurd hcs hne
    | cons c cs => rfl

end Version

/-- C15: the section that the formatter appends for a release is its level-2 heading, a
blank line and then, for the four buckets in the fixed order feature, improvement, fix,
other, the block of every bucket that has a change: the level-3 headings of the section are
the headings of the non-empty buckets in that order, a bucket heading is in the section if
and only if the bucket has a change, and the other bucket holds the changes whose type is
none of feature, improvement and fix. The statement is on the lines as the formatter writes
them, each followed by its newline. -/
theorem bucket_headings_fixed_order (markdown : Str) (e : ReleaseEntry) :
    Version.appendRelease markdown e =
        markdown ++ unlines (headingLine e :: [] :: bucketPart e) ∧
      (bucketPart e).filter (fun l => startsWith l "### ".toList) =
        ((buckets e).filter (fun b => !b.2.isEmpty)).map (fun b => b.1) ∧
      (∀ b ∈ buckets e, (b.1 ∈ bucketPart e ↔ b.2 ≠ [])) ∧
      buckets e =
        [("### ✨ 新功能".toList, e.changes.filter (fun c => c.type == "feature".toList)),
         ("### 🚀 优化改进".toList, e.changes.filter (fun c => c.type == "improvement".toList)),
         ("### 🐛 问题修复".toList, e.changes.filter (fun c => c.type == "fix".toList)),
         ("### 其他变更".toList, e.changes.filter (fun c =>
            c.type != "feature".toList && c.type != "improvement".toList &&
              c.type != "fix".toList))] := by
  refine ⟨?_, Version.filter_bucketPart_level3 e, Version.heading_mem_bucketPart e, rfl⟩
  rw [Version.appendRelease_eq, Version.releaseLines_eq]

/-- C16: for a release whose change texts have no newline, the lines that follow the
level-2 heading of its section are, for every bucket with a change, the bucket heading, a
blank line, the bullets `- {text}` of the changes of the bucket in their order in the entry,
and a blank line. The buckets split the changes of the entry, so every change has one
bullet, and the lines that start with `- ` are as many as the changes; with a newline-free
version and date this holds for the lines of the whole section. -/
theorem bullets_per_bucket (markdown : Str) (e : ReleaseEntry)
    (h : ∀ c ∈ e.changes, '\n' ∉ c.text) :
    Version.appendRelease markdown e =
        markdown ++ unlines (headingLine e :: [] :: bucketPart e) ∧
      split '\n' (unlines (bucketPart e)) = bucketPart e ++ [[]] ∧
      bucketPart e =
        (((buckets e).filter (fun b => b.2 ≠ [])).map
          (fun b => b.1 :: [] :: (b.2.map (fun c => "- ".toList ++ c.text) ++ [[]]))).flatten ∧
      (∀ b ∈ buckets e, List.Sublist b.2 e.changes) ∧
      List.Perm ((buckets e).map (fun b => b.2)).flatten e.changes ∧
      (bucketPart e).filter (fun l => startsWith l "- ".toList) =
        ((buckets e).map (fun b => b.2.map (fun c => "- ".toList ++ c.text))).flatten ∧
      ((split '\n' (unlines (bucketPart e))).filter
        (fun l => startsWith l "- ".toList)).length = e.changes.length ∧
      ('\n' ∉ e.version → '\n' ∉ e.date →
        ((split '\n' (unlines (headingLine e :: [] :: bucketPart e))).filter
          (fun l => startsWith l "- ".toList)).length = e.changes.length) := by
  have hsplit := Version.split_unlines _ (Version.bucketPart_newlineFree e h)
  have hnil : startsWith ([] : Str) "- ".toList = false := by decide
  have hcount : ((bucketPart e).filter (fun l => startsWith l "- ".toList)).length =
      e.changes.length := by
    rw [Version.filter_bucketPart_bullets, Version.bullets_length]
  refine ⟨?_, hsplit, ?_, ?_, Version.buckets_perm e, Version.filter_bucketPart_bullets e,
    ?_, ?_⟩
  · rw [Version.appendRelease_eq, Version.releaseLines_eq]
  · unfold bucketPart
    congr 2
    apply List.filter_congr
    intro b _
    cases b.2 <;> simp
  · intro b hb
    simp only [buckets, List.mem_cons, List.mem_singleton, List.not_mem_nil, or_false] at hb
    rcases hb with rfl | rfl | rfl | rfl <;> exact List.filter_sublist _
  · rw [hsplit, List.filter_append]
    simp only [List.filter_cons, hnil, Bool.false_eq_true, if_false, List.filter_nil,
      List.append_nil]
    exact hcount
  · intro hv hd
    have hall : ∀ l ∈ headingLine e :: [] :: bucketPart e, '\n' ∉ l := by
      intro l hl
      rw [← Version.releaseLines_eq] at hl
      exact UpdateUtils.releaseLines_newlineFree hv hd h l hl
    rw [Version.split_unlines _ hall, List.filter_append]
    simp only [List.filter_cons, hnil, (Version.startsWith_headingLine e).2.2,
      Bool.false_eq_true, if_false, List.filter_nil, List.append_nil]
    exact hcount

theorem bullets_per_bucket_witness :
    (∀ c ∈ (scenarioHistory.headD ⟨[], [], []⟩).changes, '\n' ∉ c.text) ∧
      split '\n' (unlines (bucketPart (scenarioHistory.headD ⟨[], [], []⟩))) =
        bucketPart (scenarioHistory.headD ⟨[], [], []⟩) ++ [[]] :=
  ⟨by decide, (bullets_per_bucket [] (scenarioHistory.headD ⟨[], [], []⟩) (by decide)).2.1⟩

/-- C17: with a positive limit `n` the formatter writes the document of the first `n`
entries of the history, which is its output for that prefix with limit `0`; with limit `0`
it writes the document of the whole history. -/
theorem formatChangelogToMarkdown_limit (history : List ReleaseEntry) (n : Int) :
    (0 < n → Version.formatChangelogToMarkdown history n =
        Version.formatChangelogToMarkdown (history.take n.toNat) 0) ∧
      (0 < n → Version.formatChangelogToMarkdown history n =
        unlines ("# 更新日志".toList :: [] ::
          ((history.take n.toNat).map releaseLines).flatten)) ∧
      Version.formatChangelogToMarkdown history 0 =
        unlines ("# 更新日志".toList :: [] :: (history.map releaseLines).flatten) := by
  have hpos : 0 < n → Version.formatChangelogToMarkdown history n =
      Version.formatChangelogToMarkdown (history.take n.toNat) 0 := by
    intro hn
    rw [Version.formatChangelogToMarkdown_rendered]
    unfold renderedEntries
    rw [if_pos hn]
  refine ⟨hpos, ?_, Version.formatChangelogToMarkdown_eq_unlines history⟩
  intro hn
  rw [hpos hn]
  exact Version.formatChangelogToMarkdown_eq_unlines _

theorem formatChangelogToMarkdown_limit_witness :
    (0 : Int) < 1 ∧
      Version.formatChangelogToMarkdown (scenarioHistory ++ scenarioHistory) 1 =
        Version.formatChangelogToMarkdown ((scenarioHistory ++ scenarioHistory).take 1) 0 :=
  ⟨by decide, (formatChangelogToMarkdown_limit (scenarioHistory ++ scenarioHistory) 1).1
    (by decide)⟩

/-! ## The sources of the changelog and the unbound identifiers -/

namespace UpdateUtils

theorem updateChangelogData_moduleScope (heap : Heap) (changelog : ChangelogArg) :
    updateChangelogData moduleScope heap changelog =
      Except.error (JSError.referenceError "CHANGELOG") := rfl

theorem reimportBlock_moduleScope (env : ChangelogEnv) (heap : Heap) :
    (reimportBlock moduleScope env heap).1 = none := by
  unfold reimportBlock
  rcases env.importVersionModule with e | (_ | r) <;> simp [updateChangelogData_moduleScope]

theorem useChangelogText_moduleScope (rt : Runtime) (heap : Heap) (changelogText : Str) :
    (useChangelogText moduleScope rt heap changelogText).1 = none := by
  unfold useChangelogText
  simp only [updateChangelogData_moduleScope]
  split_ifs <;> rfl

theorem hostBlock_moduleScope (rt : Runtime) (env : ChangelogEnv) (heap : Heap) :
    (hostBlock moduleScope rt env heap).1 = none := by
  unfold hostBlock
  rcases env.invokeChangelogText with e | t
  · rfl
  · exact useChangelogText_moduleScope rt heap t

theorem remoteBlock_moduleScope (rt : Runtime) (env : ChangelogEnv) (heap : Heap) :
    (remoteBlock moduleScope rt env heap).1 = none := by
  unfold remoteBlock
  rcases env.fetchResponse with e | ⟨_ | _, e | t⟩ <;>
    first
      | rfl
      | exact useChangelogText_moduleScope rt heap t

/-- As the file is written, every call of `fetchChangelogFromUpdatePackage` is rejected: the
outer `try` block ends in a `ReferenceError`, and so does `return CHANGELOG` in the `catch`. -/
theorem fetchChangelogFromUpdatePackage_moduleScope (rt : Runtime) (env : ChangelogEnv)
    (heap : Heap) :
    (fetchChangelogFromUpdatePackage moduleScope rt env heap).1 =
      Except.error (JSError.referenceError "CHANGELOG") := by
  have htry : ∃ e h, fetchChangelogTry moduleScope rt env heap = (Except.error e, h) := by
    unfold fetchChangelogTry
    by_cases hp : env.isProduction = true
    · simp only [hp, Bool.not_true, Bool.false_eq_true, if_false]
      rw [show reimportBlock moduleScope env heap =
          (none, (reimportBlock moduleScope env heap).2) from
        Prod.ext (reimportBlock_moduleScope env heap) rfl]
      dsimp only
      generalize (reimportBlock moduleScope env heap).2 = heap1
      rw [show hostBlock moduleScope rt env heap1 =
          (none, (hostBlock moduleScope rt env heap1).2) from
        Prod.ext (hostBlock_moduleScope rt env heap1) rfl]
      dsimp only
      generalize (hostBlock moduleScope rt env heap1).2 = heap2
      rw [show remoteBlock moduleScope rt env heap2 =
          (none, (remoteBlock moduleScope rt env heap2).2) from
        Prod.ext (remoteBlock_moduleScope rt env heap2) rfl]
      exact ⟨_, _, rfl⟩
    · simp only [hp, Bool.not_false, if_true]
      exact ⟨_, _, rfl⟩
  obtain ⟨e, h, htry⟩ := htry
  unfold fetchChangelogFromUpdatePackage
  rw [htry]
  rfl

theorem reimportBlock_of_fails (scope : Scope) {env : ChangelogEnv} (heap : Heap)
    (h : reimportFails env = true) : reimportBlock scope env heap = (none, heap) := by
  unfold reimportFails at h
  unfold reimportBlock
  rcases hi : env.importVersionModule with e | (_ | r)
  · rfl
  · rfl
  · rw [hi] at h
    exact absurd h Bool.false_ne_true

theorem useChangelogText_of_noEntry (scope : Scope) {rt : Runtime} (heap : Heap)
    {changelogText : Str} (h : noEntryText rt changelogText = true) :
    ∃ extra, useChangelogText scope rt heap changelogText = (none, heap ++ extra) := by
  unfold useChangelogText
  by_cases ht : trim changelogText = []
  · refine ⟨[], ?_⟩
    simp [ht, truthy]
  · have hparse : parseChangelogFromMarkdown rt changelogText = [] := by
      unfold noEntryText at h
      rcases Bool.or_eq_true _ _ |>.mp h with h1 | h1
      · exact absurd (List.isEmpty_iff.mp h1) ht
      · exact List.isEmpty_iff.mp h1
    have htruthy : ∀ s : Str, s ≠ [] → truthy (some s) = true := by
      intro s hs
      cases s with
      | nil => exact absurd rfl hs
      | cons c cs => rfl
    have hne : changelogText ≠ [] := by
      intro h0
      subst h0
      exact ht (by decide)
    refine ⟨[[]], ?_⟩
    simp [hparse, Heap.alloc, htruthy _ ht, htruthy _ hne]

theorem hostBlock_of_fails (scope : Scope) {rt : Runtime} {env : ChangelogEnv} (heap : Heap)
    (h : hostFails rt env = true) :
    ∃ extra, hostBlock scope rt env heap = (none, heap ++ extra) := by
  unfold hostFails at h
  unfold hostBlock
  rcases hi : env.invokeChangelogText with e | t
  · exact ⟨[], by simp⟩
  · rw [hi] at h
    exact useChangelogText_of_noEntry scope heap h

theorem remoteBlock_of_fails (scope : Scope) {rt : Runtime} {env : ChangelogEnv} (heap : Heap)
    (h : remoteFails rt env = true) :
    ∃ extra, remoteBlock scope rt env heap = (none, heap ++ extra) := by
  unfold remoteFails at h
  unfold remoteBlock
  rcases hi : env.fetchResponse with e | ⟨_ | _, e | t⟩
  · exact ⟨[], by simp⟩
  · exact ⟨[], by simp⟩
  · exact ⟨[], by simp⟩
  · exact ⟨[], by simp⟩
  · rw [hi] at h
    exact useChangelogText_of_noEntry scope heap h

theorem temporaryChangelog_linkedScope (env : ChangelogEnv) (first : List ReleaseEntry)
    (heap : Heap) :
    ∃ heap2, temporaryChangelog linkedScope env (first :: heap) =
        (Except.ok (heap.length + 1), heap2) ∧
      heap2.read (heap.length + 1) =
        [{ version := Version.CURRENT_VERSION, date := localDate env,
           changes := [{ type := "improvement".toList, text := "提升应用稳定性和性能".toList },
                       { type := "fix".toList, text := "修复已知问题".toList }] }] := by
  have hget : ∀ (x : List ReleaseEntry), (heap ++ [x]).getD heap.length [] = x := by
    intro x
    rw [List.getD_eq_getElem?_getD, List.getElem?_concat_length]
    rfl
  simp only [temporaryChangelog, linkedScope, resolve, Heap.alloc, updateChangelogData,
    Heap.write, Heap.read, List.length_cons, List.cons_append, List.set_cons_zero,
    List.getD_cons_succ, hget, List.length_singleton, Nat.lt_irrefl, gt_iff_lt, Nat.zero_lt_one,
    if_true, List.foldl_cons, List.foldl_nil, List.getD_cons_zero, List.nil_append]
  exact ⟨_, rfl, hget _⟩

end UpdateUtils

/-- C20: in a production build in which the re-import of the version module fails and the
host API and the remote fetch fail or yield a text with no release entry, control reaches
the statements that build the local changelog. They read `CURRENT_VERSION`, and the `catch`
block reads `CHANGELOG`; `updateUtils.js` imports neither, so in the scope the module really
has the call is rejected with a `ReferenceError`. With the identifiers bound to the
constants, the call returns a new array of one entry, whose version is `CURRENT_VERSION`,
whose date is the local date and whose changes are an improvement and a fix; the empty parse
of a text is not returned. -/
theorem fetchChangelogFromUpdatePackage_fallback_unbound (rt : Runtime)
    (env : UpdateUtils.ChangelogEnv) (history : List ReleaseEntry) (heap : UpdateUtils.Heap)
    (hprod : env.isProduction = true) (himport : reimportFails env = true)
    (hhost : hostFails rt env = true) (hremote : remoteFails rt env = true) :
    (UpdateUtils.fetchChangelogFromUpdatePackage UpdateUtils.moduleScope rt env
        (history :: heap)).1 = Except.error (JSError.referenceError "CHANGELOG") ∧
      ∃ r heap2,
        UpdateUtils.fetchChangelogFromUpdatePackage UpdateUtils.linkedScope rt env
            (history :: heap) = (Except.ok r, heap2) ∧
          UpdateUtils.Heap.read heap2 r =
            [{ version := Version.CURRENT_VERSION, date := UpdateUtils.localDate env,
               changes :=
                 [{ type := "improvement".toList, text := "提升应用稳定性和性能".toList },
                  { type := "fix".toList, text := "修复已知问题".toList }] }] := by
  refine ⟨UpdateUtils.fetchChangelogFromUpdatePackage_moduleScope rt env _, ?_⟩
  obtain ⟨x2, h2⟩ := UpdateUtils.hostBlock_of_fails UpdateUtils.linkedScope (history :: heap)
    hhost
  obtain ⟨x3, h3⟩ := UpdateUtils.remoteBlock_of_fails UpdateUtils.linkedScope
    (history :: heap ++ x2) hremote
  obtain ⟨heap2, h4, hread⟩ :=
    UpdateUtils.temporaryChangelog_linkedScope env history (heap ++ x2 ++ x3)
  refine ⟨_, heap2, ?_, hread⟩
  unfold UpdateUtils.fetchChangelogFromUpdatePackage UpdateUtils.fetchChangelogTry
  simp only [List.cons_append, List.append_assoc] at h2 h3 h4
  simp only [hprod, Bool.not_true, Bool.false_eq_true, if_false,
    UpdateUtils.reimportBlock_of_fails UpdateUtils.linkedScope _ himport, h2, h3, h4,
    List.append_assoc]

/-- Witness for C20: the re-import throws, the host API answers a text with no heading and
the remote text has a change line but no heading. -/
theorem fetchChangelogFromUpdatePackage_fallback_unbound_witness :
    emptyTextEnv.isProduction = true ∧ reimportFails emptyTextEnv = true ∧
      hostFails sampleRuntime emptyTextEnv = true ∧
      remoteFails sampleRuntime emptyTextEnv = true ∧
      (UpdateUtils.fetchChangelogFromUpdatePackage UpdateUtils.moduleScope sampleRuntime
        emptyTextEnv [[]]).1 = Except.error (JSError.referenceError "CHANGELOG") :=
  ⟨rfl, rfl, by decide!, by decide!,
    (fetchChangelogFromUpdatePackage_fallback_unbound sampleRuntime emptyTextEnv [] [] rfl rfl
      (by decide!) (by decide!)).1⟩

/-! ## The mapping of the labels -/

namespace UpdateUtils

theorem includes_iff (s sub : Str) : includes s sub = true ↔ sub <:+: s := by
  unfold includes
  rw [List.any_eq_true]
  constructor
  · rintro ⟨t, ht, hp⟩
    rw [List.mem_tails] at ht
    rw [List.isPrefixOf_iff_prefix] at hp
    exact List.IsInfix.trans hp.isInfix ht.isInfix
  · intro h
    obtain ⟨t, hp, hs⟩ := List.infix_iff_prefix_suffix.mp h
    exact ⟨t, (List.mem_tails _ _).mpr hs, List.isPrefixOf_iff_prefix.mpr hp⟩

theorem infix_map_iff (f : Char → Char) (kw label : Str) :
    kw <:+: label.map f ↔ ∃ part, part <:+: label ∧ part.map f = kw := by
  constructor
  · rintro ⟨front, back, h⟩
    obtain ⟨l1, back2, h1, _, _⟩ := List.map_eq_append_iff.mp h.symm
    obtain ⟨front2, part, _, _, hpart⟩ := List.map_eq_append_iff.mp
      (show List.map f l1 = front ++ kw by assumption)
    refine ⟨part, ⟨front2, back2, ?_⟩, hpart⟩
    subst_vars
    rfl
  · rintro ⟨part, ⟨front, back, rfl⟩, rfl⟩
    exact ⟨front.map f, back.map f, by simp⟩

end UpdateUtils

/-- C11: for every label, `mapChangeType` returns `feature`, `improvement`, `fix` or
`other`, decided on the lower-cased label by substring, in this order of priority: `feature`
when it contains `新功能` or `feature`, else `improvement` when it contains `优化` or
`improvement`, else `fix` when it contains `修复` or `fix`, else `other`. Labels with the
same lower-cased form are mapped alike, and under the lower-casing of the ASCII letters a
keyword is found in the lower-cased label exactly when a part of the label is the keyword
up to case. -/
theorem mapChangeType_by_substring (rt : Runtime) (label : Str) :
    UpdateUtils.mapChangeType rt label ∈
        ["feature".toList, "improvement".toList, "fix".toList, "other".toList] ∧
      UpdateUtils.mapChangeType rt label =
        (if "新功能".toList <:+: rt.toLowerCase label ∨
            "feature".toList <:+: rt.toLowerCase label then "feature".toList
         else if "优化".toList <:+: rt.toLowerCase label ∨
            "improvement".toList <:+: rt.toLowerCase label then "improvement".toList
         else if "修复".toList <:+: rt.toLowerCase label ∨
            "fix".toList <:+: rt.toLowerCase label then "fix".toList
         else "other".toList) ∧
      (∀ other : Str, rt.toLowerCase other = rt.toLowerCase label →
        UpdateUtils.mapChangeType rt other = UpdateUtils.mapChangeType rt label) ∧
      (∀ keyword : Str, keyword <:+: sampleRuntime.toLowerCase label ↔
        ∃ part, part <:+: label ∧ part.map Char.toLower = keyword) ∧
      UpdateUtils.mapChangeType sampleRuntime "New FEATURE".toList = "feature".toList ∧
      UpdateUtils.mapChangeType sampleRuntime "Bug Fix".toList = "fix".toList ∧
      UpdateUtils.mapChangeType sampleRuntime "fix of a Feature".toList = "feature".toList ∧
      UpdateUtils.mapChangeType sampleRuntime "修复 优化".toList = "improvement".toList ∧
      UpdateUtils.mapChangeType sampleRuntime "docs".toList = "other".toList := by
  refine ⟨?_, ?_, ?_, ?_, by decide, by decide, by decide, by decide, by decide⟩
  · unfold UpdateUtils.mapChangeType
    simp only []
    split_ifs <;> simp
  · unfold UpdateUtils.mapChangeType
    simp only [Bool.or_eq_true, UpdateUtils.includes_iff]
  · intro other h
    unfold UpdateUtils.mapChangeType
    rw [h]
  · intro keyword
    exact UpdateUtils.infix_map_iff Char.toLower keyword label

/-- Witness for C11: two spellings of one label. -/
theorem mapChangeType_by_substring_witness :
    sampleRuntime.toLowerCase "FIX".toList = sampleRuntime.toLowerCase "Fix".toList ∧
      UpdateUtils.mapChangeType sampleRuntime "FIX".toList =
        UpdateUtils.mapChangeType sampleRuntime "Fix".toList :=
  ⟨by decide, (mapChangeType_by_substring sampleRuntime "Fix".toList).2.2.1 "FIX".toList
    (by decide)⟩

/-! ## Lines that the parser ignores -/

namespace UpdateUtils

theorem headingOf_eq_none_iff (rt : Runtime) (l : Str) :
    headingOf rt l = none ↔ exec versionPattern (trim l) = none := by
  simp [headingOf]

theorem changeOf_eq_none_iff (rt : Runtime) (l : Str) :
    changeOf rt l = none ↔ exec changePattern (trim l) = none := by
  simp [changeOf]

theorem bodyChanges_insert (rt : Runtime) {l : Str} (hh : headingOf rt l = none)
    (hc : changeOf rt l = none) (after : List Str) :
    ∀ before : List Str,
      (bodyLines rt (before ++ l :: after)).filterMap (changeOf rt) =
        (bodyLines rt (before ++ after)).filterMap (changeOf rt) := by
  intro before
  induction before with
  | nil => simp [bodyLines, List.takeWhile_cons, hh, hc]
  | cons x xs ih =>
    unfold bodyLines at ih ⊢
    simp only [List.cons_append, List.takeWhile_cons]
    cases hx : (headingOf rt x).isNone with
    | false => rfl
    | true =>
      simp only [if_true, List.filterMap_cons]
      rw [ih]

theorem sections_insert (rt : Runtime) {l : Str} (hh : headingOf rt l = none)
    (hc : changeOf rt l = none) (after : List Str) :
    ∀ before : List Str,
      sections rt (before ++ l :: after) = sections rt (before ++ after) := by
  intro before
  induction before with
  | nil => simp [sections, hh]
  | cons x xs ih =>
    cases hx : headingOf rt x with
    | none => simp [sections, hx, ih]
    | some vd => simp [sections, hx, ih, bodyChanges_insert rt hh hc after xs]

theorem sections_of_no_heading (rt : Runtime) (rest : List Str) :
    ∀ before : List Str, (∀ x ∈ before, headingOf rt x = none) →
      sections rt (before ++ rest) = sections rt rest := by
  intro before
  induction before with
  | nil => intro _; rfl
  | cons x xs ih =>
    intro h
    have hx := h x (by simp)
    simp only [List.cons_append, sections, hx]
    exact ih (fun y hy => h y (by simp [hy]))

theorem sections_version_shape (rt : Runtime) (ls : List Str) :
    ∀ e ∈ sections rt ls, VersionShape e.version := by
  intro e he
  have hmem : (e.version, e.date) ∈ (sections rt ls).map (fun e => (e.version, e.date)) :=
    List.mem_map.mpr ⟨e, he, rfl⟩
  rw [sections_map_heading, List.mem_filterMap] at hmem
  obtain ⟨l, _, hl⟩ := hmem
  unfold headingOf at hl
  rw [Option.map_eq_some'] at hl
  obtain ⟨m, hm, hpair⟩ := hl
  obtain ⟨ws, v, tail, _, _, hv, hcap⟩ := versionPattern_sound hm
  have hver : (capture m 1).getD [] = e.version := congrArg Prod.fst hpair
  rcases hcap with rfl | ⟨d, _, rfl⟩
  · have hv1 : (capture [(1, v)] 1).getD [] = v := by simp [capture, List.lookup]
    rw [← hver, hv1]
    exact hv
  · have hv1 : (capture [(2, d), (1, v)] 1).getD [] = v := by simp [capture, List.lookup]
    rw [← hver, hv1]
    exact hv

end UpdateUtils

/-- C12: `parseChangelogFromMarkdown` is a total function of the text, and its result does
not change when a line whose trimmed form matches neither the heading pattern nor the
change pattern is inserted or deleted anywhere, nor when a line that is not a heading is
inserted or deleted above the first heading. Here `text1` has the line `line` between the
lines `before` and `after`, and `text2` has the lines `before` and `after` only. The empty
text, and every text none of whose lines is a heading, are parsed to the empty sequence. -/
theorem parse_ignores_other_lines (rt : Runtime) (text1 text2 : Str)
    (before after : List Str) (line : Str)
    (h1 : split '\n' text1 = before ++ line :: after)
    (h2 : split '\n' text2 = before ++ after)
    (hline : exec UpdateUtils.versionPattern (trim line) = none)
    (hplace : exec UpdateUtils.changePattern (trim line) = none ∨
      ∀ x ∈ before, exec UpdateUtils.versionPattern (trim x) = none) :
    UpdateUtils.parseChangelogFromMarkdown rt text1 =
        UpdateUtils.parseChangelogFromMarkdown rt text2 ∧
      UpdateUtils.parseChangelogFromMarkdown rt [] = [] ∧
      ∀ text : Str,
        (∀ x ∈ split '\n' text, exec UpdateUtils.versionPattern (trim x) = none) →
          UpdateUtils.parseChangelogFromMarkdown rt text = [] := by
  have hh : headingOf rt line = none := (UpdateUtils.headingOf_eq_none_iff rt line).mpr hline
  refine ⟨?_, rfl, ?_⟩
  · rw [UpdateUtils.parse_eq_sections, UpdateUtils.parse_eq_sections, h1, h2]
    rcases hplace with hc | hb
    · exact UpdateUtils.sections_insert rt hh
        ((UpdateUtils.changeOf_eq_none_iff rt line).mpr hc) after before
    · have hb2 : ∀ x ∈ before, headingOf rt x = none :=
        fun x hx => (UpdateUtils.headingOf_eq_none_iff rt x).mpr (hb x hx)
      rw [UpdateUtils.sections_of_no_heading rt _ before hb2,
        UpdateUtils.sections_of_no_heading rt _ before hb2]
      simp [sections, hh]
  · intro text h
    rw [UpdateUtils.parse_eq_sections]
    have h0 := UpdateUtils.sections_of_no_heading rt [] (split '\n' text)
      (fun x hx => (UpdateUtils.headingOf_eq_none_iff rt x).mpr (h x hx))
    rw [List.append_nil] at h0
    rw [h0]
    rfl

/-- Witness for C12: a note between a heading and its change line. -/
theorem parse_ignores_other_lines_witness :
    split '\n' "intro\n## v1.0.0\nnote\n- [fix] a".toList =
        ["intro".toList, "## v1.0.0".toList] ++ "note".toList :: ["- [fix] a".toList] ∧
      split '\n' "intro\n## v1.0.0\n- [fix] a".toList =
        ["intro".toList, "## v1.0.0".toList] ++ ["- [fix] a".toList] ∧
      exec UpdateUtils.versionPattern (trim "note".toList) = none ∧
      exec UpdateUtils.changePattern (trim "note".toList) = none ∧
      UpdateUtils.parseChangelogFromMarkdown sampleRuntime
          "intro\n## v1.0.0\nnote\n- [fix] a".toList =
        UpdateUtils.parseChangelogFromMarkdown sampleRuntime
          "intro\n## v1.0.0\n- [fix] a".toList :=
  ⟨by decide, by decide, by decide!, by decide!,
    (parse_ignores_other_lines sampleRuntime "intro\n## v1.0.0\nnote\n- [fix] a".toList
      "intro\n## v1.0.0\n- [fix] a".toList ["intro".toList, "## v1.0.0".toList]
      ["- [fix] a".toList] "note".toList (by decide) (by decide) (by decide!)
      (Or.inl (by decide!))).1⟩

/-- C13, as claimed, fails: the heading pattern admits the prefix `V`, and the parser keeps
the captured version as it is, so the entry of the heading `## V1.2.3` has the version
`V1.2.3`, which does not match `^v?\d+\.\d+\.\d+$`. -/
theorem parse_keeps_capital_prefix :
    UpdateUtils.parseChangelogFromMarkdown sampleRuntime "## V1.2.3".toList =
        [{ version := "V1.2.3".toList, date := "2025-04-12".toList, changes := [] }] ∧
      isVersionString "V1.2.3".toList = false := by
  decide!

/-- C13, amended: for every text, the version of every entry that
`parseChangelogFromMarkdown` returns matches `^[vV]?\d+\.\d+\.\d+$`: three non-empty runs
of digits separated by dots, after an optional `v` or `V`. -/
theorem parse_versions_shape (rt : Runtime) (text : Str) (e : ReleaseEntry)
    (he : e ∈ UpdateUtils.parseChangelogFromMarkdown rt text) : VersionShape e.version := by
  rw [UpdateUtils.parse_eq_sections] at he
  exact UpdateUtils.sections_version_shape rt _ e he

/-- Witness for the amended C13: the entry of the heading `## V1.2.3`. -/
theorem parse_versions_shape_witness :
    ({ version := "V1.2.3".toList, date := "2025-04-12".toList, changes := [] } :
        ReleaseEntry) ∈ UpdateUtils.parseChangelogFromMarkdown sampleRuntime
          "## V1.2.3".toList ∧
      VersionShape "V1.2.3".toList :=
  ⟨by decide!, parse_versions_shape sampleRuntime "## V1.2.3".toList
    { version := "V1.2.3".toList, date := "2025-04-12".toList, changes := [] } (by decide!)⟩

/-! ## The storage helpers and the favourites -/

namespace Storage

theorem lookupItem_withItem (store : Store) (key value : Str) :
    (store.withItem key value).lookupItem key = some value := by
  simp [Store.withItem, Store.lookupItem, List.find?_cons]

end Storage

/-- C23: `saveToStorage` completes normally for every key and value; when `JSON.stringify`
throws, or the access to the storage or the write throws, the store is left as it was, and
otherwise the key holds the serialised text. `getFromStorage` completes normally as well: it
returns the default value when the key is absent, when the stored text is not parsed by
`JSON.parse` and when the access throws, and the parsed value otherwise. `JSON.parse`
rejects the empty text, which the code takes for an absent value. -/
theorem storage_helpers_absorb_failures {α : Type} (json : Storage.Json α)
    (env : Storage.StorageEnv) (store : Storage.Store) (key : Str) (value defaultValue : α)
    (hjson : ∀ v, json.parse [] ≠ Except.ok v) :
    (Storage.saveToStorage json env store key value).1 = Except.ok () ∧
      ((∃ e, Storage.saveToStorageTry json env store key value = Except.error e) →
        (Storage.saveToStorage json env store key value).2 = store) ∧
      (∀ text, json.stringify value = Except.ok (some text) → env.denied = none →
        env.quota store key text = none →
        (Storage.saveToStorage json env store key value).2 = store.withItem key text ∧
          Storage.Store.lookupItem (Storage.saveToStorage json env store key value).2 key =
            some text) ∧
      (∃ r, Storage.getFromStorage json env store key defaultValue = Except.ok r) ∧
      (Storage.getItem env store key = Except.ok none →
        Storage.getFromStorage json env store key defaultValue = Except.ok defaultValue) ∧
      (∀ text e, Storage.getItem env store key = Except.ok (some text) →
        json.parse text = Except.error e →
        Storage.getFromStorage json env store key defaultValue = Except.ok defaultValue) ∧
      (∀ text v, Storage.getItem env store key = Except.ok (some text) →
        json.parse text = Except.ok v →
        Storage.getFromStorage json env store key defaultValue = Except.ok v) ∧
      (∀ e, Storage.getItem env store key = Except.error e →
        Storage.getFromStorage json env store key defaultValue = Except.ok defaultValue) := by
  refine ⟨?_, ?_, ?_, ?_, ?_, ?_, ?_, ?_⟩
  · unfold Storage.saveToStorage
    cases Storage.saveToStorageTry json env store key value <;> rfl
  · rintro ⟨e, he⟩
    unfold Storage.saveToStorage
    rw [he]
  · intro text hs hd hq
    have htry : Storage.saveToStorageTry json env store key value =
        Except.ok (store.withItem key text) := by
      simp [Storage.saveToStorageTry, hs, Storage.setItem, hd, hq]
    have hsave : (Storage.saveToStorage json env store key value).2 =
        store.withItem key text := by
      unfold Storage.saveToStorage
      rw [htry]
    exact ⟨hsave, by rw [hsave]; exact Storage.lookupItem_withItem store key text⟩
  · unfold Storage.getFromStorage
    cases Storage.getFromStorageTry json env store key defaultValue with
    | error e => exact ⟨_, rfl⟩
    | ok v => exact ⟨_, rfl⟩
  · intro h
    simp [Storage.getFromStorage, Storage.getFromStorageTry, h, truthy]
  · intro text e h hp
    unfold Storage.getFromStorage Storage.getFromStorageTry
    rw [h]
    cases text with
    | nil => simp [truthy]
    | cons c cs => simp [truthy, hp]
  · intro text v h hp
    unfold Storage.getFromStorage Storage.getFromStorageTry
    rw [h]
    cases text with
    | nil => exact absurd hp (hjson v)
    | cons c cs => simp [truthy, hp]
  · intro e h
    simp [Storage.getFromStorage, Storage.getFromStorageTry, h]

/-- Witness for C23: a store that refuses the write of `true` under the key `k`, and a read of
the key, which holds the text `false`. -/
theorem storage_helpers_absorb_failures_witness :
    (∀ v, boolJson.parse [] ≠ Except.ok v) ∧
      (∃ e, Storage.saveToStorageTry boolJson fullStorage [("k".toList, "false".toList)]
        "k".toList true = Except.error e) ∧
      (Storage.saveToStorage boolJson fullStorage [("k".toList, "false".toList)]
        "k".toList true).2 = [("k".toList, "false".toList)] ∧
      Storage.getFromStorage boolJson fullStorage [("k".toList, "false".toList)] "k".toList
        true = Except.ok false :=
  have hjson : ∀ v, boolJson.parse [] ≠ Except.ok v := by
    intro v
    cases v <;> decide
  have hfail : ∃ e, Storage.saveToStorageTry boolJson fullStorage
      [("k".toList, "false".toList)] "k".toList true = Except.error e := ⟨_, rfl⟩
  have h := storage_helpers_absorb_failures boolJson fullStorage
    [("k".toList, "false".toList)] "k".toList true true hjson
  ⟨hjson, hfail, h.2.1 hfail, h.2.2.2.2.2.2.1 "false".toList false rfl rfl⟩

/-- C30: `toggleFavorite(x)` flips the membership of `x` and of no other name: afterwards
`x` is in the list if and only if it was not, every other name is in the list if and only
if it was, the other names keep their order, and a list without duplicates stays so. The new
list is the value that `saveFavorites` hands to `saveToStorage` under the favourites key:
when its serialisation and the write succeed, the key holds the serialised new list. -/
theorem toggleFavorite_flips_membership (json : Storage.Json (List Str))
    (env : Storage.StorageEnv) (favorites : List Str) (store : Storage.Store) (x : Str) :
    (x ∈ (FontManagement.toggleFavorite json env favorites store x).1 ↔ x ∉ favorites) ∧
      (∀ y, y ≠ x →
        (y ∈ (FontManagement.toggleFavorite json env favorites store x).1 ↔ y ∈ favorites)) ∧
      (FontManagement.toggleFavorite json env favorites store x).1.filter (fun y => y != x) =
        favorites.filter (fun y => y != x) ∧
      (favorites.Nodup → (FontManagement.toggleFavorite json env favorites store x).1.Nodup) ∧
      (FontManagement.toggleFavorite json env favorites store x).2 =
        (Storage.saveToStorage json env store FontManagement.FAVORITES
          (FontManagement.toggleFavorite json env favorites store x).1).2 ∧
      (∀ text,
        json.stringify (FontManagement.toggleFavorite json env favorites store x).1 =
          Except.ok (some text) →
        env.denied = none → env.quota store FontManagement.FAVORITES text = none →
        Storage.Store.lookupItem (FontManagement.toggleFavorite json env favorites store x).2
          FontManagement.FAVORITES = some text) := by
  have hlist : (FontManagement.toggleFavorite json env favorites store x).1 =
      if x ∈ favorites then favorites.filter (fun y => y != x) else favorites ++ [x] := by
    simp [FontManagement.toggleFavorite]
  refine ⟨?_, ?_, ?_, ?_, rfl, ?_⟩
  · rw [hlist]
    by_cases hx : x ∈ favorites <;> simp [hx, List.mem_filter]
  · intro y hy
    rw [hlist]
    by_cases hx : x ∈ favorites <;> simp [hx, List.mem_filter, hy]
  · rw [hlist]
    by_cases hx : x ∈ favorites
    · simp [hx, List.filter_filter]
    · simp [hx, List.filter_append]
  · intro hnd
    rw [hlist]
    by_cases hx : x ∈ favorites
    · simp only [hx, if_true]
      exact hnd.filter _
    · simp only [hx, if_false]
      exact List.Nodup.append hnd (List.nodup_singleton x) (by simpa using hx)
  · intro text hs hd hq
    have hsave : Storage.saveToStorageTry json env store FontManagement.FAVORITES
        (FontManagement.toggleFavorite json env favorites store x).1 =
        Except.ok (store.withItem FontManagement.FAVORITES text) := by
      simp [Storage.saveToStorageTry, hs, Storage.setItem, hd, hq]
    have h2 : (FontManagement.toggleFavorite json env favorites store x).2 =
        store.withItem FontManagement.FAVORITES text := by
      show (Storage.saveToStorage json env store FontManagement.FAVORITES
        (FontManagement.toggleFavorite json env favorites store x).1).2 = _
      unfold Storage.saveToStorage
      rw [hsave]
    rw [h2]
    exact Storage.lookupItem_withItem store _ text

/-- Witness for C30: `B` is removed from the favourites `A`, `B`, `C`, and `D` is added. -/
theorem toggleFavorite_flips_membership_witness :
    ["A".toList, "B".toList, "C".toList].Nodup ∧
      (FontManagement.toggleFavorite namesJson openStorage
        ["A".toList, "B".toList, "C".toList] [] "B".toList).1 = ["A".toList, "C".toList] ∧
      (FontManagement.toggleFavorite namesJson openStorage
        ["A".toList, "B".toList, "C".toList] [] "D".toList).1 =
        ["A".toList, "B".toList, "C".toList, "D".toList] ∧
      (FontManagement.toggleFavorite namesJson openStorage
        ["A".toList, "B".toList, "C".toList] [] "B".toList).1.Nodup ∧
      Storage.Store.lookupItem (FontManagement.toggleFavorite namesJson openStorage
        ["A".toList, "B".toList, "C".toList] [] "B".toList).2 FontManagement.FAVORITES =
        some "A,C".toList :=
  have h := toggleFavorite_flips_membership namesJson openStorage
    ["A".toList, "B".toList, "C".toList] [] "B".toList
  ⟨by decide, by decide, by decide, h.2.2.2.1 (by decide),
    h.2.2.2.2.2 "A,C".toList (by decide) rfl rfl⟩

/-! ## The global changelog, cleared and refilled in place -/

namespace UpdateUtils

theorem foldl_push_global (items base : List ReleaseEntry) (rest : Heap) :
    items.foldl (fun h item => Heap.write h 0 (Heap.read h 0 ++ [item])) (base :: rest) =
      (base ++ items) :: rest := by
  induction items generalizing base with
  | nil => simp
  | cons x xs ih =>
    rw [List.foldl_cons]
    have h1 : Heap.write (base :: rest) 0 (Heap.read (base :: rest) 0 ++ [x]) =
        (base ++ [x]) :: rest := rfl
    rw [h1, ih]
    simp

theorem updateChangelogData_linkedScope_other (history : List ReleaseEntry) (heap : Heap)
    (r : Nat) :
    updateChangelogData linkedScope (history :: heap) (ChangelogArg.array (r + 1)) =
      Except.ok (heap.getD r [] :: heap) := by
  have hread : Heap.read (Heap.write (history :: heap) 0 []) (r + 1) = heap.getD r [] := rfl
  have hwrite : Heap.write (history :: heap) 0 [] = [] :: heap := rfl
  simp only [updateChangelogData, linkedScope, resolve, hread]
  split_ifs with hlen
  · rw [hwrite, foldl_push_global]
    rfl
  · have hnil : heap.getD r [] = [] := by
      cases hx : heap.getD r [] with
      | nil => rfl
      | cons a as => rw [hx] at hlen; simp at hlen
    rw [hwrite, hnil]

theorem updateChangelogData_linkedScope_self (history : List ReleaseEntry) (heap : Heap) :
    updateChangelogData linkedScope (history :: heap) (ChangelogArg.array 0) =
      Except.ok ([] :: heap) := by
  simp [updateChangelogData, linkedScope, resolve, Heap.write, Heap.read]

end UpdateUtils

/-- C21: `updateChangelogData` reads `CHANGELOG`, which `updateUtils.js` does not import, so
as the file is written every call throws a `ReferenceError`. With `CHANGELOG` bound to the
array of `constants/index.js` (reference `0`, the array `VERSION_HISTORY`): for an argument
that is another array, the global array ends with the elements of the argument, in order,
and the argument keeps them; for an argument that is not an array it ends empty; but for the
global array itself the call ends with the array empty, whatever it held, because the array
is cleared before it is read. So does the production branch of
`fetchChangelogFromUpdatePackage` after a successful re-import: it returns the array
`VERSION_HISTORY`, emptied. -/
theorem updateChangelogData_clears_aliased_argument (history : List ReleaseEntry)
    (heap : UpdateUtils.Heap) (r : Nat) (rt : Runtime) (env : UpdateUtils.ChangelogEnv)
    (hprod : env.isProduction = true)
    (himport : env.importVersionModule = Except.ok (some 0)) :
    (∀ (h : UpdateUtils.Heap) (c : UpdateUtils.ChangelogArg),
        UpdateUtils.updateChangelogData UpdateUtils.moduleScope h c =
          Except.error (JSError.referenceError "CHANGELOG")) ∧
      (∃ heap2,
        UpdateUtils.updateChangelogData UpdateUtils.linkedScope (history :: heap)
            (UpdateUtils.ChangelogArg.array (r + 1)) = Except.ok heap2 ∧
          UpdateUtils.Heap.read heap2 0 = UpdateUtils.Heap.read (history :: heap) (r + 1) ∧
          UpdateUtils.Heap.read heap2 (r + 1) =
            UpdateUtils.Heap.read (history :: heap) (r + 1)) ∧
      (∃ heap2,
        UpdateUtils.updateChangelogData UpdateUtils.linkedScope (history :: heap)
            UpdateUtils.ChangelogArg.notArray = Except.ok heap2 ∧
          UpdateUtils.Heap.read heap2 0 = []) ∧
      (∃ heap2,
        UpdateUtils.updateChangelogData UpdateUtils.linkedScope (history :: heap)
            (UpdateUtils.ChangelogArg.array 0) = Except.ok heap2 ∧
          UpdateUtils.Heap.read heap2 0 = []) ∧
      (∃ heap2,
        UpdateUtils.fetchChangelogFromUpdatePackage UpdateUtils.linkedScope rt env
            (history :: heap) = (Except.ok 0, heap2) ∧
          UpdateUtils.Heap.read heap2 0 = []) := by
  refine ⟨fun _ _ => rfl, ⟨_, UpdateUtils.updateChangelogData_linkedScope_other history heap r,
    rfl, rfl⟩, ⟨[] :: heap, rfl, rfl⟩,
    ⟨_, UpdateUtils.updateChangelogData_linkedScope_self history heap, rfl⟩, ?_⟩
  refine ⟨[] :: heap, ?_, rfl⟩
  simp [UpdateUtils.fetchChangelogFromUpdatePackage, UpdateUtils.fetchChangelogTry, hprod,
    UpdateUtils.reimportBlock, himport, UpdateUtils.updateChangelogData_linkedScope_self]

/-- Witness for C21: the re-import succeeds while the global array holds the scenario
history. -/
theorem updateChangelogData_clears_aliased_argument_witness :
    ({ failingEnv with importVersionModule := Except.ok (some 0) } :
        UpdateUtils.ChangelogEnv).isProduction = true ∧
      ({ failingEnv with importVersionModule := Except.ok (some 0) } :
        UpdateUtils.ChangelogEnv).importVersionModule = Except.ok (some 0) ∧
      scenarioHistory ≠ [] ∧
      ∃ heap2,
        UpdateUtils.fetchChangelogFromUpdatePackage UpdateUtils.linkedScope sampleRuntime
            { failingEnv with importVersionModule := Except.ok (some 0) }
            [scenarioHistory] = (Except.ok 0, heap2) ∧
          UpdateUtils.Heap.read heap2 0 = [] :=
  ⟨rfl, rfl, by decide,
    (updateChangelogData_clears_aliased_argument scenarioHistory [] 0 sampleRuntime
      { failingEnv with importVersionModule := Except.ok (some 0) } rfl rfl).2.2.2.2⟩

/-- C26: in the production branch with an available update, `fetchLatestVersion` calls
`formatVersion(serverVersion)` without options, which returns its argument unchanged: with
the identifiers bound, the returned version is the manifest version as it is, so a manifest
version without the prefix `v` (such as `1.1.0`) is returned without it, against the comment
on the call. As the file is written, `formatVersion` is not imported and the call is
rejected. -/
theorem fetchLatestVersion_returns_manifest_version (manifestVersion c : Str) :
    UpdateUtils.fetchLatestVersion UpdateUtils.linkedScope
        { isProduction := true
          checkUpdate := Except.ok (true, some { version := manifestVersion }) } c =
      Except.ok
        { version := manifestVersion
          hasUpdate := decide (UpdateUtils.compareVersions manifestVersion c > 0)
          currentVersion := c } ∧
    UpdateUtils.fetchLatestVersion UpdateUtils.linkedScope
        { isProduction := true
          checkUpdate := Except.ok (true, some { version := "1.1.0".toList }) }
        "v1.0.1".toList =
      Except.ok
        { version := "1.1.0".toList, hasUpdate := true, currentVersion := "v1.0.1".toList } ∧
    startsWith "1.1.0".toList "v".toList = false ∧
    UpdateUtils.fetchLatestVersion UpdateUtils.moduleScope
        { isProduction := true
          checkUpdate := Except.ok (true, some { version := manifestVersion }) } c =
      Except.error (JSError.referenceError "CURRENT_VERSION") := by
  refine ⟨?_, by decide!, by decide, rfl⟩
  simp [UpdateUtils.fetchLatestVersion, UpdateUtils.fetchLatestVersionTry,
    UpdateUtils.linkedScope, UpdateUtils.resolve, Version.formatVersion]

/-! ## The segment-wise comparator is a total preorder on the well-formed versions -/

namespace VersionRelease

theorem getD_ne_nan (pa : List JSNumber) (ha : ∀ x ∈ pa, x ≠ JSNumber.nan) (i : Nat) :
    pa.getD i JSNumber.zero ≠ JSNumber.nan := by
  rw [List.getD_eq_getElem?_getD]
  cases h : pa[i]? with
  | none => simp [JSNumber.zero]
  | some x =>
    obtain ⟨hlt, hx⟩ := List.getElem?_eq_some_iff.mp h
    rw [Option.getD_some, ← hx]
    exact ha _ (List.getElem_mem hlt)

theorem compareLoop_sound (pa pb : List JSNumber) (ha : ∀ x ∈ pa, x ≠ JSNumber.nan)
    (hb : ∀ x ∈ pb, x ≠ JSNumber.nan) :
    ∀ n i,
      (compareLoop pa pb n i = 0 →
        ∀ k, k < n → pa.getD (i + k) JSNumber.zero = pb.getD (i + k) JSNumber.zero) ∧
      (compareLoop pa pb n i = -1 →
        ∃ k, (∀ j, j < k → pa.getD (i + j) JSNumber.zero = pb.getD (i + j) JSNumber.zero) ∧
          JSNumber.lt (pa.getD (i + k) JSNumber.zero) (pb.getD (i + k) JSNumber.zero) = true) ∧
      (compareLoop pa pb n i = 1 →
        ∃ k, (∀ j, j < k → pa.getD (i + j) JSNumber.zero = pb.getD (i + j) JSNumber.zero) ∧
          JSNumber.lt (pb.getD (i + k) JSNumber.zero) (pa.getD (i + k) JSNumber.zero) = true) := by
  intro n
  induction n with
  | zero =>
    intro i
    refine ⟨fun _ k hk => absurd hk (Nat.not_lt_zero k), fun h => ?_, fun h => ?_⟩ <;>
      simp [compareLoop] at h
  | succ n ih =>
    intro i
    rw [compareLoop_succ]
    by_cases hgt : JSNumber.gt (pa.getD i JSNumber.zero) (pb.getD i JSNumber.zero) = true
    · simp only [hgt, if_true]
      refine ⟨fun h => absurd h (by decide), fun h => absurd h (by decide), fun _ => ?_⟩
      exact ⟨0, fun j hj => absurd hj (Nat.not_lt_zero j), by simpa [JSNumber.gt] using hgt⟩
    · by_cases hlt : JSNumber.lt (pa.getD i JSNumber.zero) (pb.getD i JSNumber.zero) = true
      · simp only [hgt, hlt, if_true, if_false, Bool.false_eq_true]
        refine ⟨fun h => absurd h (by decide), fun _ => ?_, fun h => absurd h (by decide)⟩
        exact ⟨0, fun j hj => absurd hj (Nat.not_lt_zero j), by simpa using hlt⟩
      · simp only [hgt, hlt, if_false, Bool.false_eq_true]
        have heq : pa.getD i JSNumber.zero = pb.getD i JSNumber.zero := by
          by_contra hne
          rcases JSNumber.lt_or_gt_of_ne (getD_ne_nan pa ha i) (getD_ne_nan pb hb i) hne with
            h | h
          · exact hlt h
          · exact hgt (by simpa [JSNumber.gt] using h)
        obtain ⟨h0, hneg, hpos⟩ := ih (i + 1)
        have shift : ∀ k, i + 1 + k = i + (k + 1) := fun k => by omega
        refine ⟨fun h k hk => ?_, fun h => ?_, fun h => ?_⟩
        · cases k with
          | zero => simpa using heq
          | succ k =>
            have := h0 h k (by omega)
            rwa [shift] at this
        · obtain ⟨k, hk1, hk2⟩ := hneg h
          refine ⟨k + 1, fun j hj => ?_, by rwa [shift] at hk2⟩
          cases j with
          | zero => simpa using heq
          | succ j =>
            have := hk1 j (by omega)
            rwa [shift] at this
        · obtain ⟨k, hk1, hk2⟩ := hpos h
          refine ⟨k + 1, fun j hj => ?_, by rwa [shift] at hk2⟩
          cases j with
          | zero => simpa using heq
          | succ j =>
            have := hk1 j (by omega)
            rwa [shift] at this

theorem rank_lt_of_lt {x y : JSNumber} (h : JSNumber.lt x y = true) :
    JSNumber.rank x < JSNumber.rank y := by
  cases x with
  | nan => simp [JSNumber.lt] at h
  | negInf =>
    cases y with
    | nan => simp [JSNumber.lt] at h
    | negInf => simp [JSNumber.lt] at h
    | fin b => exact WithBot.bot_lt_coe _
    | posInf => exact WithBot.bot_lt_coe _
  | posInf => cases y <;> simp [JSNumber.lt] at h
  | fin a =>
    cases y with
    | nan => simp [JSNumber.lt] at h
    | negInf => simp [JSNumber.lt] at h
    | fin b =>
      have hab : a < b := by simpa [JSNumber.lt] using h
      exact WithBot.coe_lt_coe.mpr (WithTop.coe_lt_coe.mpr hab)
    | posInf => exact WithBot.coe_lt_coe.mpr (WithTop.coe_lt_top a)

theorem versionKey_lt {a b : Str} (k : Nat)
    (heq : ∀ j, j < k → componentAt a j = componentAt b j)
    (hlt : JSNumber.lt (componentAt a k) (componentAt b k) = true) :
    toLex (versionKey a) < toLex (versionKey b) := by
  refine ⟨k, fun j hj => ?_, rank_lt_of_lt hlt⟩
  show JSNumber.rank (componentAt a j) = JSNumber.rank (componentAt b j)
  rw [heq j hj]

/-- On well-formed versions the comparator answers `-1` or `0` exactly when the key of the
left version is at most the key of the right one in the lexicographic order. -/
theorem compareVersions_le_iff {a b : Str} (ha : isDottedNumeric a = true)
    (hb : isDottedNumeric b = true) :
    compareVersions a b ≤ 0 ↔ toLex (versionKey a) ≤ toLex (versionKey b) := by
  have hane := isDottedNumeric_ne_nil ha
  have hbne := isDottedNumeric_ne_nil hb
  have hpa : ∀ x ∈ (split '.' a).map Number, x ≠ JSNumber.nan := by
    rw [map_Number_of_isDottedNumeric ha]
    exact numericComponents_ne_nan a
  have hpb : ∀ x ∈ (split '.' b).map Number, x ≠ JSNumber.nan := by
    rw [map_Number_of_isDottedNumeric hb]
    exact numericComponents_ne_nan b
  have hcmp : compareVersions a b = compareLoop ((split '.' a).map Number)
      ((split '.' b).map Number)
      (max ((split '.' a).map Number).length ((split '.' b).map Number).length) 0 := by
    simp [compareVersions, hane, hbne]
  obtain ⟨h0, hneg, hpos⟩ := compareLoop_sound _ _ hpa hpb
    (max ((split '.' a).map Number).length ((split '.' b).map Number).length) 0
  rw [← hcmp] at h0 hneg hpos
  simp only [Nat.zero_add] at h0 hneg hpos
  rcases compareLoop_range ((split '.' a).map Number) ((split '.' b).map Number)
    (max ((split '.' a).map Number).length ((split '.' b).map Number).length) 0 with h | h | h
  · rw [← hcmp] at h
    obtain ⟨k, hk1, hk2⟩ := hneg h
    rw [h]
    exact ⟨fun _ => le_of_lt (versionKey_lt k hk1 hk2), fun _ => by decide⟩
  · rw [← hcmp] at h
    rw [h]
    refine ⟨fun _ => le_of_eq ?_, fun _ => le_refl _⟩
    congr 1
    funext i
    show JSNumber.rank (componentAt a i) = JSNumber.rank (componentAt b i)
    congr 1
    by_cases hi : i < max ((split '.' a).map Number).length ((split '.' b).map Number).length
    · exact h0 h i hi
    · have h1 : ((split '.' a).map Number).length ≤ i := by omega
      have h2 : ((split '.' b).map Number).length ≤ i := by omega
      unfold componentAt
      rw [List.getD_eq_default _ _ h1, List.getD_eq_default _ _ h2]
  · rw [← hcmp] at h
    obtain ⟨k, hk1, hk2⟩ := hpos h
    rw [h]
    have hlt : toLex (versionKey b) < toLex (versionKey a) :=
      versionKey_lt k (fun j hj => (hk1 j hj).symm) hk2
    exact ⟨fun h1 => absurd h1 (by decide), fun h1 => absurd hlt (not_lt.mpr h1)⟩

theorem foldl_select_max (versions : List Str)
    (hall : ∀ v ∈ versions, isDottedNumeric v = true) :
    ∀ current : Str, isDottedNumeric current = true →
      (versions.foldl
          (fun currentVersion version =>
            if compareVersions version currentVersion > 0 then version else currentVersion)
          current ∈ current :: versions) ∧
        ∀ v ∈ current :: versions,
          toLex (versionKey v) ≤ toLex (versionKey (versions.foldl
            (fun currentVersion version =>
              if compareVersions version currentVersion > 0 then version else currentVersion)
            current)) := by
  induction versions with
  | nil =>
    intro current _
    simp
  | cons x xs ih =>
    intro current hc
    have hx := hall x (by simp)
    have hxs : ∀ v ∈ xs, isDottedNumeric v = true := fun v hv => hall v (by simp [hv])
    rw [List.foldl_cons]
    by_cases hgt : compareVersions x current > 0
    · rw [if_pos hgt]
      obtain ⟨hmem, hmax⟩ := ih hxs x hx
      have hcx : toLex (versionKey current) ≤ toLex (versionKey x) := by
        by_contra hn
        have hle : compareVersions x current ≤ 0 :=
          (compareVersions_le_iff hx hc).mpr (le_of_lt (not_le.mp hn))
        omega
      refine ⟨?_, ?_⟩
      · rcases List.mem_cons.mp hmem with h | h
        · rw [h]; simp
        · simp [h]
      · intro v hv
        rcases List.mem_cons.mp hv with h | h
        · rw [h]
          exact le_trans hcx (hmax x (by simp))
        · exact hmax v h
    · rw [if_neg hgt]
      obtain ⟨hmem, hmax⟩ := ih hxs current hc
      have hxc : toLex (versionKey x) ≤ toLex (versionKey current) :=
        (compareVersions_le_iff hx hc).mp (by omega)
      refine ⟨?_, ?_⟩
      · rcases List.mem_cons.mp hmem with h | h
        · rw [h]; simp
        · simp [h]
      · intro v hv
        rcases List.mem_cons.mp hv with h | h
        · rw [h]
          exact hmax current (by simp)
        · rcases List.mem_cons.mp h with h1 | h1
          · rw [h1]
            exact le_trans hxc (hmax current (by simp))
          · exact hmax v (by simp [h1])

end VersionRelease

/-- C25: for every non-empty list of well-formed dotted-numeric versions, the loop of the
release script selects a base that is a member of the list and that no version of the list
exceeds: `compareVersions(v, base)` is `0` or `-1` for every `v` of the list. Three
well-formed versions read from the three files all pass the filter and form such a list. -/
theorem selectBase_is_highest (versions : List Str) (hne : versions ≠ [])
    (hall : ∀ v ∈ versions, isDottedNumeric v = true) :
    (∃ base, VersionRelease.selectBase versions = some base ∧ base ∈ versions ∧
        ∀ v ∈ versions, VersionRelease.compareVersions v base ≤ 0) ∧
      ∀ p t c : Str, isDottedNumeric p = true → isDottedNumeric t = true →
        isDottedNumeric c = true → VersionRelease.candidateVersions p t c = [p, t, c] := by
  constructor
  · cases versions with
    | nil => exact absurd rfl hne
    | cons first rest =>
      have hfirst := hall first (by simp)
      obtain ⟨hmem, hmax⟩ := VersionRelease.foldl_select_max (first :: rest) hall first hfirst
      refine ⟨_, rfl, ?_, ?_⟩
      · rcases List.mem_cons.mp hmem with h | h
        · rw [h]; simp
        · exact h
      · intro v hv
        have hb : isDottedNumeric ((first :: rest).foldl
            (fun currentVersion version =>
              if VersionRelease.compareVersions version currentVersion > 0 then version
              else currentVersion) first) = true := by
          rcases List.mem_cons.mp hmem with h | h
          · rw [h]; exact hfirst
          · exact hall _ h
        exact (VersionRelease.compareVersions_le_iff (hall v hv) hb).mpr
          (hmax v (List.mem_cons_of_mem _ hv))
  · intro p t c hp ht hc
    have hne : ∀ v : Str, isDottedNumeric v = true → (v != "unknown".toList) = true := by
      intro v hv
      rw [bne_iff_ne]
      rintro rfl
      exact absurd hv (by decide)
    simp only [VersionRelease.candidateVersions, List.filter_cons, hne p hp, hne t ht,
      hne c hc, if_true, List.filter_nil]

/-- Witness for C25: the versions `1.0.9`, `1.0.10` and `1.0.2`, of which `1.0.10` is
selected. -/
theorem selectBase_is_highest_witness :
    ["1.0.9".toList, "1.0.10".toList, "1.0.2".toList] ≠ [] ∧
      (∀ v ∈ ["1.0.9".toList, "1.0.10".toList, "1.0.2".toList], isDottedNumeric v = true) ∧
      VersionRelease.selectBase ["1.0.9".toList, "1.0.10".toList, "1.0.2".toList] =
        some "1.0.10".toList ∧
      ∃ base, VersionRelease.selectBase ["1.0.9".toList, "1.0.10".toList, "1.0.2".toList] =
          some base ∧ base ∈ ["1.0.9".toList, "1.0.10".toList, "1.0.2".toList] ∧
        ∀ v ∈ ["1.0.9".toList, "1.0.10".toList, "1.0.2".toList],
          VersionRelease.compareVersions v base ≤ 0 :=
  ⟨by decide, by decide, by decide!,
    (selectBase_is_highest ["1.0.9".toList, "1.0.10".toList, "1.0.2".toList] (by decide)
      (by decide)).1⟩

/-! ## The two comparators on versions of equal widths -/

namespace VersionRelease

theorem removeDots_eq_flatten (a : Str) : removeDots a = (split '.' a).flatten := by
  induction a with
  | nil => rfl
  | cons c cs ih =>
    by_cases hc : c = '.'
    · subst hc
      have e : split '.' ('.' :: cs) = [] :: split '.' cs := by simp [split]
      rw [e, List.flatten_cons, List.nil_append, ← ih]
      simp [removeDots]
    · obtain ⟨p, ps, hps⟩ := List.exists_cons_of_ne_nil (split_ne_nil '.' cs)
      have e : split '.' (c :: cs) = (c :: p) :: ps := by simp [split, hc, hps]
      have e2 : removeDots (c :: cs) = c :: removeDots cs := by
        simp [removeDots, List.filter_cons, hc]
      rw [e, e2, ih, hps]
      rfl

theorem natOfDigits_foldl (ds : Str) :
    ∀ n : Nat, ds.foldl (fun n c => 10 * n + (digitValue 10 c).getD 0) n =
      n * 10 ^ ds.length + natOfDigits 10 ds := by
  induction ds with
  | nil => intro n; simp [natOfDigits]
  | cons c cs ih =>
    intro n
    have h0 := ih (10 * 0 + (digitValue 10 c).getD 0)
    have hn := ih (10 * n + (digitValue 10 c).getD 0)
    simp only [List.foldl_cons, natOfDigits, List.length_cons] at h0 hn ⊢
    rw [hn, h0]
    ring

theorem natOfDigits_append (x y : Str) :
    natOfDigits 10 (x ++ y) = natOfDigits 10 x * 10 ^ y.length + natOfDigits 10 y := by
  unfold natOfDigits
  rw [List.foldl_append]
  exact natOfDigits_foldl y _

theorem bounded_digit (v : Option Nat) (d : Nat)
    (h : (match v with
      | some d => if d < 10 then some d else none
      | none => none) = some d) : d < 10 := by
  cases v with
  | none => simp at h
  | some x =>
    simp only [] at h
    split_ifs at h with hx
    cases h
    exact hx

theorem digitValue_lt (c : Char) : (digitValue 10 c).getD 0 < 10 := by
  cases h : digitValue 10 c with
  | none => simp
  | some d =>
    rw [Option.getD_some]
    exact bounded_digit _ d h

theorem natOfDigits_lt (ds : Str) : natOfDigits 10 ds < 10 ^ ds.length := by
  induction ds using List.reverseRecOn with
  | nil => simp [natOfDigits]
  | append_singleton xs c ih =>
    rw [natOfDigits_append, List.length_append, List.length_singleton, pow_succ]
    have hc : natOfDigits 10 [c] < 10 := by
      simpa [natOfDigits] using digitValue_lt c
    omega

theorem isRadixDigit_of_isDigit {c : Char} (h : isDigit c = true) :
    isRadixDigit 10 c = true := by
  rw [isDigit_iff] at h
  have h1 : (48 ≤ c.toNat && c.toNat ≤ 57) = true := by simp [h.1, h.2]
  have h2 : c.toNat - 48 < 10 := by omega
  simp [isRadixDigit, digitValue, h1, h2]

/-- On a non-empty run of decimal digits `parseInt` is the binary64 rounding of the integer
the digits write. -/
theorem parseInt_of_digits {z : Str} (hne : z ≠ []) (h : z.all isDigit = true) :
    parseInt z = roundBinary64 (natOfDigits 10 z) 1 := by
  cases z with
  | nil => exact absurd rfl hne
  | cons c cs =>
    have hall := List.all_eq_true.mp h
    have hc : isDigit c = true := hall c (by simp)
    have hcd := (isDigit_iff c).mp hc
    have hsp : isSpace c = false := isDigit_not_isSpace hc
    have ht : trimStart (c :: cs) = c :: cs := dropWhile_of_head hsp
    have hplus : c ≠ '+' := by rintro rfl; revert hcd; decide
    have hminus : c ≠ '-' := by rintro rfl; revert hcd; decide
    have hstrip : stripSign (c :: cs) = c :: cs := by
      unfold stripSign
      split
      · rename_i r heq
        exact absurd (List.cons.inj heq).1 hplus
      · rename_i r heq
        exact absurd (List.cons.inj heq).1 hminus
      · rfl
    have hsign : hasMinusSign (c :: cs) = false := by
      unfold hasMinusSign
      split
      · rename_i r heq
        exact absurd (List.cons.inj heq).1 hminus
      · rfl
    have hhex : (match c :: cs with
        | '0' :: x :: _ => decide (x = 'x' ∨ x = 'X')
        | _ => false) = false := by
      split
      · rename_i x r heq
        have hx : isDigit x = true := by
          have hmem : x ∈ c :: cs := by rw [heq]; simp
          exact hall x hmem
        rw [isDigit_iff] at hx
        have e1 : x ≠ 'x' := by rintro rfl; revert hx; decide
        have e2 : x ≠ 'X' := by rintro rfl; revert hx; decide
        simp [e1, e2]
      · rfl
    have htake : (c :: cs).takeWhile (isRadixDigit 10) = c :: cs :=
      takeWhile_of_all (List.all_eq_true.mpr (fun x hx => isRadixDigit_of_isDigit (hall x hx)))
    unfold parseInt
    simp only [ht, hstrip, hsign]
    split
    · rename_i heq
      exact absurd (hhex.symm.trans heq) (by decide)
    · simp [htake]

theorem ofNat_lt_iff (m n : Nat) :
    JSNumber.lt (JSNumber.ofNat m) (JSNumber.ofNat n) = decide (m < n) := by
  have hpos : (0 : Int) < 2 ^ 1074 := by positivity
  simp only [JSNumber.ofNat, JSNumber.lt]
  rw [decide_eq_decide, mul_lt_mul_right hpos]
  exact Nat.cast_lt

theorem ofNat_injective {m n : Nat} (h : JSNumber.ofNat m = JSNumber.ofNat n) : m = n := by
  have h1 := ofNat_lt_iff m n
  have h2 := ofNat_lt_iff n m
  rw [h, JSNumber.lt_irrefl] at h1
  rw [h, JSNumber.lt_irrefl] at h2
  have a1 : ¬ m < n := by simpa using h1.symm
  have a2 : ¬ n < m := by simpa using h2.symm
  omega

theorem cmp_combine (nx ny ra rb P : Nat) (ha : ra < P) (hb : rb < P) (r : Int)
    (hr : r = if rb < ra then 1 else if ra < rb then -1 else 0) :
    (if nx = ny then r else if ny < nx then 1 else -1) =
      if ny * P + rb < nx * P + ra then (1 : Int)
      else if nx * P + ra < ny * P + rb then -1 else 0 := by
  subst hr
  by_cases hn : nx = ny
  · subst hn
    have e1 : (nx * P + rb < nx * P + ra) ↔ rb < ra := by omega
    have e2 : (nx * P + ra < nx * P + rb) ↔ ra < rb := by omega
    simp only [e1, e2, if_true]
  · rw [if_neg hn]
    rcases Nat.lt_or_gt_of_ne hn with hlt | hgt
    · have h1 : nx * P + ra < ny * P + rb := by nlinarith
      have h2 : ¬ ny < nx := by omega
      have h3 : ¬ (ny * P + rb < nx * P + ra) := by omega
      simp [h1, h2, h3]
    · have h1 : ny * P + rb < nx * P + ra := by nlinarith
      simp [h1, hgt]

theorem firstDifference_ofNat_cons (m n : Nat) (xs ys : List JSNumber) :
    firstDifference (JSNumber.ofNat m :: xs) (JSNumber.ofNat n :: ys) =
      if m = n then firstDifference xs ys else if n < m then 1 else -1 := by
  rw [firstDifference]
  by_cases hmn : m = n
  · subst hmn
    simp
  · have hne : JSNumber.ofNat m ≠ JSNumber.ofNat n := fun h => hmn (ofNat_injective h)
    rw [if_neg hne, if_neg hmn]
    simp only [JSNumber.gt, ofNat_lt_iff, decide_eq_true_eq]

/-- Segments of pairwise equal widths: the concatenated numerals compare as the lists of
their values do. -/
theorem firstDifference_of_equal_widths :
    ∀ sa sb : List Str, sa.map List.length = sb.map List.length →
      firstDifference (sa.map (fun seg => JSNumber.ofNat (natOfDigits 10 seg)))
          (sb.map (fun seg => JSNumber.ofNat (natOfDigits 10 seg))) =
        if natOfDigits 10 sb.flatten < natOfDigits 10 sa.flatten then 1
        else if natOfDigits 10 sa.flatten < natOfDigits 10 sb.flatten then -1 else 0 := by
  intro sa
  induction sa with
  | nil =>
    intro sb h
    cases sb with
    | nil => simp [firstDifference]
    | cons y ys => simp at h
  | cons x xs ih =>
    intro sb h
    cases sb with
    | nil => simp at h
    | cons y ys =>
      simp only [List.map_cons, List.cons.injEq] at h
      obtain ⟨hxy, hrest⟩ := h
      have hlen : xs.flatten.length = ys.flatten.length := by
        simp only [List.length_flatten]
        rw [hrest]
      have hA : natOfDigits 10 (x ++ xs.flatten) =
          natOfDigits 10 x * 10 ^ ys.flatten.length + natOfDigits 10 xs.flatten := by
        rw [natOfDigits_append, hlen]
      have hB := natOfDigits_append y ys.flatten
      have ha : natOfDigits 10 xs.flatten < 10 ^ ys.flatten.length := by
        rw [← hlen]
        exact natOfDigits_lt xs.flatten
      have hb := natOfDigits_lt ys.flatten
      rw [List.map_cons, List.map_cons, firstDifference_ofNat_cons, List.flatten_cons,
        List.flatten_cons, hA, hB]
      exact cmp_combine _ _ _ _ _ ha hb _ (ih ys hrest)

theorem padZeros_self (xs : List JSNumber) (n : Nat) (h : n ≤ xs.length) :
    padZeros n xs = xs := by
  simp [padZeros, Nat.sub_eq_zero_of_le h]

theorem segment_le_flatten (segs : List Str) :
    ∀ seg ∈ segs, natOfDigits 10 seg ≤ natOfDigits 10 segs.flatten := by
  induction segs with
  | nil => intro seg h; simp at h
  | cons x xs ih =>
    intro seg h
    rw [List.flatten_cons, natOfDigits_append]
    rcases List.mem_cons.mp h with rfl | h1
    · have hp : 0 < 10 ^ xs.flatten.length := by positivity
      nlinarith
    · have := ih seg h1
      omega

end VersionRelease

/-- C28: for un-prefixed dotted-numeric versions with the same number of components and
with corresponding components of the same number of digits, the digit-collapsing
`compareVersions` of `updateUtils.js` and the segment-wise `compareVersions` of
`version-release.mjs` return the same result. The integers are taken as exact: the two
collapsed numerals are below `2^53`, where `parseInt` and `Number` do not round. -/
theorem comparators_agree_on_equal_widths (a b : Str)
    (ha : isDottedNumeric a = true) (hb : isDottedNumeric b = true)
    (hw : (split '.' a).map List.length = (split '.' b).map List.length)
    (hea : natOfDigits 10 (removeDots a) < 2 ^ 53)
    (heb : natOfDigits 10 (removeDots b) < 2 ^ 53) :
    UpdateUtils.compareVersions a b = VersionRelease.compareVersions a b := by
  have hsegs : ∀ {v : Str}, isDottedNumeric v = true →
      ∀ seg ∈ split '.' v, seg ≠ [] ∧ seg.all isDigit = true := by
    intro v hv seg hseg
    simp only [isDottedNumeric, List.all_eq_true, Bool.and_eq_true, Bool.not_eq_true',
      List.isEmpty_eq_false] at hv
    exact ⟨(hv seg hseg).1, List.all_eq_true.mpr (hv seg hseg).2⟩
  have hdigits : ∀ {v : Str}, isDottedNumeric v = true →
      removeDots v ≠ [] ∧ (removeDots v).all isDigit = true := by
    intro v hv
    rw [VersionRelease.removeDots_eq_flatten]
    constructor
    · obtain ⟨p, ps, hps⟩ := List.exists_cons_of_ne_nil (split_ne_nil '.' v)
      have hp := (hsegs hv p (by rw [hps]; simp)).1
      rw [hps, List.flatten_cons]
      intro h
      exact hp (List.append_eq_nil.mp h).1
    · rw [List.all_eq_true]
      intro c hc
      obtain ⟨seg, hseg, hcs⟩ := List.mem_flatten.mp hc
      exact List.all_eq_true.mp (hsegs hv seg hseg).2 c hcs
  have hcollapse : ∀ {v : Str}, isDottedNumeric v = true →
      natOfDigits 10 (removeDots v) < 2 ^ 53 →
      UpdateUtils.parseVersionToNumber v = JSNumber.ofNat (natOfDigits 10 (removeDots v)) := by
    intro v hv hlt
    have hnov : removeFirst 'v' v = v := by
      have hchars : ∀ c ∈ v, c ≠ 'v' := by
        intro c hc hcv
        subst hcv
        have hmem : 'v' ∈ removeDots v := by
          simp only [removeDots, List.mem_filter]
          exact ⟨hc, by decide⟩
        have := List.all_eq_true.mp (hdigits hv).2 'v' hmem
        exact absurd this (by decide)
      clear hlt hv
      induction v with
      | nil => rfl
      | cons x xs ih =>
        have hx : x ≠ 'v' := hchars x (by simp)
        simp only [removeFirst, hx, if_false]
        rw [ih (fun c hc => hchars c (by simp [hc]))]
    unfold UpdateUtils.parseVersionToNumber
    rw [if_neg (VersionRelease.isDottedNumeric_ne_nil hv), hnov,
      VersionRelease.parseInt_of_digits (hdigits hv).1 (hdigits hv).2,
      roundBinary64_of_lt _ hlt]
  have hcomponents : ∀ {v : Str}, isDottedNumeric v = true →
      natOfDigits 10 (removeDots v) < 2 ^ 53 →
      numericComponents v =
        (split '.' v).map (fun seg => JSNumber.ofNat (natOfDigits 10 seg)) := by
    intro v hv hlt
    unfold numericComponents
    apply List.map_congr_left
    intro seg hseg
    apply roundBinary64_of_lt
    have := VersionRelease.segment_le_flatten (split '.' v) seg hseg
    rw [← VersionRelease.removeDots_eq_flatten] at this
    omega
  have hlen : (numericComponents a).length = (numericComponents b).length := by
    have := congrArg List.length hw
    simpa [numericComponents] using this
  have hrelease : VersionRelease.compareVersions a b =
      firstDifference (numericComponents a) (numericComponents b) := by
    unfold VersionRelease.compareVersions
    rw [if_neg (by
      simp [VersionRelease.isDottedNumeric_ne_nil ha, VersionRelease.isDottedNumeric_ne_nil hb])]
    simp only [VersionRelease.map_Number_of_isDottedNumeric ha,
      VersionRelease.map_Number_of_isDottedNumeric hb]
    rw [VersionRelease.compareLoop_eq_firstDifference _ _ _
      (VersionRelease.numericComponents_ne_nan a) (VersionRelease.numericComponents_ne_nan b)
      rfl, VersionRelease.padZeros_self _ _ (by rw [hlen]; simp),
      VersionRelease.padZeros_self _ _ (by rw [hlen]; simp)]
  rw [hrelease, hcomponents ha hea, hcomponents hb heb,
    VersionRelease.firstDifference_of_equal_widths _ _ hw,
    ← VersionRelease.removeDots_eq_flatten, ← VersionRelease.removeDots_eq_flatten]
  unfold UpdateUtils.compareVersions
  simp only [hcollapse ha hea, hcollapse hb heb, JSNumber.gt, VersionRelease.ofNat_lt_iff,
    decide_eq_true_eq]

/-- Witness for C28: `1.10.3` against `1.09.7`. -/
theorem comparators_agree_on_equal_widths_witness :
    isDottedNumeric "1.10.3".toList = true ∧ isDottedNumeric "1.09.7".toList = true ∧
      (split '.' "1.10.3".toList).map List.length =
        (split '.' "1.09.7".toList).map List.length ∧
      natOfDigits 10 (removeDots "1.10.3".toList) < 2 ^ 53 ∧
      natOfDigits 10 (removeDots "1.09.7".toList) < 2 ^ 53 ∧
      UpdateUtils.compareVersions "1.10.3".toList "1.09.7".toList =
        VersionRelease.compareVersions "1.10.3".toList "1.09.7".toList :=
  ⟨by decide, by decide, by decide, by decide!, by decide!,
    comparators_agree_on_equal_widths "1.10.3".toList "1.09.7".toList (by decide) (by decide)
      (by decide) (by decide!) (by decide!)⟩

/-! ## Exact arithmetic on the integers up to `2^53`, and decimal numerals -/

theorem roundHalfEven_mul_right (num den c : Nat) (hc : 0 < c) :
    roundHalfEven (num * c) (den * c) = roundHalfEven num den := by
  unfold roundHalfEven
  have hq : num * c / (den * c) = num / den := Nat.mul_div_mul_right num den hc
  have hr : num * c % (den * c) = (num % den) * c := Nat.mul_mod_mul_right _ _ _
  simp only [hq, hr]
  have e1 : 2 * (num % den * c) < den * c ↔ 2 * (num % den) < den := by
    rw [← Nat.mul_assoc]
    exact Nat.mul_lt_mul_right hc
  have e2 : den * c < 2 * (num % den * c) ↔ den < 2 * (num % den) := by
    rw [← Nat.mul_assoc]
    exact Nat.mul_lt_mul_right hc
  simp only [e1, e2]

theorem roundBinary64_mul_right (p q c : Nat) (hc : 0 < c) :
    roundBinary64 (p * c) (q * c) = roundBinary64 p q := by
  unfold roundBinary64
  have hk0 : p * c * 2 ^ 1074 / (q * c) = p * 2 ^ 1074 / q := by
    rw [Nat.mul_right_comm p c, Nat.mul_div_mul_right _ _ hc]
  simp only [hk0]
  have hround : ∀ j : Nat, roundHalfEven (p * c * 2 ^ 1074) (q * c * 2 ^ j) =
      roundHalfEven (p * 2 ^ 1074) (q * 2 ^ j) := by
    intro j
    rw [Nat.mul_right_comm p c, Nat.mul_right_comm q c, roundHalfEven_mul_right _ _ _ hc]
  simp only [hround]

theorem roundBinary64_of_le (n : Nat) (h : n ≤ 2 ^ 53) :
    roundBinary64 n 1 = JSNumber.ofNat n := by
  rcases Nat.lt_or_ge n (2 ^ 53) with hlt | hge
  · exact roundBinary64_of_lt n hlt
  · have hn : n = 2 ^ 53 := Nat.le_antisymm h hge
    subst hn
    decide!

theorem add_ofNat (m n : Nat) :
    JSNumber.add (JSNumber.ofNat m) (JSNumber.ofNat n) = roundBinary64 (m + n) 1 := by
  have hsum : ((m : Int) * 2 ^ 1074 + (n : Int) * 2 ^ 1074) =
      (((m + n) * 2 ^ 1074 : Nat) : Int) := by
    rw [Nat.cast_mul, Nat.cast_add, Nat.cast_pow, add_mul]
    rfl
  simp only [JSNumber.ofNat, JSNumber.add, roundSigned]
  rw [hsum, if_neg (by exact not_lt.mpr (Int.ofNat_nonneg _)), Int.toNat_ofNat]
  have h1 : roundBinary64 ((m + n) * 2 ^ 1074) (1 * 2 ^ 1074) = roundBinary64 (m + n) 1 :=
    roundBinary64_mul_right (m + n) 1 (2 ^ 1074) (by positivity)
  rw [Nat.one_mul] at h1
  exact h1

theorem numberToString_ofNat (n : Nat) (h : n ≤ 2 ^ 53) :
    numberToString (JSNumber.ofNat n) = some (decimalText n) := by
  have hcast : ((n : Int) * 2 ^ 1074) = (((n * 2 ^ 1074 : Nat)) : Int) := by
    rw [Nat.cast_mul, Nat.cast_pow]
    rfl
  have hmod : ((n * 2 ^ 1074 : Nat) : Int) % 2 ^ 1074 = 0 := by
    have : ((2 ^ 1074 : Nat) : Int) = 2 ^ 1074 := by
      rw [Nat.cast_pow]
      rfl
    rw [← this, ← Int.natCast_mod, Nat.mul_mod_left]
    rfl
  have hdiv : n * 2 ^ 1074 / 2 ^ 1074 = n := Nat.mul_div_cancel _ (by positivity)
  simp only [JSNumber.ofNat, numberToString]
  rw [hcast, Int.natAbs_ofNat, hdiv, if_pos ⟨hmod, h⟩,
    if_neg (by exact not_lt.mpr (Int.ofNat_nonneg _))]
  rfl

theorem digitValue_digitChar (d : Nat) (h : d < 10) :
    digitValue 10 (digitChar d) = some d ∧ isDigit (digitChar d) = true := by
  interval_cases d <;> exact ⟨by decide, by decide⟩

theorem decimalTextAux_spec :
    ∀ fuel n : Nat, n < fuel →
      natOfDigits 10 (decimalTextAux fuel n) = n ∧ decimalTextAux fuel n ≠ [] ∧
        (decimalTextAux fuel n).all isDigit = true := by
  intro fuel
  induction fuel with
  | zero => intro n h; exact absurd h (Nat.not_lt_zero n)
  | succ fuel ih =>
    intro n hn
    unfold decimalTextAux
    by_cases h10 : n < 10
    · rw [if_pos h10]
      obtain ⟨hv, hd⟩ := digitValue_digitChar n h10
      refine ⟨?_, by simp, by simp [hd]⟩
      simp [natOfDigits, hv]
    · rw [if_neg h10]
      have hlt : n / 10 < fuel := by omega
      obtain ⟨h1, h2, h3⟩ := ih (n / 10) hlt
      obtain ⟨hv, hd⟩ := digitValue_digitChar (n % 10) (Nat.mod_lt _ (by norm_num))
      refine ⟨?_, by simp, ?_⟩
      · rw [VersionRelease.natOfDigits_append, h1]
        have : natOfDigits 10 [digitChar (n % 10)] = n % 10 := by simp [natOfDigits, hv]
        rw [this]
        simp only [List.length_singleton, pow_one]
        omega
      · rw [List.all_append, h3]
        simp [hd]

theorem decimalText_spec (n : Nat) :
    natOfDigits 10 (decimalText n) = n ∧ decimalText n ≠ [] ∧
      (decimalText n).all isDigit = true :=
  decimalTextAux_spec (n + 1) n (Nat.lt_succ_self n)

theorem Number_decimalText (n : Nat) (h : n ≤ 2 ^ 53) :
    Number (decimalText n) = JSNumber.ofNat n := by
  obtain ⟨h1, h2, h3⟩ := decimalText_spec n
  rw [Number_of_digits h2 h3, h1, roundBinary64_of_le n h]

/-! ## The next version of the release script -/

namespace VersionRelease

theorem dot_not_mem_decimalText (n : Nat) : '.' ∉ decimalText n := by
  intro h
  have := List.all_eq_true.mp (decimalText_spec n).2.2 '.' h
  exact absurd this (by decide)

theorem split_three (a b c : Str) (ha : '.' ∉ a) (hb : '.' ∉ b) (hc : '.' ∉ c) :
    split '.' (a ++ ".".toList ++ b ++ ".".toList ++ c) = [a, b, c] := by
  have e : a ++ ".".toList ++ b ++ ".".toList ++ c = a ++ '.' :: (b ++ '.' :: c) := by
    simp
  rw [e, split_append_sep, split_append_sep, split_of_not_mem _ _ ha, split_of_not_mem _ _ hb,
    split_of_not_mem _ _ hc]
  rfl

theorem numberToString_zero : numberToString JSNumber.zero = some "0".toList := by
  decide!

theorem increment_ofNat (n : Nat) (h : n < 2 ^ 53) :
    increment (some (JSNumber.ofNat n)) = JSNumber.ofNat (n + 1) := by
  simp only [increment]
  rw [add_ofNat, roundBinary64_of_le (n + 1) (by omega)]

/-- The parts of a well-formed version of three components below `2^53`. -/
theorem parts_of_three {base sM sm sp : Str} (hbase : isDottedNumeric base = true)
    (hsplit : split '.' base = [sM, sm, sp])
    (hM : natOfDigits 10 sM < 2 ^ 53) (hm : natOfDigits 10 sm < 2 ^ 53)
    (hp : natOfDigits 10 sp < 2 ^ 53) :
    (split '.' base).map Number =
      [JSNumber.ofNat (natOfDigits 10 sM), JSNumber.ofNat (natOfDigits 10 sm),
        JSNumber.ofNat (natOfDigits 10 sp)] := by
  rw [map_Number_of_isDottedNumeric hbase]
  unfold numericComponents
  rw [hsplit]
  simp only [List.map_cons, List.map_nil, roundBinary64_of_lt _ hM, roundBinary64_of_lt _ hm,
    roundBinary64_of_lt _ hp]

theorem nextVersion_major {base sM sm sp : Str} (hbase : isDottedNumeric base = true)
    (hsplit : split '.' base = [sM, sm, sp])
    (hM : natOfDigits 10 sM < 2 ^ 53) (hm : natOfDigits 10 sm < 2 ^ 53)
    (hp : natOfDigits 10 sp < 2 ^ 53) :
    nextVersion "major".toList base =
      some (decimalText (natOfDigits 10 sM + 1) ++ ".".toList ++ decimalText 0 ++ ".".toList ++
        decimalText 0) := by
  have h0 : numberToString JSNumber.zero = some (decimalText 0) := numberToString_zero
  have h1 := numberToString_ofNat (natOfDigits 10 sM + 1) (by omega)
  unfold nextVersion
  simp only [parts_of_three hbase hsplit hM hm hp, if_true, List.getElem?_cons_zero,
    increment_ofNat _ hM, templateText, h1, h0]

theorem nextVersion_minor {base sM sm sp : Str} (hbase : isDottedNumeric base = true)
    (hsplit : split '.' base = [sM, sm, sp])
    (hM : natOfDigits 10 sM < 2 ^ 53) (hm : natOfDigits 10 sm < 2 ^ 53)
    (hp : natOfDigits 10 sp < 2 ^ 53) :
    nextVersion "minor".toList base =
      some (decimalText (natOfDigits 10 sM) ++ ".".toList ++
        decimalText (natOfDigits 10 sm + 1) ++ ".".toList ++ decimalText 0) := by
  have h0 : numberToString JSNumber.zero = some (decimalText 0) := numberToString_zero
  have hne : ¬ ("minor".toList = "major".toList) := by decide
  have h1 := numberToString_ofNat (natOfDigits 10 sm + 1) (by omega)
  unfold nextVersion
  simp only [parts_of_three hbase hsplit hM hm hp, if_true, if_neg hne,
    List.getElem?_cons_zero, List.getElem?_cons_succ,
    increment_ofNat _ hm, templateText, h1, numberToString_ofNat _ (le_of_lt hM), h0]

theorem nextVersion_patch {base sM sm sp : Str} (hbase : isDottedNumeric base = true)
    (hsplit : split '.' base = [sM, sm, sp])
    (hM : natOfDigits 10 sM < 2 ^ 53) (hm : natOfDigits 10 sm < 2 ^ 53)
    (hp : natOfDigits 10 sp < 2 ^ 53) :
    nextVersion "patch".toList base =
      some (decimalText (natOfDigits 10 sM) ++ ".".toList ++
        decimalText (natOfDigits 10 sm) ++ ".".toList ++
        decimalText (natOfDigits 10 sp + 1)) := by
  have hne1 : ¬ ("patch".toList = "major".toList) := by decide
  have hne2 : ¬ ("patch".toList = "minor".toList) := by decide
  have h1 := numberToString_ofNat (natOfDigits 10 sp + 1) (by omega)
  unfold nextVersion
  simp only [parts_of_three hbase hsplit hM hm hp, if_neg hne1, if_neg hne2,
    List.getElem?_cons_zero, List.getElem?_cons_succ,
    increment_ofNat _ hp, templateText, h1, numberToString_ofNat _ (le_of_lt hM),
    numberToString_ofNat _ (le_of_lt hm)]

/-- The comparison of a version written from three numbers up to `2^53` with a well-formed
version of three components below `2^53`. -/
theorem compareVersions_written {base sM sm sp : Str} (hbase : isDottedNumeric base = true)
    (hsplit : split '.' base = [sM, sm, sp])
    (hM : natOfDigits 10 sM < 2 ^ 53) (hm : natOfDigits 10 sm < 2 ^ 53)
    (hp : natOfDigits 10 sp < 2 ^ 53) (a b c : Nat) (ha : a ≤ 2 ^ 53) (hb : b ≤ 2 ^ 53)
    (hc : c ≤ 2 ^ 53) :
    compareVersions (decimalText a ++ ".".toList ++ decimalText b ++ ".".toList ++ decimalText c)
        base =
      if a = natOfDigits 10 sM then
        if b = natOfDigits 10 sm then
          if c = natOfDigits 10 sp then 0 else if natOfDigits 10 sp < c then 1 else -1
        else if natOfDigits 10 sm < b then 1 else -1
      else if natOfDigits 10 sM < a then 1 else -1 := by
  have hnext : decimalText a ++ ".".toList ++ decimalText b ++ ".".toList ++ decimalText c ≠
      [] := by
    have := (decimalText_spec a).2.1
    cases hd : decimalText a with
    | nil => exact absurd hd this
    | cons x xs => simp
  have hparts : (split '.' (decimalText a ++ ".".toList ++ decimalText b ++ ".".toList ++
      decimalText c)).map Number = [JSNumber.ofNat a, JSNumber.ofNat b, JSNumber.ofNat c] := by
    rw [split_three _ _ _ (dot_not_mem_decimalText a) (dot_not_mem_decimalText b)
      (dot_not_mem_decimalText c)]
    simp only [List.map_cons, List.map_nil, Number_decimalText _ ha, Number_decimalText _ hb,
      Number_decimalText _ hc]
  have hnan : ∀ (x y z : Nat), ∀ w ∈ [JSNumber.ofNat x, JSNumber.ofNat y, JSNumber.ofNat z],
      w ≠ JSNumber.nan := by
    intro x y z w hw
    simp only [List.mem_cons, List.mem_singleton, List.not_mem_nil, or_false] at hw
    rcases hw with rfl | rfl | rfl <;> exact fun h => JSNumber.noConfusion h
  unfold compareVersions
  rw [if_neg (by simp [hnext, isDottedNumeric_ne_nil hbase]), hparts,
    parts_of_three hbase hsplit hM hm hp,
    compareLoop_eq_firstDifference _ _ _ (hnan a b c) (hnan _ _ _) rfl,
    padZeros_self _ _ (by simp), padZeros_self _ _ (by simp),
    firstDifference_ofNat_cons, firstDifference_ofNat_cons, firstDifference_ofNat_cons]
  simp [firstDifference]

end VersionRelease

/-- C22, as claimed, fails for a component of `2^53` or more, where the numbers of
JavaScript are not all the integers: the major bump of `9007199254740992.0.0` leaves the
version as it is, since `9007199254740992 + 1` is rounded to `9007199254740992`. -/
theorem nextVersion_rounds_large_component :
    isThreeComponent "9007199254740992.0.0".toList = true ∧
      natOfDigits 10 "9007199254740992".toList + 1 = 9007199254740993 ∧
      VersionRelease.nextVersion "major".toList "9007199254740992.0.0".toList =
        some "9007199254740992.0.0".toList ∧
      VersionRelease.nextVersion "major".toList "9007199254740992.0.0".toList ≠
        some "9007199254740993.0.0".toList := by
  decide!

/-- C22, amended: for every well-formed base version of three components `M.m.p` that are
below `2^53`, the release script computes the next version `(M+1).0.0` for a major bump,
`M.(m+1).0` for a minor bump and `M.m.(p+1)` for a patch bump, written in decimal without
leading zeros; `1.0.0` becomes `2.0.0`, `1.1.0` and `1.0.1`. The bump type is the lower-cased
argument of the script, `patch` when there is none, and every other type ends the script
with exit code `1` whatever the versions are. -/
theorem nextVersion_bumps (base sM sm sp : Str) (hbase : isDottedNumeric base = true)
    (hsplit : split '.' base = [sM, sm, sp])
    (hM : natOfDigits 10 sM < 2 ^ 53) (hm : natOfDigits 10 sm < 2 ^ 53)
    (hp : natOfDigits 10 sp < 2 ^ 53) :
    VersionRelease.nextVersion "major".toList base =
        some (decimalText (natOfDigits 10 sM + 1) ++ ".".toList ++ decimalText 0 ++
          ".".toList ++ decimalText 0) ∧
      VersionRelease.nextVersion "minor".toList base =
        some (decimalText (natOfDigits 10 sM) ++ ".".toList ++
          decimalText (natOfDigits 10 sm + 1) ++ ".".toList ++ decimalText 0) ∧
      VersionRelease.nextVersion "patch".toList base =
        some (decimalText (natOfDigits 10 sM) ++ ".".toList ++
          decimalText (natOfDigits 10 sm) ++ ".".toList ++
          decimalText (natOfDigits 10 sp + 1)) ∧
      (∀ (rt : Runtime) (p t : Str) (c : Option Str),
        VersionRelease.releaseNextVersion rt none p t c =
          match VersionRelease.selectBase
            (VersionRelease.candidateVersions p t (c.getD "unknown".toList)) with
          | none => Except.error 1
          | some currentVersion =>
            Except.ok (VersionRelease.nextVersion "patch".toList currentVersion)) ∧
      (∀ (rt : Runtime) (argument p t : Str) (c : Option Str),
        rt.toLowerCase argument ≠ "major".toList → rt.toLowerCase argument ≠ "minor".toList →
        rt.toLowerCase argument ≠ "patch".toList →
        VersionRelease.releaseNextVersion rt (some argument) p t c = Except.error 1) ∧
      VersionRelease.nextVersion "major".toList "1.0.0".toList = some "2.0.0".toList ∧
      VersionRelease.nextVersion "minor".toList "1.0.0".toList = some "1.1.0".toList ∧
      VersionRelease.nextVersion "patch".toList "1.0.0".toList = some "1.0.1".toList := by
  refine ⟨VersionRelease.nextVersion_major hbase hsplit hM hm hp,
    VersionRelease.nextVersion_minor hbase hsplit hM hm hp,
    VersionRelease.nextVersion_patch hbase hsplit hM hm hp, ?_, ?_, by decide!, by decide!,
    by decide!⟩
  · intro rt p t c
    rfl
  · intro rt argument p t c h1 h2 h3
    have hcontains : ["major".toList, "minor".toList, "patch".toList].contains
        (rt.toLowerCase argument) = false := by
      rw [List.contains_eq_any_beq]
      simp only [List.any_cons, List.any_nil, Bool.or_false, Bool.or_eq_false_iff,
        beq_eq_false_iff_ne, ne_eq]
      exact ⟨h1, h2, h3⟩
    simp only [VersionRelease.releaseNextVersion, hcontains, Bool.not_false, if_true]

/-- Witness for C22: the base `1.9.12`. -/
theorem nextVersion_bumps_witness :
    isDottedNumeric "1.9.12".toList = true ∧
      split '.' "1.9.12".toList = ["1".toList, "9".toList, "12".toList] ∧
      VersionRelease.nextVersion "minor".toList "1.9.12".toList =
        some (decimalText (natOfDigits 10 "1".toList) ++ ".".toList ++
          decimalText (natOfDigits 10 "9".toList + 1) ++ ".".toList ++ decimalText 0) ∧
      decimalText (natOfDigits 10 "1".toList) ++ ".".toList ++
          decimalText (natOfDigits 10 "9".toList + 1) ++ ".".toList ++ decimalText 0 =
        "1.10.0".toList :=
  ⟨by decide, by decide,
    (nextVersion_bumps "1.9.12".toList "1".toList "9".toList "12".toList (by decide) (by decide)
      (by decide!) (by decide!) (by decide!)).2.1, by decide⟩

/-- C27, as claimed, fails for a component of `2^53` or more: the patch bump of
`0.0.9007199254740992` computes the same version, which compares as `0` with the base. -/
theorem nextVersion_not_greater_large_component :
    isThreeComponent "0.0.9007199254740992".toList = true ∧
      VersionRelease.nextVersion "patch".toList "0.0.9007199254740992".toList =
        some "0.0.9007199254740992".toList ∧
      VersionRelease.compareVersions "0.0.9007199254740992".toList
        "0.0.9007199254740992".toList = 0 := by
  decide!

/-- C27, amended: for every well-formed base version of three components below `2^53` and
every bump type among `major`, `minor` and `patch`, the release script computes a next
version, and `compareVersions(next, base)` is `1`. -/
theorem nextVersion_greater_than_base (base sM sm sp versionType : Str)
    (hbase : isDottedNumeric base = true) (hsplit : split '.' base = [sM, sm, sp])
    (hM : natOfDigits 10 sM < 2 ^ 53) (hm : natOfDigits 10 sm < 2 ^ 53)
    (hp : natOfDigits 10 sp < 2 ^ 53)
    (htype : versionType = "major".toList ∨ versionType = "minor".toList ∨
      versionType = "patch".toList) :
    ∃ next, VersionRelease.nextVersion versionType base = some next ∧
      VersionRelease.compareVersions next base = 1 := by
  have h0 : (0 : Nat) ≤ 2 ^ 53 := Nat.zero_le _
  rcases htype with rfl | rfl | rfl
  · refine ⟨_, VersionRelease.nextVersion_major hbase hsplit hM hm hp, ?_⟩
    rw [VersionRelease.compareVersions_written hbase hsplit hM hm hp _ _ _ (by omega) h0 h0]
    have h1 : ¬ (natOfDigits 10 sM + 1 = natOfDigits 10 sM) := by omega
    have h2 : natOfDigits 10 sM < natOfDigits 10 sM + 1 := by omega
    rw [if_neg h1, if_pos h2]
  · refine ⟨_, VersionRelease.nextVersion_minor hbase hsplit hM hm hp, ?_⟩
    rw [VersionRelease.compareVersions_written hbase hsplit hM hm hp _ _ _ (le_of_lt hM)
      (by omega) h0]
    have h1 : ¬ (natOfDigits 10 sm + 1 = natOfDigits 10 sm) := by omega
    have h2 : natOfDigits 10 sm < natOfDigits 10 sm + 1 := by omega
    rw [if_pos rfl, if_neg h1, if_pos h2]
  · refine ⟨_, VersionRelease.nextVersion_patch hbase hsplit hM hm hp, ?_⟩
    rw [VersionRelease.compareVersions_written hbase hsplit hM hm hp _ _ _ (le_of_lt hM)
      (le_of_lt hm) (by omega)]
    have h1 : ¬ (natOfDigits 10 sp + 1 = natOfDigits 10 sp) := by omega
    have h2 : natOfDigits 10 sp < natOfDigits 10 sp + 1 := by omega
    rw [if_pos rfl, if_pos rfl, if_neg h1, if_pos h2]

/-- Witness for C27: the major bump of `1.9.12`. -/
theorem nextVersion_greater_than_base_witness :
    isDottedNumeric "1.9.12".toList = true ∧
      split '.' "1.9.12".toList = ["1".toList, "9".toList, "12".toList] ∧
      VersionRelease.nextVersion "major".toList "1.9.12".toList = some "2.0.0".toList ∧
      ∃ next, VersionRelease.nextVersion "major".toList "1.9.12".toList = some next ∧
        VersionRelease.compareVersions next "1.9.12".toList = 1 :=
  ⟨by decide, by decide, by decide!,
    nextVersion_greater_than_base "1.9.12".toList "1".toList "9".toList "12".toList
      "major".toList (by decide) (by decide) (by decide!) (by decide!) (by decide!)
      (Or.inl rfl)⟩

/-! ## The update log: what the scan collects under a tag -/

namespace Updatelog

theorem test_false_of_no_hash {line : Str} (h : '#' ∉ line) : test line = false := by
  unfold test
  cases hm : exec reTag line with
  | none => rfl
  | some m =>
    obtain ⟨skipped, xs, rest, hl, hmatch⟩ := execFrom_sound _ _ _ _ hm
    simp only [reTag, Regex.cat, Regex.lit, Matches] at hmatch
    obtain ⟨xs1, xs2, capsm, rfl, ⟨⟨c, rfl, hc⟩, _⟩, _⟩ := hmatch
    have hc2 : c = '#' := by simpa using hc
    subst hc2
    exact absurd (by rw [hl]; simp) h

theorem runStar_isSome (p : Char → Bool) (caps : Captures) (k : MState → Option Captures)
    (hk : ∀ st, (k st).isSome = true) :
    ∀ (l : Str) (pos : Nat), (runStar p caps k l pos).isSome = true := by
  intro l
  induction l with
  | nil => intro pos; simp [runStar, hk]
  | cons c cs ih =>
    intro pos
    unfold runStar
    split_ifs
    · cases h : runStar p caps k cs (pos + 1) with
      | none => exact hk _
      | some out => rfl
    · exact hk _

theorem isTagText_iff {tag : Str} (h : isTagText tag = true) :
    ∃ d ds, tag = 'v' :: d :: ds ∧ ∀ c ∈ d :: ds, (isDigit c || c == '.') = true := by
  unfold isTagText at h
  split at h
  · rename_i ds
    simp only [Bool.and_eq_true, Bool.not_eq_true', List.isEmpty_eq_false,
      List.all_eq_true] at h
    cases ds with
    | nil => exact absurd rfl h.1
    | cons d ds => exact ⟨d, ds, rfl, h.2⟩
  · exact absurd h (by decide)

theorem tagChar_not_space {c : Char} (h : (isDigit c || c == '.') = true) :
    isSpace c = false := by
  rcases Bool.or_eq_true _ _ |>.mp h with h1 | h1
  · exact isDigit_not_isSpace h1
  · have : c = '.' := by simpa using h1
    subst this
    decide

theorem tagChar_ne_newline {c : Char} (h : (isDigit c || c == '.') = true) : c ≠ '\n' := by
  rintro rfl
  exact absurd (tagChar_not_space h) (by decide)

theorem toCodeUnits_append (a b : Str) :
    toCodeUnits (a ++ b) = toCodeUnits a ++ toCodeUnits b := by
  induction a with
  | nil => rfl
  | cons c cs ih =>
    have e : toCodeUnits (c :: cs ++ b) = codeUnits c ++ toCodeUnits (cs ++ b) := rfl
    have e2 : toCodeUnits (c :: cs) = codeUnits c ++ toCodeUnits cs := rfl
    rw [e, ih, e2, List.append_assoc]

theorem tagChar_unit {c : Char} (h : (isDigit c || c == '.') = true) :
    codeUnits c = [c.toNat] ∧ isSpaceUnit c.toNat = false := by
  rcases Bool.or_eq_true _ _ |>.mp h with h1 | h1
  · simp only [isDigit, Bool.and_eq_true, decide_eq_true_eq] at h1
    constructor
    · unfold codeUnits
      rw [if_pos (by omega)]
    · unfold isSpaceUnit
      simp only [Bool.or_eq_false_iff, Bool.and_eq_false_imp, beq_eq_false_iff_ne, ne_eq,
        decide_eq_true_eq, decide_eq_false_iff_not]
      omega
  · have : c = '.' := by simpa using h1
    subst this
    exact ⟨by decide, by decide⟩

theorem trimUnits_eq_self {a b : Nat} (ha : isSpaceUnit a = false)
    (hb : isSpaceUnit b = false) (mid : List Nat) :
    trimUnits (a :: (mid ++ [b])) = a :: (mid ++ [b]) := by
  unfold trimUnits
  have h1 : (a :: (mid ++ [b])).dropWhile isSpaceUnit = a :: (mid ++ [b]) := by
    simp [List.dropWhile, ha]
  have h2 : (a :: (mid ++ [b])).reverse = b :: (a :: mid).reverse := by simp
  rw [h1, h2]
  simp [List.dropWhile, hb]

theorem toCodeUnits_tag_ne_nil {tag : Str} (h : isTagText tag = true) :
    toCodeUnits tag ≠ [] := by
  obtain ⟨d, ds, rfl, _⟩ := isTagText_iff h
  have e : toCodeUnits ('v' :: d :: ds) = 118 :: toCodeUnits (d :: ds) := rfl
  rw [e]
  simp

theorem trim_tag {tag : Str} (h : isTagText tag = true) :
    trimUnits (toCodeUnits tag) = toCodeUnits tag := by
  obtain ⟨d, ds, rfl, hall⟩ := isTagText_iff h
  rcases List.eq_nil_or_concat (d :: ds) with hnil | ⟨l, e, hle⟩
  · exact absurd hnil (by simp)
  · rw [List.concat_eq_append] at hle
    have he : (isDigit e || e == '.') = true := hall e (by rw [hle]; simp)
    have hunits : toCodeUnits ('v' :: d :: ds) = 118 :: (toCodeUnits l ++ [e.toNat]) := by
      have e1 : toCodeUnits ('v' :: d :: ds) = 118 :: toCodeUnits (d :: ds) := rfl
      have e2 : toCodeUnits [e] = codeUnits e ++ [] := rfl
      rw [e1, hle, toCodeUnits_append, e2, (tagChar_unit he).1, List.append_nil]
    rw [hunits]
    exact trimUnits_eq_self (by decide) (tagChar_unit he).2 _

theorem heading_units {tag : Str} (h : isTagText tag = true) :
    trimUnits ((toCodeUnits ("## ".toList ++ tag)).drop 3) = toCodeUnits tag := by
  have e : (toCodeUnits ("## ".toList ++ tag)).drop 3 = toCodeUnits tag := by
    rw [toCodeUnits_append]
    rfl
  rw [e, trim_tag h]

theorem newline_not_mem_tag {tag : Str} (h : isTagText tag = true) : '\n' ∉ tag := by
  obtain ⟨d, ds, rfl, hall⟩ := isTagText_iff h
  intro hm
  rcases List.mem_cons.mp hm with h1 | h1
  · exact absurd h1 (by decide)
  · exact tagChar_ne_newline (hall _ h1) rfl

theorem test_heading {tag : Str} (h : isTagText tag = true) :
    test ("## ".toList ++ tag) = true := by
  obtain ⟨d, ds, rfl, hall⟩ := isTagText_iff h
  have hd := hall d (by simp)
  unfold test exec
  have hrun : (reTag.run { pos := 0, rest := "## ".toList ++ 'v' :: d :: ds, caps := [] }
      (fun st => some st.caps)).isSome = true := by
    simp only [reTag, Regex.cat, Regex.lit, Regex.run, String.toList, List.cons_append,
      List.nil_append, beq_self_eq_true, if_true, hd]
    apply runStar_isSome
    intro st
    rfl
  cases hr : reTag.run { pos := 0, rest := "## ".toList ++ 'v' :: d :: ds, caps := [] }
      (fun st => some st.caps) with
  | none => rw [hr] at hrun; exact absurd hrun (by decide)
  | some out =>
    have e : "## ".toList ++ 'v' :: d :: ds = '#' :: ('#' :: ' ' :: 'v' :: d :: ds) := rfl
    rw [e] at hr ⊢
    simp only [execFrom, hr]
    rfl

theorem headingTag_heading {tag : Str} (h : isTagText tag = true) :
    headingTag ("## ".toList ++ tag) = some (toCodeUnits tag) := by
  unfold headingTag
  rw [test_heading h, if_pos rfl, heading_units h]

theorem test_blank {line : Str} (h : isBlank line = true) : test line = false := by
  apply test_false_of_no_hash
  intro hm
  have := List.all_eq_true.mp h '#' hm
  exact absurd this (by decide)

/-! ### The map of the tags -/

theorem lookup_append_entry (t t0 : Key) (m : TagMap) :
    (m ++ [(t0, [])]).lookup t =
      match m.lookup t with
      | some ls => some ls
      | none => if t = t0 then some [] else none := by
  induction m with
  | nil =>
    by_cases h : t = t0
    · subst h; simp [List.lookup]
    · have hb : (t == t0) = false := by simpa using h
      simp [List.lookup, hb, h]
  | cons e m ih =>
    obtain ⟨k, v⟩ := e
    by_cases hk : t = k
    · subst hk; simp [List.lookup]
    · have hb : (t == k) = false := by simpa using hk
      simp only [List.cons_append, List.lookup, hb]
      exact ih

theorem push_cons (k : Key) (v : List Str) (m : TagMap) (t0 : Key) (line : Str) :
    TagMap.push ((k, v) :: m) t0 line =
      (if k = t0 then (k, v ++ [line]) else (k, v)) :: TagMap.push m t0 line := rfl

theorem lookup_push (t t0 : Key) (line : Str) (m : TagMap) :
    (TagMap.push m t0 line).lookup t =
      if t = t0 then (m.lookup t).map (fun ls => ls ++ [line]) else m.lookup t := by
  induction m with
  | nil => simp [TagMap.push, List.lookup]
  | cons e m ih =>
    obtain ⟨k, v⟩ := e
    rw [push_cons]
    by_cases hk0 : k = t0
    · subst hk0
      rw [if_pos rfl]
      by_cases hk : t = k
      · subst hk
        simp [List.lookup]
      · have hb : (t == k) = false := by simpa using hk
        simp only [List.lookup, hb, ih]
    · rw [if_neg hk0]
      by_cases hk : t = k
      · subst hk
        simp [List.lookup, hk0]
      · have hb : (t == k) = false := by simpa using hk
        simp only [List.lookup, hb, ih]

end Updatelog

namespace Updatelog

/-- A line that is no heading of the tag `t`, met while the current tag is not `t`, leaves
the lines collected under `t` as they are. -/
theorem scanLine_other {t : Key} {st : ScanState} {line : Str} (next : Option Str)
    (hline : headingTag line ≠ some t) (htag : st.tag ≠ some t) :
    (scanLine st line next).tag ≠ some t ∧
      (scanLine st line next).tagMap.lookup t = st.tagMap.lookup t := by
  unfold headingTag at hline
  unfold scanLine
  by_cases htest : test line = true
  · rw [if_pos htest] at hline
    have hne : ¬ (t = trimUnits ((toCodeUnits line).drop 3)) := fun h => hline (by rw [h])
    simp only [htest, if_true, Bool.true_and, Option.getD_some]
    split_ifs <;> refine ⟨?_, ?_⟩ <;>
      first
        | exact hline
        | exact (fun h => Option.noConfusion h)
        | (rw [lookup_push, if_neg hne])
        | rfl
        | (rw [lookup_append_entry]
           cases st.tagMap.lookup t with
           | none => simp [hne]
           | some ls => rfl)
  · have hf : test line = false := by simpa using htest
    simp only [hf, Bool.false_and, Bool.false_eq_true, if_false]
    cases hs : st.tag with
    | none =>
      have hfalsy : truthyTag none = false := rfl
      simp only [hfalsy, Bool.false_eq_true, if_false]
      split_ifs <;> exact ⟨fun h => Option.noConfusion h, rfl⟩
    | some s =>
      have hne : ¬ (t = s) := fun h => htag (by rw [hs, h])
      have hlook : ∀ m : TagMap, (if truthyTag (some s) = true then TagMap.push m s line
          else m).lookup t = m.lookup t := by
        intro m
        split_ifs
        · rw [lookup_push, if_neg hne]
        · rfl
      simp only [Option.getD_some]
      split_ifs <;> refine ⟨?_, ?_⟩ <;>
        first
          | exact (fun h => Option.noConfusion h)
          | exact (fun h => hne (Option.some.inj h).symm)
          | rfl
          | (rw [lookup_push, if_neg hne])

theorem scan_other {t : Key} :
    ∀ (lines : List Str) (st : ScanState), (∀ l ∈ lines, headingTag l ≠ some t) →
      st.tag ≠ some t → (scan st lines).tagMap.lookup t = st.tagMap.lookup t := by
  intro lines
  induction lines with
  | nil => intro st _ _; rfl
  | cons l rest ih =>
    intro st hall htag
    obtain ⟨h1, h2⟩ := scanLine_other rest.head? (hall l (by simp)) htag
    rw [scan, ih _ (fun x hx => hall x (by simp [hx])) h1, h2]

theorem scanLine_keeps {t : Key} {st : ScanState} (line : Str) (next : Option Str)
    (h : st.tagMap.lookup t ≠ none) : (scanLine st line next).tagMap.lookup t ≠ none := by
  obtain ⟨ls, hls⟩ := Option.ne_none_iff_exists'.mp h
  unfold scanLine
  simp only []
  split_ifs <;>
    first
      | (rw [lookup_append_entry, hls]; simp)
      | (rw [lookup_push, hls]; split_ifs <;> simp)
      | (rw [hls]; simp)

theorem scan_keeps {t : Key} :
    ∀ (lines : List Str) (st : ScanState), st.tagMap.lookup t ≠ none →
      (scan st lines).tagMap.lookup t ≠ none := by
  intro lines
  induction lines with
  | nil => intro st h; exact h
  | cons l rest ih =>
    intro st h
    rw [scan]
    exact ih _ (scanLine_keeps l rest.head? h)

theorem scanLine_heading {t : Key} (st : ScanState) {line : Str} (next : Option Str)
    (h : headingTag line = some t) : (scanLine st line next).tagMap.lookup t ≠ none := by
  unfold headingTag at h
  by_cases htest : test line = true
  · rw [if_pos htest] at h
    have ht : trimUnits ((toCodeUnits line).drop 3) = t := Option.some.inj h
    unfold scanLine
    simp only [htest, if_true, Bool.true_and, Option.getD_some, ht]
    by_cases hl : (st.tagMap.lookup t).isNone = true
    · rw [if_pos hl, lookup_append_entry]
      cases st.tagMap.lookup t <;> simp
    · rw [if_neg hl]
      have hsome : st.tagMap.lookup t ≠ none := by
        intro hn
        rw [hn] at hl
        exact hl rfl
      obtain ⟨ls, hls⟩ := Option.ne_none_iff_exists'.mp hsome
      split_ifs <;>
        first
          | (rw [lookup_push, hls]; simp)
          | (rw [hls]; simp)
  · rw [if_neg htest] at h
    exact absurd h (by simp)

/-- When the scan collects nothing under `t`, no line is a heading of `t`. -/
theorem no_heading_of_absent {t : Key} :
    ∀ (lines : List Str) (st : ScanState), (scan st lines).tagMap.lookup t = none →
      ∀ l ∈ lines, headingTag l ≠ some t := by
  intro lines
  induction lines with
  | nil => intro st _ l hl; simp at hl
  | cons x rest ih =>
    intro st h l hl
    rw [scan] at h
    rcases List.mem_cons.mp hl with rfl | hmem
    · intro hx
      exact scan_keeps rest _ (scanLine_heading st rest.head? hx) h
    · exact ih _ h l hmem

/-- A run of lines that are no headings, met while the current tag is `t`, is collected
under `t`, up to the next heading. -/
theorem scan_run {t : Key} (ht : t ≠ []) (tail : List Str)
    (htail : tail = [] ∨ ∃ h tl, tail = h :: tl ∧ test h = true)
    (hno : ∀ l ∈ tail, headingTag l ≠ some t) :
    ∀ (run : List Str) (st : ScanState) (ls : List Str), run ≠ [] →
      (∀ l ∈ run, test l = false) → st.tag = some t → st.tagMap.lookup t = some ls →
      (scan st (run ++ tail)).tagMap.lookup t = some (ls ++ run) := by
  have htruthy : truthyTag (some t) = true := by
    cases t with
    | nil => exact absurd rfl ht
    | cons c cs => rfl
  have hundef : test "undefined".toList = false := by decide
  intro run
  induction run with
  | nil => intro st ls h; exact absurd rfl h
  | cons x r ih =>
    intro st ls _ hall htag hls
    have hx : test x = false := hall x (by simp)
    have hpush : (TagMap.push st.tagMap t x).lookup t = some (ls ++ [x]) := by
      rw [lookup_push, if_pos rfl, hls]
      rfl
    cases r with
    | nil =>
      rw [List.singleton_append, scan]
      rcases htail with rfl | ⟨h, tl, rfl, hh⟩
      · simp only [scan, scanLine, hx, Bool.false_and, Bool.false_eq_true, if_false, htag,
          htruthy, if_true, Option.getD_some, List.head?_nil, Option.getD_none, hundef]
        exact hpush
      · have hst : scanLine st x (h :: tl).head? =
            { tag := none, tagMap := TagMap.push st.tagMap t x } := by
          simp only [scanLine, hx, Bool.false_and, Bool.false_eq_true, if_false, htag,
            htruthy, if_true, Option.getD_some, List.head?_cons, hh]
        rw [hst, scan_other _ _ hno (by simp)]
        exact hpush
    | cons y r2 =>
      have hy : test y = false := hall y (by simp)
      have hst : scanLine st x ((y :: r2) ++ tail).head? =
          { tag := some t, tagMap := TagMap.push st.tagMap t x } := by
        simp only [scanLine, hx, Bool.false_and, Bool.false_eq_true, if_false, htag,
          htruthy, if_true, Option.getD_some, List.cons_append, List.head?_cons, hy]
      rw [List.cons_append, scan, hst,
        ih _ (ls ++ [x]) (by simp) (fun l hl => hall l (by simp [hl])) rfl hpush]
      simp

end Updatelog

namespace Updatelog

theorem join_cons_cons (sep : Char) (x y : Str) (r : List Str) :
    join sep (x :: y :: r) = x ++ sep :: join sep (y :: r) := rfl

theorem join_split (sep : Char) (s : Str) : join sep (split sep s) = s := by
  induction s with
  | nil => rfl
  | cons c cs ih =>
    obtain ⟨p, ps, hps⟩ := List.exists_cons_of_ne_nil (split_ne_nil sep cs)
    by_cases hc : c = sep
    · have e : split sep (c :: cs) = [] :: p :: ps := by simp [split, hc, hps]
      rw [e, join_cons_cons, ← hps, ih, hc]
      rfl
    · have e : split sep (c :: cs) = (c :: p) :: ps := by simp [split, hc, hps]
      rw [e]
      rw [hps] at ih
      cases ps with
      | nil =>
        simp only [join] at ih ⊢
        rw [ih]
      | cons q qs =>
        rw [join_cons_cons] at ih ⊢
        rw [List.cons_append, ih]

theorem split_join (sep : Char) :
    ∀ lines : List Str, lines ≠ [] → (∀ l ∈ lines, sep ∉ l) →
      split sep (join sep lines) = lines := by
  intro lines
  induction lines with
  | nil => intro h; exact absurd rfl h
  | cons x r ih =>
    intro _ hall
    cases r with
    | nil => exact split_of_not_mem sep x (hall x (by simp))
    | cons y r2 =>
      rw [join_cons_cons, split_append_sep, split_of_not_mem sep x (hall x (by simp)),
        ih (by simp) (fun l hl => hall l (by simp [hl]))]
      rfl

theorem sep_not_mem_split (sep : Char) (s : Str) : ∀ l ∈ split sep s, sep ∉ l := by
  induction s with
  | nil =>
    intro l hl
    simp only [split, List.mem_singleton] at hl
    subst hl
    simp
  | cons c cs ih =>
    obtain ⟨p, ps, hps⟩ := List.exists_cons_of_ne_nil (split_ne_nil sep cs)
    intro l hl
    by_cases hc : c = sep
    · have e : split sep (c :: cs) = [] :: split sep cs := by simp [split, hc]
      rw [e] at hl
      rcases List.mem_cons.mp hl with rfl | h
      · simp
      · exact ih l h
    · have e : split sep (c :: cs) = (c :: p) :: ps := by simp [split, hc, hps]
      rw [e] at hl
      rw [hps] at ih
      rcases List.mem_cons.mp hl with rfl | h
      · intro hm
        rcases List.mem_cons.mp hm with h1 | h1
        · exact hc h1.symm
        · exact ih p (by simp) h1
      · exact ih l (by simp [h])

theorem join_bullet_blanks (bullet : Str) :
    ∀ blanks : List Str, (∀ b ∈ blanks, isBlank b = true) →
      ∃ w, join '\n' (bullet :: blanks) = bullet ++ w ∧ ∀ c ∈ w, isSpace c = true := by
  intro blanks
  induction blanks generalizing bullet with
  | nil => intro _; exact ⟨[], by simp [join], by simp⟩
  | cons b bs ih =>
    intro hall
    obtain ⟨w, hw, hws⟩ := ih b (fun x hx => hall x (by simp [hx]))
    refine ⟨'\n' :: (b ++ w), ?_, ?_⟩
    · rw [join_cons_cons, hw]
    · intro c hc
      rcases List.mem_cons.mp hc with rfl | h
      · decide
      · rcases List.mem_append.mp h with h1 | h1
        · exact List.all_eq_true.mp (hall b (by simp)) c h1
        · exact hws c h1

theorem trim_append_spaces {c d : Char} (hc : isSpace c = false) (hd : isSpace d = false)
    (s w : Str) (hw : ∀ x ∈ w, isSpace x = true) :
    trim (c :: (s ++ [d]) ++ w) = c :: (s ++ [d]) := by
  have hstart : trimStart (c :: (s ++ [d]) ++ w) = c :: (s ++ [d]) ++ w := dropWhile_of_head hc
  unfold trim
  rw [hstart]
  unfold trimEnd
  have hrev : (c :: (s ++ [d]) ++ w).reverse = w.reverse ++ d :: (c :: s).reverse := by simp
  rw [hrev, UpdateUtils.dropWhile_append_of_all hd _ _ (fun x hx => hw x (List.mem_reverse.mp hx))]
  simp

/-- The lines of the log after the insertion of the section of a tag. -/
theorem split_inserted (title blank tag tailText : Str) (htitle : '\n' ∉ title)
    (hblank : '\n' ∉ blank) (htag : '\n' ∉ tag) :
    split '\n' (join '\n' [title, blank] ++
        ("\n## ".toList ++ tag ++ "\n- 版本更新\n".toList) ++ tailText) =
      title :: blank :: ("## ".toList ++ tag) :: "- 版本更新".toList ::
        split '\n' tailText := by
  have e : join '\n' [title, blank] ++ ("\n## ".toList ++ tag ++ "\n- 版本更新\n".toList) ++
      tailText =
      title ++ '\n' :: (blank ++ '\n' :: (("## ".toList ++ tag) ++ '\n' ::
        ("- 版本更新".toList ++ '\n' :: tailText))) := by
    simp [join]
  have h1 : '\n' ∉ "## ".toList ++ tag := by
    intro h
    rcases List.mem_append.mp h with h | h
    · exact absurd h (by decide)
    · exact htag h
  rw [e, split_append_sep, split_append_sep, split_append_sep, split_append_sep,
    split_of_not_mem _ _ htitle, split_of_not_mem _ _ hblank, split_of_not_mem _ _ h1,
    split_of_not_mem _ "- 版本更新".toList (by decide)]
  rfl

theorem not_prototype_key {tag : Str} (h : isTagText tag = true) :
    objectPrototypeKeys.contains tag = false := by
  cases hc : objectPrototypeKeys.contains tag with
  | false => rfl
  | true =>
    have hmem : tag ∈ objectPrototypeKeys := by simpa using hc
    simp only [objectPrototypeKeys, List.mem_cons, List.mem_singleton, List.not_mem_nil,
      or_false] at hmem
    rcases hmem with rfl | rfl | rfl | rfl | rfl | rfl | rfl | rfl | rfl | rfl | rfl | rfl <;>
      exact absurd h (by decide)

end Updatelog

theorem trim_append_bullet (w : Str) (hw : ∀ x ∈ w, isSpace x = true) :
    trim ("- 版本更新".toList ++ w) = "- 版本更新".toList := by
  have e : "- 版本更新".toList = '-' :: ([' ', '版', '本', '更'] ++ ['新']) := by decide
  rw [e]
  exact Updatelog.trim_append_spaces (by decide) (by decide) _ w hw

/-- The heading of a tag that has no section yet opens its section, which is empty. -/
theorem Updatelog.scanLine_new_heading {t : Str} (st : Updatelog.ScanState)
    (next : Option Str) (ht : isTagText t = true)
    (hl : st.tagMap.lookup (toCodeUnits t) = none) :
    (Updatelog.scanLine st ("## ".toList ++ t) next).tag = some (toCodeUnits t) ∧
      (Updatelog.scanLine st ("## ".toList ++ t) next).tagMap.lookup (toCodeUnits t) =
        some [] := by
  have hH := Updatelog.test_heading ht
  have hHtag := Updatelog.heading_units ht
  unfold Updatelog.scanLine
  simp only [hH, if_true, hHtag, Option.getD_some, hl, Option.isNone_none, Bool.and_self,
    true_and]
  rw [Updatelog.lookup_append_entry, hl]
  simp

/-- The tag of a heading is cut after three code units, not three characters: the heading
`🚀## v1.0`, whose first character takes two code units, opens the section of `# v1.0`,
and the log has no section of `v1.0`. -/
theorem Updatelog.slice_counts_code_units :
    headingTag "🚀## v1.0".toList = some (toCodeUnits "# v1.0".toList) ∧
      Updatelog.updatelog (some "# 更新日志\n\n🚀## v1.0\n- a\n".toList) "v1.0".toList none =
        (Except.ok [], "# 更新日志\n\n🚀## v1.0\n- a\n".toList) ∧
      Updatelog.updatelog (some "# 更新日志\n\n🚀## v1.0\n- a\n".toList) "# v1.0".toList
          none =
        (Except.ok "- a".toList, "# 更新日志\n\n🚀## v1.0\n- a\n".toList) := by
  decide!

/-- C24, as claimed, fails when other content follows the title block: for the log
`# 更新日志`, a blank line and the line `intro`, which has no section of `v1.0.1`,
`updatelog('v1.0.1', 'release')` inserts the section above `intro`, and the next
`updatelog('v1.0.1')` returns the bullet followed by the line `intro`. -/
theorem updatelog_collects_following_text :
    split '\n' "# 更新日志\n\nintro\n".toList =
        ["# 更新日志".toList, [], "intro".toList, []] ∧
      isTagText "v1.0.1".toList = true ∧
      (Updatelog.scan { tag := none, tagMap := [] }
        (split '\n' "# 更新日志\n\nintro\n".toList)).tagMap.lookup
          (toCodeUnits "v1.0.1".toList) = none ∧
      Updatelog.updatelog (some "# 更新日志\n\nintro\n".toList) "v1.0.1".toList
          (some "release".toList) =
        (Except.ok "- 版本更新".toList, "# 更新日志\n\n## v1.0.1\n- 版本更新\nintro\n".toList) ∧
      Updatelog.updatelog (some "# 更新日志\n\n## v1.0.1\n- 版本更新\nintro\n".toList)
          "v1.0.1".toList none =
        (Except.ok "- 版本更新\nintro".toList,
          "# 更新日志\n\n## v1.0.1\n- 版本更新\nintro\n".toList) := by
  decide!

/-- C24, amended: let the log begin with a title line and a blank line, let it have no
section of the tag `t` (a `v` followed by digits and dots), and let the lines that follow
the blank line be blank up to the first heading or to the end. Then
`updatelog(t, 'release')` returns `- 版本更新` and rewrites the log with the lines `## t` and
`- 版本更新` after the blank line and before the rest; on the rewritten log, `updatelog(t)`
returns `- 版本更新` and leaves the log as it is. For every other type, `updatelog` returns
the empty text and leaves the log as it is. -/
theorem updatelog_release_inserts_section (text title blank tag : Str)
    (blanks tail : List Str)
    (hlines : split '\n' text = title :: blank :: (blanks ++ tail))
    (hsecond : isBlank blank = true)
    (htag : isTagText tag = true)
    (habsent : (Updatelog.scan { tag := none, tagMap := [] }
      (split '\n' text)).tagMap.lookup (toCodeUnits tag) = none)
    (hblank : ∀ b ∈ blanks, isBlank b = true)
    (htail : tail = [] ∨ ∃ h tl, tail = h :: tl ∧ Updatelog.test h = true) :
    ∃ newText,
      Updatelog.updatelog (some text) tag (some "release".toList) =
          (Except.ok "- 版本更新".toList, newText) ∧
        split '\n' newText =
          title :: blank :: ("## ".toList ++ tag) :: "- 版本更新".toList ::
            (if blanks ++ tail = [] then [[]] else blanks ++ tail) ∧
        Updatelog.updatelog (some newText) tag none =
          (Except.ok "- 版本更新".toList, newText) ∧
        ∀ type : Option Str, type ≠ some "release".toList →
          Updatelog.updatelog (some text) tag type = (Except.ok [], text) := by
  have hproto := Updatelog.not_prototype_key htag
  have hnl : ∀ l ∈ split '\n' text, '\n' ∉ l := Updatelog.sep_not_mem_split '\n' text
  have htitle_nl : '\n' ∉ title := hnl title (by rw [hlines]; simp)
  have hblank_nl : '\n' ∉ blank := hnl blank (by rw [hlines]; simp)
  have hsecond_test := Updatelog.test_blank hsecond
  have htag_nl := Updatelog.newline_not_mem_tag htag
  have htext : text = Updatelog.join '\n' (title :: blank :: (blanks ++ tail)) := by
    rw [← hlines, Updatelog.join_split]
  have hnone := Updatelog.no_heading_of_absent _ _ habsent
  -- the rewritten log and its lines
  have hnew : ∃ newText,
      Updatelog.updatelog (some text) tag (some "release".toList) =
          (Except.ok "- 版本更新".toList, newText) ∧
        split '\n' newText =
          title :: blank :: ("## ".toList ++ tag) :: "- 版本更新".toList ::
            (if blanks ++ tail = [] then [[]] else blanks ++ tail) := by
    by_cases hrest : blanks ++ tail = []
    · refine ⟨Updatelog.join '\n' [title, blank] ++
        ("\n## ".toList ++ tag ++ "\n- 版本更新\n".toList) ++ [], ?_, ?_⟩
      · have hlen : (split '\n' text).length ≤ 2 := by rw [hlines, hrest]; simp
        have ht2 : text = Updatelog.join '\n' [title, blank] := by
          rw [htext, hrest]
        simp only [Updatelog.updatelog, Option.getD_some, hproto, Bool.false_eq_true, if_false,
          habsent, if_true, hlen]
        rw [← ht2, List.append_nil]
      · rw [Updatelog.split_inserted _ _ _ _ htitle_nl hblank_nl htag_nl, if_pos hrest]
        rfl
    · refine ⟨Updatelog.join '\n' [title, blank] ++
        ("\n## ".toList ++ tag ++ "\n- 版本更新\n".toList) ++
        Updatelog.join '\n' (blanks ++ tail), ?_, ?_⟩
      · have hlen : ¬ (title :: blank :: (blanks ++ tail)).length ≤ 2 := by
          cases hbt : blanks ++ tail with
          | nil => exact absurd hbt hrest
          | cons x xs => simp
        have habsent2 := habsent
        rw [hlines] at habsent2
        simp only [Updatelog.updatelog, Option.getD_some, hproto, Bool.false_eq_true, if_false,
          if_true, hlines, habsent2, hlen, List.take, List.drop]
      · rw [Updatelog.split_inserted _ _ _ _ htitle_nl hblank_nl htag_nl, if_neg hrest,
          Updatelog.split_join _ _ hrest
            (fun l hl => hnl l (by rw [hlines]; simp [hl]))]
  obtain ⟨newText, hret, hsplit⟩ := hnew
  refine ⟨newText, hret, hsplit, ?_, ?_⟩
  · -- the scan of the rewritten log
    have hempty : Updatelog.test [] = false := by decide
    have hB : Updatelog.test "- 版本更新".toList = false := by decide
    have htagne := Updatelog.toCodeUnits_tag_ne_nil htag
    have hstart : ∀ rest2 : List Str, ∃ st3 : Updatelog.ScanState,
        Updatelog.scan { tag := none, tagMap := [] }
            (title :: blank :: ("## ".toList ++ tag) :: rest2) = Updatelog.scan st3 rest2 ∧
          st3.tag = some (toCodeUnits tag) ∧
          st3.tagMap.lookup (toCodeUnits tag) = some [] := by
      intro rest2
      have hT : headingTag title ≠ some (toCodeUnits tag) :=
        hnone title (by rw [hlines]; simp)
      have hBl : headingTag blank ≠ some (toCodeUnits tag) := by
        unfold headingTag
        rw [hsecond_test]
        simp
      have r1 := @Updatelog.scanLine_other (toCodeUnits tag) { tag := none, tagMap := [] }
        title (some blank) hT (by simp)
      have r2 := @Updatelog.scanLine_other (toCodeUnits tag) _ blank
        (some ("## ".toList ++ tag)) hBl r1.1
      have hnone2 : (Updatelog.scanLine
          (Updatelog.scanLine { tag := none, tagMap := [] } title (some blank)) blank
          (some ("## ".toList ++ tag))).tagMap.lookup (toCodeUnits tag) = none := by
        rw [r2.2, r1.2]
        rfl
      obtain ⟨h3a, h3b⟩ := Updatelog.scanLine_new_heading _ rest2.head? htag hnone2
      exact ⟨_, rfl, h3a, h3b⟩
    have hlook : ∃ blanks2 : List Str, (∀ b ∈ blanks2, isBlank b = true) ∧
        (Updatelog.scan { tag := none, tagMap := [] }
          (split '\n' newText)).tagMap.lookup (toCodeUnits tag) =
          some ("- 版本更新".toList :: blanks2) := by
      obtain ⟨st3, hscan, h3tag, h3look⟩ := hstart
        ("- 版本更新".toList :: (if blanks ++ tail = [] then [[]] else blanks ++ tail))
      rw [hsplit, hscan]
      have htail_no : ∀ l ∈ tail, headingTag l ≠ some (toCodeUnits tag) :=
        fun l hl => hnone l (by rw [hlines]; simp [hl])
      by_cases hrest : blanks ++ tail = []
      · obtain ⟨hb0, ht0⟩ := List.append_eq_nil.mp hrest
        refine ⟨[[]], by simp [isBlank], ?_⟩
        rw [if_pos hrest]
        have := Updatelog.scan_run htagne [] (Or.inl rfl) (by simp)
          ["- 版本更新".toList, []] st3 []
          (by simp) (by
            intro l hl
            simp only [List.mem_cons, List.mem_singleton, List.not_mem_nil, or_false] at hl
            rcases hl with rfl | rfl
            · exact hB
            · exact hempty) h3tag h3look
        simpa using this
      · refine ⟨blanks, hblank, ?_⟩
        rw [if_neg hrest]
        have := Updatelog.scan_run htagne tail htail htail_no
          ("- 版本更新".toList :: blanks) st3 []
          (by simp) (by
            intro l hl
            rcases List.mem_cons.mp hl with rfl | h
            · exact hB
            · exact Updatelog.test_blank (hblank l h)) h3tag h3look
        simpa using this
    obtain ⟨blanks2, hb2, hlook2⟩ := hlook
    obtain ⟨w, hw, hws⟩ := Updatelog.join_bullet_blanks "- 版本更新".toList blanks2 hb2
    have htrim : trim (Updatelog.join '\n' ("- 版本更新".toList :: blanks2)) =
        "- 版本更新".toList := by
      rw [hw]
      exact trim_append_bullet w hws
    simp only [Updatelog.updatelog, Option.getD_some, hproto, Bool.false_eq_true, if_false,
      hlook2, htrim]
  · intro type htype
    have hne : ¬ (type.getD "updater".toList = "release".toList) := by
      cases type with
      | none => decide
      | some x => exact fun h => htype (by rw [Option.getD_some] at h; rw [h])
    simp only [Updatelog.updatelog, Option.getD_some, hproto, Bool.false_eq_true, if_false,
      habsent, hne]

/-- Witness for C24: a log with a title, a line of one space, an empty line and a section
of `v1.0.0`. -/
theorem updatelog_release_inserts_section_witness :
    split '\n' "# 更新日志\n \n\n## v1.0.0\n- a".toList =
        "# 更新日志".toList :: " ".toList :: ([[]] ++ ["## v1.0.0".toList, "- a".toList]) ∧
      isBlank " ".toList = true ∧ isTagText "v1.0.1".toList = true ∧
      (Updatelog.scan { tag := none, tagMap := [] }
        (split '\n' "# 更新日志\n \n\n## v1.0.0\n- a".toList)).tagMap.lookup
          (toCodeUnits "v1.0.1".toList) = none ∧
      Updatelog.test "## v1.0.0".toList = true ∧
      ∃ newText,
        Updatelog.updatelog (some "# 更新日志\n \n\n## v1.0.0\n- a".toList) "v1.0.1".toList
            (some "release".toList) = (Except.ok "- 版本更新".toList, newText) ∧
          split '\n' newText =
            "# 更新日志".toList :: " ".toList :: ("## ".toList ++ "v1.0.1".toList) ::
              "- 版本更新".toList ::
              (if [[]] ++ ["## v1.0.0".toList, "- a".toList] = [] then [[]]
               else [[]] ++ ["## v1.0.0".toList, "- a".toList]) ∧
          Updatelog.updatelog (some newText) "v1.0.1".toList none =
            (Except.ok "- 版本更新".toList, newText) ∧
          ∀ type : Option Str, type ≠ some "release".toList →
            Updatelog.updatelog (some "# 更新日志\n \n\n## v1.0.0\n- a".toList)
              "v1.0.1".toList type =
              (Except.ok [], "# 更新日志\n \n\n## v1.0.0\n- a".toList) :=
  ⟨by decide, by decide, by decide, by decide!, by decide!,
    updatelog_release_inserts_section "# 更新日志\n \n\n## v1.0.0\n- a".toList
      "# 更新日志".toList " ".toList "v1.0.1".toList [[]]
      ["## v1.0.0".toList, "- a".toList]
      (by decide) (by decide) (by decide) (by decide!) (by decide)
      (Or.inr ⟨_, _, rfl, by decide!⟩)⟩

/-! ## Exact quotients of the integers below `2^53` -/

theorem two_pow_log2Floor_le (fuel : Nat) : ∀ m : Nat, 0 < m → 2 ^ log2Floor fuel m ≤ m := by
  induction fuel with
  | zero =>
    intro m hm
    simpa [log2Floor] using hm
  | succ f ih =>
    intro m hm
    unfold log2Floor
    split_ifs with h2
    · simpa using hm
    · have h1 : 0 < m / 2 := Nat.div_pos (by omega) (by norm_num)
      have := ih (m / 2) h1
      rw [Nat.pow_succ]
      omega

theorem roundHalfEven_between (S d lo hi g : Nat) (hd : d < 2 * g) (hlo : lo * d + g ≤ S)
    (hhi : S + g ≤ hi * d) : lo < roundHalfEven S d ∧ roundHalfEven S d < hi := by
  have hdpos : 0 < d := by
    rcases Nat.eq_zero_or_pos d with h0 | h0
    · subst h0
      omega
    · exact h0
  have hdm := Nat.div_add_mod S d
  have hr := Nat.mod_lt S hdpos
  have hf1 : lo ≤ S / d := by
    rw [Nat.le_div_iff_mul_le hdpos]
    omega
  have hf2 : S / d < hi := by
    rw [Nat.div_lt_iff_lt_mul hdpos]
    omega
  unfold roundHalfEven
  dsimp only
  constructor
  · rcases Nat.lt_or_ge lo (S / d) with hlt | hge
    · split_ifs <;> omega
    · have heq : S / d = lo := Nat.le_antisymm hge hf1
      have hmul : d * (S / d) = lo * d := by rw [heq, Nat.mul_comm]
      have h2 : d < 2 * (S % d) := by omega
      rw [if_neg (by omega), if_pos h2]
      omega
  · rcases Nat.lt_or_ge (S / d + 1) hi with hlt | hge
    · split_ifs <;> omega
    · have heq : S / d + 1 = hi := Nat.le_antisymm (by omega) hge
      have hmul : d * (S / d) + d = hi * d := by rw [← heq]; ring
      have h2 : 2 * (S % d) < d := by omega
      rw [if_pos h2]
      omega

theorem round_quotient_aux (p q E J : Nat) (hq0 : 0 < q) (hJ : 0 < J)
    (hd : q * J < 2 * (E * J)) :
    (p % q = 0 → roundHalfEven (p * (E * J)) (q * J) * J = p / q * (E * J)) ∧
      (p % q ≠ 0 → p / q * (E * J) < roundHalfEven (p * (E * J)) (q * J) * J ∧
        roundHalfEven (p * (E * J)) (q * J) * J < (p / q + 1) * (E * J)) := by
  have hdm := Nat.div_add_mod p q
  have hr := Nat.mod_lt p hq0
  constructor
  · intro h0
    have hp : p = p / q * q := by
      rw [h0, Nat.add_zero, Nat.mul_comm] at hdm
      exact hdm.symm
    have hS : p * (E * J) = (p / q * E) * (q * J) := by
      conv_lhs => rw [hp]
      ring
    rw [hS, roundHalfEven_mul _ _ (Nat.mul_pos hq0 hJ)]
    ring
  · intro h0
    have hlo : (p / q * E) * (q * J) + E * J ≤ p * (E * J) := by
      have h1 : p / q * q + 1 ≤ p := by
        rw [Nat.mul_comm]
        omega
      calc (p / q * E) * (q * J) + E * J = (p / q * q + 1) * (E * J) := by ring
        _ ≤ p * (E * J) := Nat.mul_le_mul_right _ h1
    have hhi : p * (E * J) + E * J ≤ ((p / q + 1) * E) * (q * J) := by
      have h1 : p + 1 ≤ (p / q + 1) * q := by
        rw [Nat.add_mul, Nat.one_mul, Nat.mul_comm]
        omega
      calc p * (E * J) + E * J = (p + 1) * (E * J) := by ring
        _ ≤ ((p / q + 1) * q) * (E * J) := Nat.mul_le_mul_right _ h1
        _ = ((p / q + 1) * E) * (q * J) := by ring
    obtain ⟨h1, h2⟩ := roundHalfEven_between _ _ _ _ _ hd hlo hhi
    constructor
    · calc p / q * (E * J) = (p / q * E) * J := by ring
        _ < roundHalfEven (p * (E * J)) (q * J) * J := Nat.mul_lt_mul_of_pos_right h1 hJ
    · calc roundHalfEven (p * (E * J)) (q * J) * J < ((p / q + 1) * E) * J :=
            Nat.mul_lt_mul_of_pos_right h2 hJ
        _ = (p / q + 1) * (E * J) := by ring

set_option exponentiation.threshold 4096 in
/-- The quotient of an integer below `2^53` by a positive integer up to `2^53`, rounded to
binary64, lies strictly between the integers around the exact quotient, and is the exact
quotient when this is an integer. -/
theorem roundBinary64_quotient (p q : Nat) (hp : p < 2 ^ 53) (hq0 : 0 < q) (hq : q ≤ 2 ^ 53) :
    ∃ k : Nat, roundBinary64 p q = JSNumber.fin k ∧
      (p % q = 0 → k = p / q * 2 ^ 1074) ∧
      (p % q ≠ 0 → p / q * 2 ^ 1074 < k ∧ k < (p / q + 1) * 2 ^ 1074) := by
  obtain ⟨T, hT⟩ : ∃ T : Nat, T = 2 ^ 1074 := ⟨_, rfl⟩
  have hTpos : 0 < T := by rw [hT]; positivity
  have hS : p * T < 2 ^ 53 * T := Nat.mul_lt_mul_of_pos_right hp hTpos
  have hexp : 53 + 1074 = 1126 + 1 := by norm_num
  have hpow : 2 ^ 53 * T = 2 ^ (1126 + 1) := by rw [hT, ← Nat.pow_add, hexp]
  have hk0 : p * T / q < 2 ^ (1126 + 1) :=
    lt_of_le_of_lt (Nat.div_le_self _ _) (hpow ▸ hS)
  have hlog := log2Floor_le (p * T / q) 1126 (p * T / q) hk0
  have hlow : ∀ t, 0 < t → log2Floor (p * T / q) (p * T / q) = t → 2 ^ t * q ≤ p * T := by
    intro t ht hL
    have hpos : 0 < p * T / q := by
      rcases Nat.eq_zero_or_pos (p * T / q) with h0 | h0
      · rw [h0] at hL
        have : log2Floor 0 0 = 0 := rfl
        omega
      · exact h0
    have := two_pow_log2Floor_le (p * T / q) (p * T / q) hpos
    rw [hL] at this
    calc 2 ^ t * q ≤ p * T / q * q := Nat.mul_le_mul_right _ this
      _ ≤ p * T := Nat.div_mul_le_self _ _
  generalize hL : log2Floor (p * T / q) (p * T / q) = L at hlog hlow
  have hj1 : L - 52 ≤ 1074 := by omega
  have hTT : 2 * T = 2 ^ 1075 := by rw [hT, ← Nat.pow_succ']
  have hd : q * 2 ^ (L - 52) < 2 * (2 ^ (1074 - (L - 52)) * 2 ^ (L - 52)) := by
    rw [← Nat.pow_add, Nat.sub_add_cancel hj1, ← hT]
    rcases Nat.eq_zero_or_pos (L - 52) with hj0 | hjpos
    · rw [hj0, Nat.pow_zero, Nat.mul_one, hTT]
      exact lt_of_le_of_lt hq (Nat.pow_lt_pow_right (by norm_num) (by norm_num))
    · have h1 := hlow L (by omega) rfl
      have hLe : L = (L - 52) + 52 := by omega
      have h2 : q * 2 ^ (L - 52) * 2 ^ 52 < 2 * T * 2 ^ 52 := by
        calc q * 2 ^ (L - 52) * 2 ^ 52 = 2 ^ L * q := by
              conv_rhs => rw [hLe, Nat.pow_add]
              ring
          _ ≤ p * T := h1
          _ < 2 ^ 53 * T := hS
          _ = 2 * T * 2 ^ 52 := by ring
      exact Nat.lt_of_mul_lt_mul_right h2
  have hsplit : T = 2 ^ (1074 - (L - 52)) * 2 ^ (L - 52) := by
    rw [← Nat.pow_add, Nat.sub_add_cancel hj1, hT]
  have haux := round_quotient_aux p q (2 ^ (1074 - (L - 52))) (2 ^ (L - 52)) hq0
    (by positivity) hd
  rw [← hsplit] at haux
  have hn : p / q + 1 ≤ 2 ^ 53 := lt_of_le_of_lt (Nat.div_le_self _ _) hp
  have hfin : ∀ k : Nat, k < (p / q + 1) * T → ¬ 2 ^ 2098 ≤ k := by
    intro k hk hle
    have h1 : (p / q + 1) * T ≤ 2 ^ 53 * T := Nat.mul_le_mul_right _ hn
    have h2 : (2 : Nat) ^ (1126 + 1) ≤ 2 ^ 2098 := Nat.pow_le_pow_right (by norm_num) (by norm_num)
    omega
  have hkT : ∀ k : Nat, (p % q = 0 → k = p / q * T) →
      (p % q ≠ 0 → p / q * T < k ∧ k < (p / q + 1) * T) → k < (p / q + 1) * T := by
    intro k ha hb
    by_cases h0 : p % q = 0
    · rw [ha h0, Nat.add_mul, Nat.one_mul]
      omega
    · exact (hb h0).2
  refine ⟨roundHalfEven (p * T) (q * 2 ^ (L - 52)) * 2 ^ (L - 52), ?_, ?_, ?_⟩
  · unfold roundBinary64
    dsimp only
    rw [← hT, hL, if_neg (hfin _ (hkT _ haux.1 haux.2))]
  · rw [← hT]
    exact haux.1
  · rw [← hT]
    exact haux.2

/-! ## The operators on the integers up to `2^53` -/

theorem cast_scale (n : Nat) : ((n : Int) * 2 ^ 1074) = ((n * 2 ^ 1074 : Nat) : Int) := by
  rw [Nat.cast_mul, Nat.cast_pow]
  rfl

theorem cast_unit : ((2 ^ 1074 : Nat) : Int) = 2 ^ 1074 := by
  rw [Nat.cast_pow]
  rfl

theorem fdiv_between (T k n : Nat) (hT : 0 < T) (h1 : n * T ≤ k) (h2 : k < (n + 1) * T) :
    Int.fdiv (k : Int) (T : Int) = n := by
  rw [Int.fdiv_eq_ediv _ (Int.ofNat_nonneg T)]
  have hdiv : k / T = n := by
    apply Nat.le_antisymm
    · exact Nat.lt_succ_iff.mp ((Nat.div_lt_iff_lt_mul hT).mpr h2)
    · exact (Nat.le_div_iff_mul_le hT).mpr h1
  rw [← hdiv]
  exact (Int.natCast_div k T).symm

theorem floor_of_between (k n : Nat) (h1 : n * 2 ^ 1074 ≤ k) (h2 : k < (n + 1) * 2 ^ 1074) :
    JSNumber.floor (JSNumber.fin k) = JSNumber.ofNat n := by
  have h := fdiv_between (2 ^ 1074) k n (by positivity) h1 h2
  rw [cast_unit] at h
  simp only [JSNumber.floor, JSNumber.ofNat, h]

theorem neg_fdiv_neg (T k n : Nat) (hT : 0 < T) (h1 : n * T < k) (h2 : k ≤ (n + 1) * T) :
    -(Int.fdiv (-(k : Int)) (T : Int)) = ((n + 1 : Nat) : Int) := by
  rw [Int.fdiv_eq_ediv _ (Int.ofNat_nonneg T)]
  have hTi : (0 : Int) < T := Int.ofNat_pos.mpr hT
  have h1i : (n : Int) * T < k := by exact_mod_cast h1
  have h2i : (k : Int) ≤ (n + 1) * T := by exact_mod_cast h2
  have hsplit : (-(k : Int)) = (((n : Int) + 1) * T - k) + (-((n : Int) + 1)) * T := by ring
  have hzero : (((n : Int) + 1) * T - k) / (T : Int) = 0 :=
    Int.ediv_eq_zero_of_lt (by linarith) (by linarith)
  rw [hsplit, Int.add_mul_ediv_right _ _ (ne_of_gt hTi), hzero]
  push_cast
  ring

theorem ceil_of_between (k n : Nat) (h1 : n * 2 ^ 1074 < k) (h2 : k ≤ (n + 1) * 2 ^ 1074) :
    JSNumber.ceil (JSNumber.fin k) = JSNumber.ofNat (n + 1) := by
  have h := neg_fdiv_neg (2 ^ 1074) k n (by positivity) h1 h2
  rw [cast_unit] at h
  simp only [JSNumber.ceil, JSNumber.ofNat, h]

theorem floor_ofNat (n : Nat) : JSNumber.floor (JSNumber.ofNat n) = JSNumber.ofNat n := by
  have h := floor_of_between (n * 2 ^ 1074) n (Nat.le_refl _)
    (Nat.mul_lt_mul_of_pos_right (Nat.lt_succ_self n) (by positivity))
  rw [← cast_scale] at h
  exact h

theorem ceil_ofNat (n : Nat) : JSNumber.ceil (JSNumber.ofNat n) = JSNumber.ofNat n := by
  have hT : ((2 : Int) ^ 1074) ≠ 0 := by positivity
  have h : -(Int.fdiv (-((n : Int) * 2 ^ 1074)) (2 ^ 1074)) = n := by
    rw [Int.fdiv_eq_ediv _ (by positivity), ← neg_mul, Int.mul_ediv_cancel _ hT, neg_neg]
  simp only [JSNumber.ceil, JSNumber.ofNat, h]

theorem div_ofNat (s h : Nat) (hh : 0 < h) :
    JSNumber.div (JSNumber.ofNat s) (JSNumber.ofNat h) = roundBinary64 s h := by
  have hpos : (0 : Int) < ((h * 2 ^ 1074 : Nat) : Int) :=
    Int.ofNat_pos.mpr (Nat.mul_pos hh (by positivity))
  simp only [JSNumber.ofNat, JSNumber.div, roundSigned]
  rw [cast_scale s, cast_scale h, if_neg (ne_of_gt hpos), Int.sign_eq_one_of_pos hpos,
    Int.mul_one, if_neg (by exact not_lt.mpr (Int.ofNat_nonneg _)), Int.toNat_ofNat,
    Int.natAbs_ofNat]
  exact roundBinary64_mul_right s h (2 ^ 1074) (by positivity)

theorem floor_div_ofNat (s h : Nat) (hs : s < 2 ^ 53) (hh : 0 < h) (hh2 : h ≤ 2 ^ 53) :
    JSNumber.floor (JSNumber.div (JSNumber.ofNat s) (JSNumber.ofNat h)) =
      JSNumber.ofNat (s / h) := by
  rw [div_ofNat s h hh]
  obtain ⟨k, hk, h0, h1⟩ := roundBinary64_quotient s h hs hh hh2
  rw [hk]
  by_cases hm : s % h = 0
  · rw [h0 hm, ← cast_scale]
    exact floor_ofNat _
  · exact floor_of_between k _ (le_of_lt (h1 hm).1) (h1 hm).2

theorem ceil_div_ofNat (s h : Nat) (hs : s < 2 ^ 53) (hh : 0 < h) (hh2 : h ≤ 2 ^ 53) :
    JSNumber.ceil (JSNumber.div (JSNumber.ofNat s) (JSNumber.ofNat h)) =
      JSNumber.ofNat ((s + h - 1) / h) := by
  rw [div_ofNat s h hh]
  obtain ⟨k, hk, h0, h1⟩ := roundBinary64_quotient s h hs hh hh2
  have hdm := Nat.div_add_mod s h
  have hr := Nat.mod_lt s hh
  rw [hk]
  by_cases hm : s % h = 0
  · have hq : (s + h - 1) / h = s / h := by
      apply Nat.le_antisymm
      · apply Nat.lt_succ_iff.mp
        rw [Nat.div_lt_iff_lt_mul hh, Nat.succ_mul, Nat.mul_comm]
        omega
      · exact Nat.div_le_div_right (by omega)
    rw [h0 hm, hq, ← cast_scale]
    exact ceil_ofNat _
  · have hq : (s + h - 1) / h = s / h + 1 := by
      apply Nat.le_antisymm
      · apply Nat.lt_succ_iff.mp
        rw [Nat.div_lt_iff_lt_mul hh, Nat.succ_mul, Nat.succ_mul, Nat.mul_comm]
        omega
      · rw [Nat.le_div_iff_mul_le hh, Nat.succ_mul, Nat.mul_comm]
        omega
    rw [hq]
    exact ceil_of_between k _ (h1 hm).1 (le_of_lt (h1 hm).2)

theorem ofNat_ne_nan (n : Nat) : JSNumber.ofNat n ≠ JSNumber.nan :=
  fun h => JSNumber.noConfusion h

theorem sub_ofNat_of_le (a o : Nat) (h : o ≤ a) (ha : a ≤ 2 ^ 53) :
    JSNumber.sub (JSNumber.ofNat a) (JSNumber.ofNat o) = JSNumber.ofNat (a - o) := by
  have hsum : ((a : Int) * 2 ^ 1074 + -((o : Int) * 2 ^ 1074)) =
      (((a - o) * 2 ^ 1074 : Nat) : Int) := by
    rw [Nat.cast_mul, Nat.cast_sub h, Nat.cast_pow, sub_mul]
    exact (sub_eq_add_neg _ _).symm
  have hdef : JSNumber.sub (JSNumber.ofNat a) (JSNumber.ofNat o) =
      roundSigned ((a : Int) * 2 ^ 1074 + -((o : Int) * 2 ^ 1074)) (2 ^ 1074) := rfl
  rw [hdef, roundSigned, hsum, if_neg (by exact not_lt.mpr (Int.ofNat_nonneg _)),
    Int.toNat_ofNat]
  have h1 : roundBinary64 ((a - o) * 2 ^ 1074) (1 * 2 ^ 1074) = roundBinary64 (a - o) 1 :=
    roundBinary64_mul_right (a - o) 1 (2 ^ 1074) (by positivity)
  rw [Nat.one_mul] at h1
  rw [h1, roundBinary64_of_le _ (le_trans (Nat.sub_le _ _) ha)]

theorem sub_ofNat_of_lt (a o : Nat) (h : a < o) (ho : o ≤ 2 ^ 53) :
    JSNumber.sub (JSNumber.ofNat a) (JSNumber.ofNat o) = (JSNumber.ofNat (o - a)).neg := by
  have hsum : ((a : Int) * 2 ^ 1074 + -((o : Int) * 2 ^ 1074)) =
      -(((o - a) * 2 ^ 1074 : Nat) : Int) := by
    rw [Nat.cast_mul, Nat.cast_sub (le_of_lt h), Nat.cast_pow, sub_mul, neg_sub]
    exact (sub_eq_add_neg _ _).symm
  have hpos : (0 : Int) < (((o - a) * 2 ^ 1074 : Nat) : Int) :=
    Int.ofNat_pos.mpr (Nat.mul_pos (Nat.sub_pos_of_lt h) (by positivity))
  have hdef : JSNumber.sub (JSNumber.ofNat a) (JSNumber.ofNat o) =
      roundSigned ((a : Int) * 2 ^ 1074 + -((o : Int) * 2 ^ 1074)) (2 ^ 1074) := rfl
  rw [hdef, roundSigned, hsum, if_pos (neg_lt_zero.mpr hpos), Int.natAbs_neg,
    Int.natAbs_ofNat]
  have h1 : roundBinary64 ((o - a) * 2 ^ 1074) (1 * 2 ^ 1074) = roundBinary64 (o - a) 1 :=
    roundBinary64_mul_right (o - a) 1 (2 ^ 1074) (by positivity)
  rw [Nat.one_mul] at h1
  rw [h1, roundBinary64_of_le _ (le_trans (Nat.sub_le _ _) ho)]

theorem max_zero_sub (a o : Nat) (ha : a ≤ 2 ^ 53) (ho : o ≤ 2 ^ 53) :
    JSNumber.max (JSNumber.ofNat 0) (JSNumber.sub (JSNumber.ofNat a) (JSNumber.ofNat o)) =
      JSNumber.ofNat (a - o) := by
  rcases Nat.lt_or_ge a o with hlt | hge
  · have hpos : (0 : Int) < (((o - a) * 2 ^ 1074 : Nat) : Int) :=
      Int.ofNat_pos.mpr (Nat.mul_pos (Nat.sub_pos_of_lt hlt) (by positivity))
    have hz : a - o = 0 := Nat.sub_eq_zero_of_le (le_of_lt hlt)
    have hlt2 : JSNumber.lt (JSNumber.ofNat 0) (JSNumber.ofNat (o - a)).neg = false := by
      simp only [JSNumber.ofNat, JSNumber.neg, JSNumber.lt]
      rw [cast_scale (o - a), Nat.cast_zero, zero_mul, decide_eq_false_iff_not]
      exact not_lt.mpr (le_of_lt (neg_lt_zero.mpr hpos))
    have hnn : (JSNumber.ofNat (o - a)).neg ≠ JSNumber.nan :=
      fun h => JSNumber.noConfusion h
    rw [sub_ofNat_of_lt a o hlt ho, hz]
    unfold JSNumber.max
    rw [if_neg (by exact not_or.mpr ⟨ofNat_ne_nan 0, hnn⟩), hlt2]
    rfl
  · rw [sub_ofNat_of_le a o hge ha]
    unfold JSNumber.max
    rw [if_neg (by exact not_or.mpr ⟨ofNat_ne_nan 0, ofNat_ne_nan _⟩),
      VersionRelease.ofNat_lt_iff]
    by_cases hz : 0 < a - o
    · rw [decide_eq_true hz, if_pos rfl]
    · rw [decide_eq_false hz, if_neg (by decide)]
      congr 1
      omega

theorem min_ofNat (a b : Nat) :
    JSNumber.min (JSNumber.ofNat a) (JSNumber.ofNat b) = JSNumber.ofNat (min a b) := by
  unfold JSNumber.min
  rw [if_neg (by exact not_or.mpr ⟨ofNat_ne_nan a, ofNat_ne_nan b⟩),
    VersionRelease.ofNat_lt_iff]
  by_cases h : b < a
  · rw [decide_eq_true h, if_pos rfl, Nat.min_eq_right (le_of_lt h)]
  · rw [decide_eq_false h, if_neg (by decide), Nat.min_eq_left (not_lt.mp h)]

theorem mul_ofNat (m n : Nat) :
    JSNumber.mul (JSNumber.ofNat m) (JSNumber.ofNat n) = roundBinary64 (m * n) 1 := by
  have hprod : ((m : Int) * 2 ^ 1074 * ((n : Int) * 2 ^ 1074)) =
      (((m * n) * (2 ^ 1074 * 2 ^ 1074) : Nat) : Int) := by
    rw [Nat.cast_mul, Nat.cast_mul, Nat.cast_mul, Nat.cast_pow, mul_mul_mul_comm]
    rfl
  simp only [JSNumber.ofNat, JSNumber.mul, roundSigned]
  rw [hprod, if_neg (by exact not_lt.mpr (Int.ofNat_nonneg _)), Int.toNat_ofNat]
  have h1 := roundBinary64_mul_right (m * n) 1 (2 ^ 1074 * 2 ^ 1074) (by positivity)
  rw [Nat.one_mul] at h1
  exact h1

theorem relativeIndex_ofNat (len a : Nat) :
    relativeIndex len (JSNumber.ofNat a) = min a len := by
  have ht : Int.tdiv ((a : Int) * 2 ^ 1074) (2 ^ 1074) = a := by
    have hT : ((2 : Int) ^ 1074) ≠ 0 := by positivity
    have hnn : (0 : Int) ≤ (a : Int) * 2 ^ 1074 :=
      mul_nonneg (Int.ofNat_nonneg a) (le_of_lt (by positivity))
    rw [Int.tdiv_eq_ediv hnn (le_of_lt (by positivity)), Int.mul_ediv_cancel _ hT]
  simp only [relativeIndex, JSNumber.ofNat, ht]
  rw [if_neg (by exact not_lt.mpr (Int.ofNat_nonneg _)), Int.toNat_ofNat]

theorem length_mapIndexed {α β : Type} (f : α → Nat → β) :
    ∀ (xs : List α) (i : Nat), (mapIndexed f i xs).length = xs.length := by
  intro xs
  induction xs with
  | nil => intro i; rfl
  | cons x xs ih =>
    intro i
    simp only [mapIndexed, List.length_cons, ih]

theorem getElem?_mapIndexed {α β : Type} (f : α → Nat → β) :
    ∀ (xs : List α) (i k : Nat),
      (mapIndexed f i xs)[k]? = (xs[k]?).map (fun x => f x (i + k)) := by
  intro xs
  induction xs with
  | nil => intro i k; rfl
  | cons x xs ih =>
    intro i k
    cases k with
    | zero => simp [mapIndexed]
    | succ k =>
      simp only [mapIndexed, List.getElem?_cons_succ, ih]
      congr 1
      funext y
      congr 1
      omega

theorem getElem?_slice {α : Type} (xs : List α) (a e k : Nat) (x : α)
    (h : ((xs.drop a).take (e - a))[k]? = some x) : xs[a + k]? = some x ∧ a + k < e := by
  rw [List.getElem?_take] at h
  split_ifs at h with hk
  · rw [List.getElem?_drop] at h
    exact ⟨h, by omega⟩

theorem ofNat_zero : JSNumber.ofNat 0 = JSNumber.fin 0 := by
  unfold JSNumber.ofNat
  rw [Nat.cast_zero, zero_mul]

namespace VirtualScroll

theorem falsy_length {α : Type} (xs : List α) :
    falsy (lengthOf (some xs)) = decide (xs.length = 0) := by
  have hnan := ofNat_ne_nan xs.length
  by_cases h0 : xs.length = 0
  · simp only [lengthOf, Option.map_some', falsy, h0, ofNat_zero, decide_True, or_true]
  · have hne : JSNumber.ofNat xs.length ≠ JSNumber.fin 0 := by
      rw [← ofNat_zero]
      exact fun h => h0 (VersionRelease.ofNat_injective h)
    simp only [lengthOf, Option.map_some', falsy, hnan, hne, or_self, decide_False, h0]

theorem orZero_length {α : Type} (xs : List α) :
    orZero (lengthOf (some xs)) = JSNumber.ofNat xs.length := by
  unfold orZero
  rw [falsy_length]
  by_cases h0 : xs.length = 0
  · rw [decide_eq_true h0, if_pos rfl, h0, ofNat_zero]
    rfl
  · rw [decide_eq_false h0, if_neg (by decide)]
    rfl

theorem ceil_le (x h : Nat) (hh : 0 < h) : (x + h - 1) / h ≤ x := by
  apply Nat.lt_succ_iff.mp
  rw [Nat.div_lt_iff_lt_mul hh, Nat.succ_mul]
  have : x ≤ x * h := Nat.le_mul_of_pos_right _ hh
  omega

theorem ceil_mul_le (x h : Nat) : (x + h - 1) / h * h ≤ x + h - 1 :=
  Nat.div_mul_le_self _ _

theorem startIndex_ofNat (h o s : Nat) (hh : 0 < h) (hh2 : h ≤ 2 ^ 53) (hs : s < 2 ^ 53)
    (ho : o ≤ 2 ^ 53) :
    startIndex { itemHeight := JSNumber.ofNat h, overscan := JSNumber.ofNat o }
      (JSNumber.ofNat s) = JSNumber.ofNat (s / h - o) := by
  unfold startIndex
  dsimp only
  rw [floor_div_ofNat s h hs hh hh2]
  exact max_zero_sub _ _ (le_trans (Nat.div_le_self _ _) (le_of_lt hs)) ho

theorem endIndex_ofNat {α : Type} (xs : List α) (h o s H : Nat) (hh : 0 < h)
    (hh2 : h ≤ 2 ^ 53) (hsum : s + H + o < 2 ^ 53) :
    endIndex { itemHeight := JSNumber.ofNat h, overscan := JSNumber.ofNat o }
        (JSNumber.ofNat s) (JSNumber.ofNat H) (some xs) =
      JSNumber.ofNat (min xs.length ((s + H + h - 1) / h + o)) := by
  have hc := ceil_le (s + H) h hh
  unfold endIndex
  dsimp only
  rw [orZero_length, add_ofNat s H, roundBinary64_of_le _ (by omega),
    ceil_div_ofNat (s + H) h (by omega) hh hh2, add_ofNat, roundBinary64_of_le _ (by omega)]
  exact min_ofNat _ _

end VirtualScroll

set_option maxRecDepth 100000 in
/-- C29, as claimed, fails for integers that are numbers but whose quotient is rounded: with
the item height `2^53 + 2`, the scroll offset `3 * 2^53 + 4`, no overscan and a viewport of
height `1`, the extent of the item of index `2` contains the scroll offset, but the quotient
of the offset by the height, just below `3`, is rounded to `3`: `startIndex` is `3`, and of
a list of three elements none is rendered. -/
theorem window_misses_item_large_height :
    roundBinary64 9007199254740994 1 = JSNumber.ofNat 9007199254740994 ∧
      roundBinary64 27021597764222980 1 = JSNumber.ofNat 27021597764222980 ∧
      2 < "abc".toList.length ∧
      2 * 9007199254740994 < 27021597764222980 + 1 ∧
      27021597764222980 < (2 + 1) * 9007199254740994 ∧
      VirtualScroll.startIndex
          { itemHeight := JSNumber.ofNat 9007199254740994, overscan := JSNumber.ofNat 0 }
          (JSNumber.ofNat 27021597764222980) = JSNumber.ofNat 3 ∧
      (VirtualScroll.visibleItems
          { itemHeight := JSNumber.ofNat 9007199254740994, overscan := JSNumber.ofNat 0 }
          (JSNumber.ofNat 27021597764222980) (JSNumber.ofNat 1)
          (some "abc".toList)).length = 0 := by
  decide!

/-- C29, amended: let the item height `h > 0`, the overscan `o`, the scroll offset `s` and
the viewport height `H` be integers with `s + H + (o + 1) * h ≤ 2^53`, so that every
quantity of the computation is an integer that binary64 holds. Then `startIndex` is
`⌊s / h⌋ - o`, or `0` when this is negative, and `endIndex` is the least of the list length
and `⌈(s + H) / h⌉ + o`; every index `i` below the list length with `i * h < s + H` and
`s < (i + 1) * h`, as is the case when the extent `[i * h, (i + 1) * h)` meets `[s, s + H)`,
has `startIndex ≤ i < endIndex`; there are `endIndex - startIndex` visible items, and the
`k`-th one is the list element of index `startIndex + k`, with `__index` equal to
`startIndex + k` and the top offset `(startIndex + k) * h` followed by `px`. -/
theorem window_covers_viewport {α : Type} (xs : List α) (h o s H : Nat) (hh : 0 < h)
    (hbound : s + H + (o + 1) * h ≤ 2 ^ 53) :
    VirtualScroll.startIndex { itemHeight := JSNumber.ofNat h, overscan := JSNumber.ofNat o }
        (JSNumber.ofNat s) = JSNumber.ofNat (s / h - o) ∧
      VirtualScroll.endIndex { itemHeight := JSNumber.ofNat h, overscan := JSNumber.ofNat o }
          (JSNumber.ofNat s) (JSNumber.ofNat H) (some xs) =
        JSNumber.ofNat (min xs.length ((s + H + h - 1) / h + o)) ∧
      (∀ i, i < xs.length → i * h < s + H → s < (i + 1) * h →
        s / h - o ≤ i ∧ i < min xs.length ((s + H + h - 1) / h + o)) ∧
      (VirtualScroll.visibleItems
          { itemHeight := JSNumber.ofNat h, overscan := JSNumber.ofNat o }
          (JSNumber.ofNat s) (JSNumber.ofNat H) (some xs)).length =
        min xs.length ((s + H + h - 1) / h + o) - (s / h - o) ∧
      ∀ (k : Nat) (v : VirtualScroll.VisibleItem α),
        (VirtualScroll.visibleItems
          { itemHeight := JSNumber.ofNat h, overscan := JSNumber.ofNat o }
          (JSNumber.ofNat s) (JSNumber.ofNat H) (some xs))[k]? = some v →
        xs[s / h - o + k]? = some v.item ∧
          v.__index = JSNumber.ofNat (s / h - o + k) ∧
          v.top = some (decimalText ((s / h - o + k) * h) ++ "px".toList) := by
  have h1 : o + 1 ≤ (o + 1) * h := Nat.le_mul_of_pos_right _ hh
  have h2 : h ≤ (o + 1) * h := Nat.le_mul_of_pos_left _ (Nat.succ_pos o)
  have hh2 : h ≤ 2 ^ 53 := by omega
  have hs : s < 2 ^ 53 := by omega
  have ho : o ≤ 2 ^ 53 := by omega
  have hsum : s + H + o < 2 ^ 53 := by omega
  have hc := VirtualScroll.ceil_le (s + H) h hh
  have hcm := VirtualScroll.ceil_mul_le (s + H) h
  have hstart := VirtualScroll.startIndex_ofNat h o s hh hh2 hs ho
  have hend := VirtualScroll.endIndex_ofNat xs h o s H hh hh2 hsum
  have hitems : VirtualScroll.visibleItems
      { itemHeight := JSNumber.ofNat h, overscan := JSNumber.ofNat o }
      (JSNumber.ofNat s) (JSNumber.ofNat H) (some xs) =
      if xs.length = 0 then []
      else mapIndexed
        (fun item index =>
          ({ item := item
             __index := JSNumber.add (JSNumber.ofNat (s / h - o)) (JSNumber.ofNat index)
             top := VirtualScroll.px (JSNumber.mul
               (JSNumber.add (JSNumber.ofNat (s / h - o)) (JSNumber.ofNat index))
               (JSNumber.ofNat h))
             height := VirtualScroll.px (JSNumber.ofNat h) } : VirtualScroll.VisibleItem α))
        0 ((xs.drop (min (s / h - o) xs.length)).take
          (min (min xs.length ((s + H + h - 1) / h + o)) xs.length -
            min (s / h - o) xs.length)) := by
    unfold VirtualScroll.visibleItems
    rw [VirtualScroll.falsy_length, hstart, hend]
    by_cases h0 : xs.length = 0
    · rw [decide_eq_true h0, if_pos rfl, if_pos h0]
    · rw [decide_eq_false h0, if_neg (by decide), if_neg h0]
      simp only [slice, relativeIndex_ofNat]
  refine ⟨hstart, hend, ?_, ?_, ?_⟩
  · intro i hi hlo hhi
    have ha : s / h < i + 1 := (Nat.div_lt_iff_lt_mul hh).mpr hhi
    have hb : i + 1 ≤ (s + H + h - 1) / h := by
      rw [Nat.le_div_iff_mul_le hh, Nat.succ_mul]
      omega
    omega
  · rw [hitems]
    by_cases h0 : xs.length = 0
    · rw [if_pos h0, h0]
      simp
    · rw [if_neg h0, length_mapIndexed, List.length_take, List.length_drop]
      omega
  · intro k v hv
    rw [hitems] at hv
    by_cases h0 : xs.length = 0
    · rw [if_pos h0] at hv
      exact absurd hv (by simp)
    · rw [if_neg h0, getElem?_mapIndexed] at hv
      obtain ⟨x, hx, hvx⟩ := Option.map_eq_some'.mp hv
      obtain ⟨hget, hlt⟩ := getElem?_slice xs _ _ k x hx
      have hmin : min (s / h - o) xs.length = s / h - o := by omega
      rw [hmin] at hget
      have hk : s / h - o + k + 1 ≤ (s + H + h - 1) / h + o := by omega
      have hmul : (s / h - o + k + 1) * h ≤ ((s + H + h - 1) / h + o) * h :=
        Nat.mul_le_mul_right _ hk
      rw [Nat.succ_mul (s / h - o + k) h, Nat.add_mul _ o h] at hmul
      have h3 : (o + 1) * h = o * h + h := by rw [Nat.succ_mul]
      have hprod : (s / h - o + k) * h ≤ 2 ^ 53 := by omega
      have hidx : JSNumber.add (JSNumber.ofNat (s / h - o)) (JSNumber.ofNat (0 + k)) =
          JSNumber.ofNat (s / h - o + k) := by
        rw [Nat.zero_add, add_ofNat, roundBinary64_of_le (s / h - o + k) (by omega)]
      subst hvx
      dsimp only
      refine ⟨hget, hidx, ?_⟩
      rw [hidx, mul_ofNat, roundBinary64_of_le _ hprod]
      simp only [VirtualScroll.px, numberToString_ofNat _ hprod, Option.map_some']

/-- Witness for C29: a list of 26 elements, items of height `40`, an overscan of `5`, the
scroll offset `400` and a viewport of height `90`. -/
theorem window_covers_viewport_witness :
    0 < 40 ∧ 400 + 90 + (5 + 1) * 40 ≤ 2 ^ 53 ∧
      VirtualScroll.startIndex
          { itemHeight := JSNumber.ofNat 40, overscan := JSNumber.ofNat 5 }
          (JSNumber.ofNat 400) = JSNumber.ofNat 5 ∧
      VirtualScroll.endIndex
          { itemHeight := JSNumber.ofNat 40, overscan := JSNumber.ofNat 5 }
          (JSNumber.ofNat 400) (JSNumber.ofNat 90)
          (some "abcdefghijklmnopqrstuvwxyz".toList) = JSNumber.ofNat 18 ∧
      (VirtualScroll.visibleItems
          { itemHeight := JSNumber.ofNat 40, overscan := JSNumber.ofNat 5 }
          (JSNumber.ofNat 400) (JSNumber.ofNat 90)
          (some "abcdefghijklmnopqrstuvwxyz".toList)).length = 13 :=
  ⟨by decide, by decide,
    (window_covers_viewport "abcdefghijklmnopqrstuvwxyz".toList 40 5 400 90 (by decide)
      (by decide)).1,
    (window_covers_viewport "abcdefghijklmnopqrstuvwxyz".toList 40 5 400 90 (by decide)
      (by decide)).2.1,
    (window_covers_viewport "abcdefghijklmnopqrstuvwxyz".toList 40 5 400 90 (by decide)
      (by decide)).2.2.2.1⟩

end FontViewer
